import Mathlib

/-!
Verification development for the shakmaty chess rules engine
(`position.rs`, `setup.rs`, `san.rs`, `uci.rs`).

The low-level modules (`types.rs`, `square.rs`, `bitboard.rs`, `board.rs`,
`attacks.rs`, `movelist.rs`) are consumed as external collaborators by the
four source files and are not part of the source tree; their definitions
below are modelled from the specification (its data-model section and the
external-interface section).  Everything from `position.rs`, `setup.rs`,
`san.rs` and `uci.rs` is translated directly from the source.
-/

namespace Shakmaty

/-- Modelled from the spec: a square is an integer 0..63 with file and rank
accessors (`square.rs` is not under the source tree). -/
abbrev Square := Fin 64

/-- Modelled from the spec: file accessor, 0..7. -/
def fileOf (s : Square) : Nat := (s : Nat) % 8

/-- Modelled from the spec: rank accessor, 0..7. -/
def rankOf (s : Square) : Nat := (s : Nat) / 8

/-- File as an integer, for delta arithmetic. -/
def fileI (s : Square) : Int := (fileOf s : Int)

/-- Rank as an integer, for delta arithmetic. -/
def rankI (s : Square) : Int := (rankOf s : Int)

/-- Modelled from the spec: build a square from file and rank. -/
def mkSquare (file rank : Nat) : Square :=
  ⟨(file % 8) + 8 * (rank % 8), by omega⟩

/-- Modelled from the spec: `Square::offset(delta)`, the square whose index is
shifted by `delta`, or `None` when the result leaves the board.  The engine
only uses vertical deltas (multiples of 8), for which no file wrapping can
occur. -/
def Square.offset (s : Square) (delta : Int) : Option Square :=
  if h : 0 ≤ (s : Int) + delta ∧ (s : Int) + delta < 64 then
    some ⟨((s : Int) + delta).toNat, by omega⟩
  else none

/-- Modelled from the spec: `Square::combine(other)` takes the file of `self`
and the rank of `other` (used for the en-passant captured pawn and for
castling destinations). -/
def Square.combine (s other : Square) : Square :=
  mkSquare (fileOf s) (rankOf other)

/-- Modelled from the spec: Chebyshev distance between squares (used by the
UCI binder to recognise a classical two-file king move). -/
def Square.distance (s t : Square) : Nat :=
  max ((fileI s - fileI t).natAbs) ((rankI s - rankI t).natAbs)

def squareA1 : Square := 0
def squareC1 : Square := 2
def squareD1 : Square := 3
def squareE1 : Square := 4
def squareF1 : Square := 5
def squareG1 : Square := 6
def squareH1 : Square := 7
def squareA8 : Square := 56
def squareC8 : Square := 58
def squareD8 : Square := 59
def squareE8 : Square := 60
def squareF8 : Square := 61
def squareG8 : Square := 62
def squareH8 : Square := 63

/-- Modelled from the spec: the two-valued colour type (`types.rs` is not
under the source tree). -/
inductive Color where
  | black : Color
  | white : Color
deriving DecidableEq, Repr

/-- Modelled from the spec: `Color::fold(white_value, black_value)`. -/
def Color.fold {α : Type} (c : Color) (w b : α) : α :=
  match c with
  | .white => w
  | .black => b

/-- Modelled from the spec: colour negation (`!color`). -/
def Color.other : Color → Color
  | .white => .black
  | .black => .white

def Color.isBlack (c : Color) : Bool :=
  match c with
  | .black => true
  | .white => false

/-- Modelled from the spec: the six piece roles. -/
inductive Role where
  | pawn | knight | bishop | rook | queen | king
deriving DecidableEq, Repr

/-- Modelled from the spec: `Role::char`, the lowercase piece letter as a
byte. -/
def Role.charB : Role → Nat
  | .pawn => 112
  | .knight => 110
  | .bishop => 98
  | .rook => 114
  | .queen => 113
  | .king => 107

/-- The uppercase piece letter as a byte (the display code computes
`32 ^ role.char()`). -/
def Role.upperB (r : Role) : Nat := r.charB - 32

/-- Modelled from the spec: `Role::from_char`, accepting the upper- or
lowercase piece letter. -/
def roleFromChar (c : Nat) : Option Role :=
  if c = 112 ∨ c = 80 then some .pawn
  else if c = 110 ∨ c = 78 then some .knight
  else if c = 98 ∨ c = 66 then some .bishop
  else if c = 114 ∨ c = 82 then some .rook
  else if c = 113 ∨ c = 81 then some .queen
  else if c = 107 ∨ c = 75 then some .king
  else none

/-- Modelled from the spec: a piece is a colour paired with a role. -/
structure Piece where
  color : Color
  role : Role
deriving DecidableEq, Repr

def Role.of (r : Role) (c : Color) : Piece := ⟨c, r⟩
def Color.pawnP (c : Color) : Piece := ⟨c, .pawn⟩
def Color.rookP (c : Color) : Piece := ⟨c, .rook⟩
def Color.kingP (c : Color) : Piece := ⟨c, .king⟩

/-- Modelled from the spec: a bitboard is a set of squares. -/
abbrev Bitboard := Finset Square

/-- Iterating a bitboard yields its squares in ascending order, matching the
source's lowest-bit-first iteration. -/
def Bitboard.toL (bb : Bitboard) : List Square :=
  (List.finRange 64).filter (fun s => s ∈ bb)

/-- Modelled from the spec: the lowest square of a bitboard
(`Bitboard::first`). -/
def Bitboard.first (bb : Bitboard) : Option Square :=
  (List.finRange 64).find? (fun s => s ∈ bb)

/-- Modelled from the spec: the highest square of a bitboard
(`Bitboard::last`). -/
def Bitboard.last (bb : Bitboard) : Option Square :=
  ((List.finRange 64).reverse).find? (fun s => s ∈ bb)

/-- Modelled from the spec: `Bitboard::single_square`, the sole element when
the bitboard has exactly one. -/
def Bitboard.singleSquare (bb : Bitboard) : Option Square :=
  if bb.card = 1 then bb.first else none

/-- Modelled from the spec: `Bitboard::more_than_one`. -/
def Bitboard.moreThanOne (bb : Bitboard) : Bool := 1 < bb.card

/-- Modelled from the spec: the bitboard of one rank. -/
def rankBB (r : Nat) : Bitboard :=
  Finset.univ.filter (fun s => rankOf s = r)

/-- Modelled from the spec: `Bitboard::relative_rank(color, r)` — rank `r`
for White, rank `7 - r` for Black. -/
def relativeRank (c : Color) (r : Nat) : Bitboard :=
  rankBB (c.fold r (7 - r))

/-- Modelled from the spec: the first and last ranks. -/
def backranks : Bitboard := rankBB 0 ∪ rankBB 7

/-- Modelled from the spec: the dark squares (a1 is dark). -/
def darkSquares : Bitboard :=
  Finset.univ.filter (fun s => (fileOf s + rankOf s) % 2 = 0)

/-- Modelled from the spec: the light squares. -/
def lightSquares : Bitboard :=
  Finset.univ.filter (fun s => (fileOf s + rankOf s) % 2 = 1)

/-- Modelled from the spec: `Bitboard::relative_shift(color, 8)`, one rank
towards the opponent, bits shifted off the board dropped. -/
def relShift8 (c : Color) (bb : Bitboard) : Bitboard :=
  Finset.univ.filter (fun s =>
    (match s.offset (c.fold (-8) 8) with
     | some t => decide (t ∈ bb)
     | none => false) = true)

/-- Symmetric difference of bitboards (`^` on the source's bitboards; a
single flipped square models `Bitboard::flip`). -/
def bbXor (a b : Bitboard) : Bitboard := (a \ b) ∪ (b \ a)

/-- Modelled from the spec: two distinct squares share one of the eight
rook/bishop rays (`attacks.rs` is not under the source tree). -/
def chessAlignedB (a b : Square) : Bool :=
  a != b &&
    (fileI a == fileI b || rankI a == rankI b ||
      (fileI a - fileI b).natAbs == (rankI a - rankI b).natAbs)

/-- `t` lies on the infinite line through `a` and `b` (cross-product test;
on the eight chess directions this coincides with the lattice line). -/
def collinearB (a b t : Square) : Bool :=
  (fileI b - fileI a) * (rankI t - rankI a) ==
    (rankI b - rankI a) * (fileI t - fileI a)

/-- Modelled from the spec: `t` lies strictly between `a` and `b` on a
shared ray (`attacks::between`), as a boolean predicate. -/
def betweenB (a b t : Square) : Bool :=
  chessAlignedB a b && collinearB a b t && t != a && t != b &&
    min (fileI a) (fileI b) ≤ fileI t && fileI t ≤ max (fileI a) (fileI b) &&
    min (rankI a) (rankI b) ≤ rankI t && rankI t ≤ max (rankI a) (rankI b)

/-- Modelled from the spec: `attacks::between(a, b)`, the squares strictly
between `a` and `b` on a shared ray (empty when not aligned). -/
def between (a b : Square) : Bitboard :=
  Finset.univ.filter (fun t => betweenB a b t = true)

/-- Modelled from the spec: `attacks::ray(a, b)`, the full ray containing
`a` and `b` (empty when not aligned). -/
def ray (a b : Square) : Bitboard :=
  if chessAlignedB a b then Finset.univ.filter (fun t => collinearB a b t = true)
  else ∅

/-- Modelled from the spec: `attacks::aligned(a, b, c)`, the collinearity
test `ray(a, b).contains(c)`. -/
def alignedB (a b c : Square) : Bool :=
  chessAlignedB a b && collinearB a b c

/-- The squares a knight on `s` attacks, as a boolean predicate. -/
def knightAttacksB (s t : Square) : Bool :=
  let df := (fileI s - fileI t).natAbs
  let dr := (rankI s - rankI t).natAbs
  (df == 1 && dr == 2) || (df == 2 && dr == 1)

/-- The squares a king on `s` attacks, as a boolean predicate. -/
def kingAttacksB (s t : Square) : Bool :=
  let df := (fileI s - fileI t).natAbs
  let dr := (rankI s - rankI t).natAbs
  max df dr == 1

/-- The squares a pawn of colour `c` on `s` attacks, as a boolean
predicate. -/
def pawnAttacksB (c : Color) (s t : Square) : Bool :=
  rankI t - rankI s == c.fold 1 (-1) && (fileI s - fileI t).natAbs == 1

/-- Two distinct squares share a rank or file. -/
def rookLineB (s t : Square) : Bool :=
  s != t && (fileI s == fileI t || rankI s == rankI t)

/-- Two distinct squares share a diagonal. -/
def bishopLineB (s t : Square) : Bool :=
  s != t && (fileI s - fileI t).natAbs == (rankI s - rankI t).natAbs

/-- No occupied square lies strictly between `s` and `t`. -/
def clearBetweenB (occ : Bitboard) (s t : Square) : Bool :=
  decide (∀ u ∈ occ, betweenB s t u = false)

/-- Modelled from the spec: `attacks::knight_attacks`. -/
def knightAttacks (s : Square) : Bitboard :=
  Finset.univ.filter (fun t => knightAttacksB s t = true)

/-- Modelled from the spec: `attacks::king_attacks`. -/
def kingAttacks (s : Square) : Bitboard :=
  Finset.univ.filter (fun t => kingAttacksB s t = true)

/-- Modelled from the spec: `attacks::pawn_attacks(color, s)`. -/
def pawnAttacks (c : Color) (s : Square) : Bitboard :=
  Finset.univ.filter (fun t => pawnAttacksB c s t = true)

/-- Modelled from the spec: `attacks::rook_attacks(s, occupied)` — squares
on `s`'s rank or file with nothing strictly between (the first blocker is
included). -/
def rookAttacks (s : Square) (occ : Bitboard) : Bitboard :=
  Finset.univ.filter (fun t => (rookLineB s t && clearBetweenB occ s t) = true)

/-- Modelled from the spec: `attacks::bishop_attacks(s, occupied)`. -/
def bishopAttacks (s : Square) (occ : Bitboard) : Bitboard :=
  Finset.univ.filter (fun t => (bishopLineB s t && clearBetweenB occ s t) = true)

/-- Modelled from the spec: `attacks::queen_attacks(s, occupied)`. -/
def queenAttacks (s : Square) (occ : Bitboard) : Bitboard :=
  rookAttacks s occ ∪ bishopAttacks s occ

/-- Modelled from the spec: the `Board` container mapping squares to pieces,
with the "promoted" shadow set (`board.rs` is not under the source tree). -/
structure Board where
  pieceAt : Square → Option Piece
  promoted : Bitboard

instance : DecidableEq Board := fun a b =>
  decidable_of_iff (a.pieceAt = b.pieceAt ∧ a.promoted = b.promoted)
    (by cases a; cases b; simp)

/-- Modelled from the spec: `Board::role_at`. -/
def Board.roleAt (b : Board) (s : Square) : Option Role :=
  (b.pieceAt s).map Piece.role

/-- The colour of the piece on a square, if any. -/
def Board.colorAt (b : Board) (s : Square) : Option Color :=
  (b.pieceAt s).map Piece.color

/-- Modelled from the spec: `Board::by_color`. -/
def Board.byColor (b : Board) (c : Color) : Bitboard :=
  Finset.univ.filter (fun s => b.colorAt s = some c)

/-- Modelled from the spec: `Board::by_role`. -/
def Board.byRole (b : Board) (r : Role) : Bitboard :=
  Finset.univ.filter (fun s => b.roleAt s = some r)

/-- Modelled from the spec: `Board::occupied`. -/
def Board.occupied (b : Board) : Bitboard :=
  Finset.univ.filter (fun s => (b.pieceAt s).isSome = true)

def Board.pawns (b : Board) : Bitboard := b.byRole .pawn
def Board.knights (b : Board) : Bitboard := b.byRole .knight
def Board.bishops (b : Board) : Bitboard := b.byRole .bishop
def Board.rooks (b : Board) : Bitboard := b.byRole .rook
def Board.queens (b : Board) : Bitboard := b.byRole .queen
def Board.kings (b : Board) : Bitboard := b.byRole .king

/-- Modelled from the spec: `Board::rooks_and_queens`. -/
def Board.rooksAndQueens (b : Board) : Bitboard := b.rooks ∪ b.queens

/-- Modelled from the spec: `Board::bishops_and_queens`. -/
def Board.bishopsAndQueens (b : Board) : Bitboard := b.bishops ∪ b.queens

/-- Modelled from the spec: `Board::sliders`. -/
def Board.sliders (b : Board) : Bitboard := b.bishops ∪ b.rooks ∪ b.queens

/-- Modelled from the spec: `Board::king_of(color)`. -/
def Board.kingOf (b : Board) (c : Color) : Option Square :=
  Bitboard.first (b.byColor c ∩ b.kings)

/-- Modelled from the spec: `Board::set_piece_at(sq, piece, promoted)`. -/
def Board.setPieceAt (b : Board) (s : Square) (p : Piece) (prom : Bool) : Board :=
  { pieceAt := fun t => if t = s then some p else b.pieceAt t,
    promoted := if prom then insert s b.promoted else b.promoted.erase s }

/-- Modelled from the spec: `Board::discard_piece_at(sq)`. -/
def Board.discardPieceAt (b : Board) (s : Square) : Board :=
  { pieceAt := fun t => if t = s then none else b.pieceAt t,
    promoted := b.promoted.erase s }

/-- Modelled from the spec: `Board::remove_piece_at(sq)` returns the removed
piece together with the updated board. -/
def Board.removePieceAt (b : Board) (s : Square) : Option Piece × Board :=
  (b.pieceAt s, b.discardPieceAt s)

/-- The piece `p` standing on `a` attacks `t` over occupancy `occ`. -/
def attackedFrom (p : Piece) (a t : Square) (occ : Bitboard) : Bool :=
  match p.role with
  | .pawn => pawnAttacksB p.color a t
  | .knight => knightAttacksB a t
  | .king => kingAttacksB a t
  | .bishop => bishopLineB a t && clearBetweenB occ a t
  | .rook => rookLineB a t && clearBetweenB occ a t
  | .queen => (rookLineB a t || bishopLineB a t) && clearBetweenB occ a t

/-- Modelled from the spec: `Board::attacks_to(sq, by_color, occupied)` —
the squares of pieces of `by_color` that attack `sq` given the occupancy
`occ`. -/
def Board.attacksTo (b : Board) (sq : Square) (c : Color) (occ : Bitboard) : Bitboard :=
  Finset.univ.filter (fun a =>
    (match b.pieceAt a with
     | some p => p.color == c && attackedFrom p a sq occ
     | none => false) = true)

/-- Modelled from the spec: a move (tagged variant).  The field names follow
`types.rs` (`from` is a Lean keyword, hence `from'`). -/
inductive Move where
  | normal (role : Role) (from' : Square) (capture : Option Role)
      (to' : Square) (promotion : Option Role) : Move
  | enPassant (from' : Square) (to' : Square) : Move
  | castle (king : Square) (rook : Square) : Move
  | put (role : Role) (to' : Square) : Move
deriving DecidableEq, Repr

/-- `KingSide` (O-O) or `QueenSide` (O-O-O), from `setup.rs`. -/
inductive CastlingSide where
  | kingSide | queenSide
deriving DecidableEq, Repr

/-- `CastlingSide::king_to`, from `setup.rs`. -/
def CastlingSide.kingTo (side : CastlingSide) (c : Color) : Square :=
  match side with
  | .kingSide => c.fold squareG1 squareG8
  | .queenSide => c.fold squareC1 squareC8

/-- `CastlingSide::rook_to`, from `setup.rs`. -/
def CastlingSide.rookTo (side : CastlingSide) (c : Color) : Square :=
  match side with
  | .kingSide => c.fold squareF1 squareF8
  | .queenSide => c.fold squareD1 squareD8

/-- The castling table, from `setup.rs`: a rook square and a path bitboard
for each of the four (color, side) slots. -/
structure Castling where
  rookBK : Option Square
  rookBQ : Option Square
  rookWK : Option Square
  rookWQ : Option Square
  pathBK : Bitboard
  pathBQ : Bitboard
  pathWK : Bitboard
  pathWQ : Bitboard

instance : DecidableEq Castling := fun a b =>
  decidable_of_iff
    (a.rookBK = b.rookBK ∧ a.rookBQ = b.rookBQ ∧ a.rookWK = b.rookWK ∧
      a.rookWQ = b.rookWQ ∧ a.pathBK = b.pathBK ∧ a.pathBQ = b.pathBQ ∧
      a.pathWK = b.pathWK ∧ a.pathWQ = b.pathWQ)
    (by cases a; cases b; simp)

/-- `Castling::rook(color, side)`. -/
def Castling.rook (ct : Castling) (c : Color) (side : CastlingSide) : Option Square :=
  match c, side with
  | .black, .kingSide => ct.rookBK
  | .black, .queenSide => ct.rookBQ
  | .white, .kingSide => ct.rookWK
  | .white, .queenSide => ct.rookWQ

/-- `Castling::path(color, side)`. -/
def Castling.path (ct : Castling) (c : Color) (side : CastlingSide) : Bitboard :=
  match c, side with
  | .black, .kingSide => ct.pathBK
  | .black, .queenSide => ct.pathBQ
  | .white, .kingSide => ct.pathWK
  | .white, .queenSide => ct.pathWQ

/-- `Castling::empty`. -/
def Castling.emptyC : Castling :=
  ⟨none, none, none, none, ∅, ∅, ∅, ∅⟩

/-- `Castling::default` (the standard chess table). -/
def Castling.defaultC : Castling :=
  { rookBK := some squareH8, rookBQ := some squareA8,
    rookWK := some squareH1, rookWQ := some squareA1,
    pathBK := {squareF8, squareG8},
    pathBQ := {(57 : Fin 64), (58 : Fin 64), (59 : Fin 64)},
    pathWK := {squareF1, squareG1},
    pathWQ := {(1 : Fin 64), (2 : Fin 64), (3 : Fin 64)} }

/-- `Castling::castling_rights`, the union of the four rook slots. -/
def Castling.castlingRights (ct : Castling) : Bitboard :=
  (ct.rookBK.elim ∅ (fun s => {s})) ∪ (ct.rookBQ.elim ∅ (fun s => {s})) ∪
    (ct.rookWK.elim ∅ (fun s => {s})) ∪ (ct.rookWQ.elim ∅ (fun s => {s}))

/-- `Castling::discard_rook(square)`. -/
def Castling.discardRook (ct : Castling) (s : Square) : Castling :=
  { ct with
    rookBK := ct.rookBK.filter (fun r => r != s),
    rookBQ := ct.rookBQ.filter (fun r => r != s),
    rookWK := ct.rookWK.filter (fun r => r != s),
    rookWQ := ct.rookWQ.filter (fun r => r != s) }

/-- `Castling::discard_side(color)`. -/
def Castling.discardSide (ct : Castling) (c : Color) : Castling :=
  match c with
  | .black => { ct with rookBK := none, rookBQ := none }
  | .white => { ct with rookWK := none, rookWQ := none }

/-- A not necessarily legal position, as a record of the `Setup` trait's
accessors (from `setup.rs`; the pocket and remaining-check accessors are
constantly `None` for standard chess and are omitted). -/
structure SetupS where
  board : Board
  turn : Color
  castlingRights : Bitboard
  epSquare : Option Square
  halfmoveClock : Nat
  fullmoves : Nat

instance : DecidableEq SetupS := fun a b =>
  decidable_of_iff
    (a.board = b.board ∧ a.turn = b.turn ∧ a.castlingRights = b.castlingRights ∧
      a.epSquare = b.epSquare ∧ a.halfmoveClock = b.halfmoveClock ∧
      a.fullmoves = b.fullmoves)
    (by cases a; cases b; simp)

/-- The queen-side half of `Castling::from_setup` for one colour: the slot
and path derived from the `a`-side rook, if any. -/
def castlingSlotQ (king : Square) (c : Color) (side : Bitboard) :
    Option Square × Bitboard :=
  match (Bitboard.first side).filter (fun rk => fileOf rk < fileOf king) with
  | some aSide =>
      let rto := CastlingSide.queenSide.rookTo c
      let kto := CastlingSide.queenSide.kingTo c
      (some aSide,
        ((((between king aSide) ∪ {rto}) ∪ {kto}).erase king).erase aSide)
  | none => (none, ∅)

/-- The king-side half of `Castling::from_setup` for one colour. -/
def castlingSlotK (king : Square) (c : Color) (side : Bitboard) :
    Option Square × Bitboard :=
  match (Bitboard.last side).filter (fun rk => fileOf king < fileOf rk) with
  | some hSide =>
      let rto := CastlingSide.kingSide.rookTo c
      let kto := CastlingSide.kingSide.kingTo c
      (some hSide,
        ((((between king hSide) ∪ {rto}) ∪ {kto}).erase king).erase hSide)
  | none => (none, ∅)

/-- Both slots of `Castling::from_setup` for one colour (`(None, ∅)` twice
when the king is absent, on a board-edge file, or off its home rank). -/
def castlingSlots (s : SetupS) (rooks : Bitboard) (c : Color) :
    (Option Square × Bitboard) × (Option Square × Bitboard) :=
  match s.board.kingOf c with
  | some king =>
      if fileOf king = 0 ∨ fileOf king = 7 ∨ rankOf king ≠ c.fold 0 7 then
        ((none, ∅), (none, ∅))
      else
        let side := rooks ∩ s.board.byColor c ∩ relativeRank c 0
        (castlingSlotQ king c side, castlingSlotK king c side)
  | none => ((none, ∅), (none, ∅))

/-- `Castling::from_setup`: build the table from the setup's castling-rights
bitboard; `Except.error` carries the partial table when the reconstructed
rights differ from the input (`BAD_CASTLING_RIGHTS`). -/
def Castling.fromSetup (s : SetupS) : Except Castling Castling :=
  let rights := s.castlingRights
  let rooks := rights ∩ s.board.rooks
  let bSlots := castlingSlots s rooks .black
  let wSlots := castlingSlots s rooks .white
  let ct : Castling :=
    { rookBQ := bSlots.1.1, pathBQ := bSlots.1.2,
      rookBK := bSlots.2.1, pathBK := bSlots.2.2,
      rookWQ := wSlots.1.1, pathWQ := wSlots.1.2,
      rookWK := wSlots.2.1, pathWK := wSlots.2.2 }
  if ct.castlingRights = rights then .ok ct else .error ct

instance {ε α : Type} [DecidableEq ε] [DecidableEq α] : DecidableEq (Except ε α) :=
  fun a b =>
    match a, b with
    | .ok x, .ok y => decidable_of_iff (x = y) (by simp)
    | .error x, .error y => decidable_of_iff (x = y) (by simp)
    | .ok _, .error _ => isFalse (by simp)
    | .error _, .ok _ => isFalse (by simp)

/-- The standard chess position state, from `position.rs`. -/
structure Chess where
  board : Board
  turn : Color
  castling : Castling
  epSquare : Option Square
  halfmoveClock : Nat
  fullmoves : Nat

instance : DecidableEq Chess := fun a b =>
  decidable_of_iff
    (a.board = b.board ∧ a.turn = b.turn ∧ a.castling = b.castling ∧
      a.epSquare = b.epSquare ∧ a.halfmoveClock = b.halfmoveClock ∧
      a.fullmoves = b.fullmoves)
    (by cases a; cases b; simp)

/-- `Setup::us` for `Chess`. -/
def Chess.us (pos : Chess) : Bitboard := pos.board.byColor pos.turn

/-- `Setup::our(role)` for `Chess`. -/
def Chess.our (pos : Chess) (r : Role) : Bitboard := pos.us ∩ pos.board.byRole r

/-- `Setup::them` for `Chess`. -/
def Chess.them (pos : Chess) : Bitboard := pos.board.byColor pos.turn.other

/-- `Setup::their(role)` for `Chess`. -/
def Chess.their (pos : Chess) (r : Role) : Bitboard := pos.them ∩ pos.board.byRole r

/-- `Position::king_attackers`. -/
def Chess.kingAttackers (pos : Chess) (sq : Square) (attacker : Color)
    (occ : Bitboard) : Bitboard :=
  pos.board.attacksTo sq attacker occ

/-- `Position::checkers`: the attackers of the mover's king (empty when that
king is absent). -/
def Chess.checkers (pos : Chess) : Bitboard :=
  match Bitboard.first (pos.our .king) with
  | some king => pos.kingAttackers king pos.turn.other pos.board.occupied
  | none => ∅

/-- `gen_en_passant`: the en-passant candidates towards the given target
square (the source also returns whether any were found; here that is
`¬ (· = [])`). -/
def genEnPassant (b : Board) (turn : Color) (ep : Option Square) : List Move :=
  match ep with
  | some t =>
      ((b.pawns ∩ b.byColor turn ∩ pawnAttacks turn.other t).toL).map
        (fun f => Move.enPassant f t)
  | none => []

/-- `push_promotions`: the four promotions, queen first. -/
def pushPromotions (f t : Square) (cap : Option Role) : List Move :=
  [Move.normal .pawn f cap t (some .queen), Move.normal .pawn f cap t (some .rook),
   Move.normal .pawn f cap t (some .bishop), Move.normal .pawn f cap t (some .knight)]

/-- The mover's pawns on their seventh relative rank (about to promote). -/
def seventhBB (pos : Chess) : Bitboard :=
  pos.our .pawn ∩ relativeRank pos.turn 6

/-- The plain pawn captures of `gen_pawn_moves`. -/
def pawnCapturesList (pos : Chess) (target : Bitboard) : List Move :=
  ((pos.our .pawn \ seventhBB pos).toL).flatMap (fun f =>
    ((pawnAttacks pos.turn f ∩ pos.them ∩ target).toL).map (fun t =>
      Move.normal .pawn f (pos.board.roleAt t) t none))

/-- The capture promotions of `gen_pawn_moves`. -/
def pawnCapturePromosList (pos : Chess) (target : Bitboard) : List Move :=
  ((seventhBB pos).toL).flatMap (fun f =>
    ((pawnAttacks pos.turn f ∩ pos.them ∩ target).toL).flatMap (fun t =>
      pushPromotions f t (pos.board.roleAt t)))

/-- The single-push destinations (`single_moves` in `gen_pawn_moves`). -/
def pawnSinglesBB (pos : Chess) : Bitboard :=
  relShift8 pos.turn (pos.our .pawn) \ pos.board.occupied

/-- The double-push destinations (`double_moves` in `gen_pawn_moves`). -/
def pawnDoublesBB (pos : Chess) : Bitboard :=
  (relShift8 pos.turn (pawnSinglesBB pos) ∩ relativeRank pos.turn 3) \
    pos.board.occupied

/-- The non-promoting single pushes of `gen_pawn_moves`. -/
def pawnSingleMovesList (pos : Chess) (target : Bitboard) : List Move :=
  (((pawnSinglesBB pos ∩ target) \ backranks).toL).filterMap (fun t =>
    (t.offset (pos.turn.fold (-8) 8)).map (fun f =>
      Move.normal .pawn f none t none))

/-- The push promotions of `gen_pawn_moves`. -/
def pawnSinglePromosList (pos : Chess) (target : Bitboard) : List Move :=
  ((pawnSinglesBB pos ∩ target ∩ backranks).toL).flatMap (fun t =>
    match t.offset (pos.turn.fold (-8) 8) with
    | some f => pushPromotions f t none
    | none => [])

/-- The double pushes of `gen_pawn_moves`. -/
def pawnDoubleMovesList (pos : Chess) (target : Bitboard) : List Move :=
  ((pawnDoublesBB pos ∩ target).toL).filterMap (fun t =>
    (t.offset (pos.turn.fold (-16) 16)).map (fun f =>
      Move.normal .pawn f none t none))

/-- `gen_pawn_moves`: captures, capture promotions, single pushes, push
promotions, double pushes — all restricted to `target`. -/
def genPawnMoves (pos : Chess) (target : Bitboard) : List Move :=
  pawnCapturesList pos target ++ pawnCapturePromosList pos target ++
    pawnSingleMovesList pos target ++ pawnSinglePromosList pos target ++
    pawnDoubleMovesList pos target

/-- The shared body of the `Stepper`/`Slider` tag generators: all moves of
`role` from its squares into `target`, with the attack set given by `att`. -/
def genPieceMoves (pos : Chess) (role : Role) (att : Square → Bitboard)
    (target : Bitboard) : List Move :=
  ((pos.our role).toL).flatMap (fun f =>
    ((att f ∩ target).toL).map (fun t =>
      Move.normal role f (pos.board.roleAt t) t none))

/-- `gen_non_king`: pawn, knight, bishop, rook and queen moves to
`target`. -/
def genNonKing (pos : Chess) (target : Bitboard) : List Move :=
  genPawnMoves pos target ++
  genPieceMoves pos .knight knightAttacks target ++
  genPieceMoves pos .bishop (fun s => bishopAttacks s pos.board.occupied) target ++
  genPieceMoves pos .rook (fun s => rookAttacks s pos.board.occupied) target ++
  genPieceMoves pos .queen (fun s => queenAttacks s pos.board.occupied) target

/-- `gen_safe_king`: king moves into `target` whose destination is not
attacked by the enemy. -/
def genSafeKing (pos : Chess) (king : Square) (target : Bitboard) : List Move :=
  ((kingAttacks king ∩ target).toL).filterMap (fun t =>
    if pos.board.attacksTo t pos.turn.other pos.board.occupied = ∅ then
      some (Move.normal .king king (pos.board.roleAt t) t none)
    else none)

/-- `evasions`: king moves out of the sliding checkers' shadow, plus block
or capture moves against a single checker. -/
def evasions (pos : Chess) (king : Square) (checkers : Bitboard) : List Move :=
  let sliders := checkers ∩ pos.board.sliders
  let attacked := (sliders.toL).foldl (fun acc c => acc ∪ bbXor (ray c king) {c}) ∅
  genSafeKing pos king ((Finset.univ \ pos.us) \ attacked) ++
    (match checkers.singleSquare with
     | some checker => genNonKing pos ((between king checker) ∪ {checker})
     | none => [])

/-- `castling_uncovers_rank_attack`. -/
def castlingUncoversRankAttack (pos : Chess) (rook kingTo : Square) : Bool :=
  decide ((rookAttacks kingTo (pos.board.occupied.erase rook) ∩ pos.them ∩
    pos.board.rooksAndQueens ∩ rankBB (rankOf kingTo)).Nonempty)

/-- `gen_castling_moves`. -/
def genCastlingMoves (pos : Chess) (king : Square) (side : CastlingSide) :
    List Move :=
  match pos.castling.rook pos.turn side with
  | none => []
  | some rook =>
      let path := pos.castling.path pos.turn side
      if (path ∩ pos.board.occupied).Nonempty then []
      else
        let kingTo := side.kingTo pos.turn
        let kingPath := ((between king kingTo) ∪ {kingTo}) ∪ {king}
        if (kingPath.toL).any (fun sq =>
            decide ((pos.kingAttackers sq pos.turn.other
              (bbXor pos.board.occupied {king})).Nonempty)) then []
        else if castlingUncoversRankAttack pos rook kingTo then []
        else [Move.castle king rook]

/-- `slider_blockers`: friendly or enemy pieces that are the sole occupant
between the king and an enemy sniper. -/
def sliderBlockers (b : Board) (enemy : Bitboard) (king : Square) : Bitboard :=
  let snipers := (rookAttacks king ∅ ∩ b.rooksAndQueens) ∪
    (bishopAttacks king ∅ ∩ b.bishopsAndQueens)
  ((snipers ∩ enemy).toL).foldl (fun blockers sniper =>
    let bb := between king sniper ∩ b.occupied
    if bb.moreThanOne then blockers else blockers ∪ bb) ∅

/-- `is_safe`: the pin / discovered-check filter. -/
def isSafe (pos : Chess) (king : Square) (m : Move) (blockers : Bitboard) : Bool :=
  match m with
  | .normal _ f _ t _ =>
      !(decide (f ∈ pos.us ∩ blockers)) || alignedB f t king
  | .enPassant f t =>
      let occ := (bbXor (bbXor pos.board.occupied {f}) {t.combine f}) ∪ {t}
      decide (rookAttacks king occ ∩ pos.them ∩ pos.board.rooksAndQueens = ∅) &&
        decide (bishopAttacks king occ ∩ pos.them ∩ pos.board.bishopsAndQueens = ∅)
  | _ => true

/-- The unfiltered move list of `Chess::legal_moves`: non-king moves, safe
king moves and castling when not in check, evasions otherwise. -/
def legalMovesBase (pos : Chess) (king : Square) : List Move :=
  if pos.checkers = ∅ then
    ((genNonKing pos (Finset.univ \ pos.us) ++
      genSafeKing pos king (Finset.univ \ pos.us)) ++
      genCastlingMoves pos king .kingSide) ++
      genCastlingMoves pos king .queenSide
  else evasions pos king pos.checkers

/-- `Chess::legal_moves`.  The source `expect`s the mover's king; a position
without one (unreachable through validation) yields the empty list here. -/
def legalMoves (pos : Chess) : List Move :=
  match pos.board.kingOf pos.turn with
  | none => []
  | some king =>
      let ep := genEnPassant pos.board pos.turn pos.epSquare
      let hasEp := !ep.isEmpty
      let all := ep ++ legalMovesBase pos king
      let blockers := sliderBlockers pos.board pos.them king
      if blockers.Nonempty ∨ hasEp = true then
        all.filter (fun m => isSafe pos king m blockers)
      else all

/-- `filter_san_candidates`'s predicate. -/
def moveMatches (role : Role) (to' : Square) (m : Move) : Bool :=
  match m with
  | .normal r _ _ t _ => t == to' && r == role
  | .put r t => t == to' && r == role
  | .enPassant _ t => role == Role.pawn && t == to'
  | .castle _ _ => false

/-- The reverse attack set used by `Chess::san_candidates` to locate the
movers of `role` that can reach `to'`. -/
def pieceFromBB (pos : Chess) (role : Role) (to' : Square) : Bitboard :=
  match role with
  | .pawn => (∅ : Bitboard)
  | .king => (∅ : Bitboard)
  | .knight => knightAttacks to'
  | .bishop => bishopAttacks to' pos.board.occupied
  | .rook => rookAttacks to' pos.board.occupied
  | .queen => queenAttacks to' pos.board.occupied

/-- The unfiltered candidate list of `Chess::san_candidates`. -/
def sanCandidatesBase (pos : Chess) (king : Square) (role : Role)
    (to' : Square) : List Move :=
  if pos.checkers = ∅ then
    if to' ∈ pos.us then []
    else
      (match role with
       | .pawn => genPawnMoves pos {to'}
       | .king => genSafeKing pos king {to'}
       | _ => []) ++
        ((pieceFromBB pos role to' ∩ pos.our role).toL).map (fun f =>
          Move.normal role f (pos.board.roleAt to') to' none)
  else (evasions pos king pos.checkers).filter (moveMatches role to')

/-- `Chess::san_candidates`: all legal moves of `(role, to')`, excluding
castling. -/
def sanCandidatesC (pos : Chess) (role : Role) (to' : Square) : List Move :=
  match pos.board.kingOf pos.turn with
  | none => []
  | some king =>
      let epCond := role == Role.pawn && some to' == pos.epSquare
      let ep := if epCond then genEnPassant pos.board pos.turn pos.epSquare else []
      let hasEp := epCond && !ep.isEmpty
      let all := sanCandidatesBase pos king role to' ++ ep
      let blockers := sliderBlockers pos.board pos.them king
      if blockers.Nonempty ∨ hasEp = true then
        all.filter (fun m => isSafe pos king m blockers)
      else all

/-- `Chess::castling_moves`. -/
def castlingMovesC (pos : Chess) (side : CastlingSide) : List Move :=
  match pos.board.kingOf pos.turn with
  | none => []
  | some king => genCastlingMoves pos king side

/-- `Position::is_legal`: dispatch on the move shape to the candidate
generators and test containment. -/
def isLegal (pos : Chess) (m : Move) : Bool :=
  let moves :=
    match m with
    | .normal role _ _ t _ => sanCandidatesC pos role t
    | .put role t => sanCandidatesC pos role t
    | .enPassant _ t => sanCandidatesC pos .pawn t
    | .castle king rook =>
        if fileOf king < fileOf rook then castlingMovesC pos .kingSide
        else castlingMovesC pos .queenSide
  moves.contains m

/-- Saturating successor on the source's `u32` clocks. -/
def usatAdd32 (n : Nat) : Nat := min (n + 1) 4294967295

/-- `do_move` / `Position::play_unchecked` for `Chess`. -/
def playUnchecked (pos : Chess) (m : Move) : Chess :=
  let color := pos.turn
  let halfmove0 := usatAdd32 pos.halfmoveClock
  let st :=
    match m with
    | .normal role f cap t promo =>
        let halfmove := if role == Role.pawn || cap.isSome then 0 else halfmove0
        let ep := if role == Role.pawn &&
            ((f : Int) - (t : Int) == 16 || (f : Int) - (t : Int) == -16)
          then f.offset (color.fold 8 (-8)) else none
        let ct := if role == Role.king then pos.castling.discardSide color
          else if role == Role.rook then pos.castling.discardRook f
          else pos.castling
        let ct := if cap == some Role.rook then ct.discardRook t else ct
        let prom := decide (f ∈ pos.board.promoted) || promo.isSome
        let b := (pos.board.discardPieceAt f).setPieceAt t
          ((promo.getD role).of color) prom
        (b, ct, ep, halfmove)
    | .castle king rook =>
        let rookTo := (if (rook : Int) - (king : Int) < 0 then squareD1
          else squareF1).combine rook
        let kingTo := (if (rook : Int) - (king : Int) < 0 then squareC1
          else squareG1).combine king
        let b := (((pos.board.discardPieceAt king).discardPieceAt rook).setPieceAt
          rookTo color.rookP false).setPieceAt kingTo color.kingP false
        (b, pos.castling.discardSide color, none, halfmove0)
    | .enPassant f t =>
        let b := pos.board.discardPieceAt (t.combine f)
        let b :=
          match b.removePieceAt f with
          | (some p, b2) => b2.setPieceAt t p false
          | (none, b2) => b2
        (b, pos.castling, none, 0)
    | .put role t =>
        (pos.board.setPieceAt t ⟨color, role⟩ false, pos.castling, none, halfmove0)
  { board := st.1, turn := color.other, castling := st.2.1, epSquare := st.2.2.1,
    halfmoveClock := st.2.2.2,
    fullmoves := if color.isBlack then usatAdd32 pos.fullmoves else pos.fullmoves }

/-- The opaque `IllegalMove` error. -/
inductive IllegalMove where
  | illegalMove
deriving DecidableEq, Repr

/-- `Position::play`: legality-checked move application. -/
def play (pos : Chess) (m : Move) : Except IllegalMove Chess :=
  if isLegal pos m then .ok (playUnchecked pos m) else .error .illegalMove

/-- `is_relevant_ep`: the en-passant target has a candidate capture and some
legal move actually captures on it. -/
def isRelevantEp (pos : Chess) (ep : Square) : Bool :=
  !(genEnPassant pos.board pos.turn (some ep)).isEmpty &&
    (legalMoves pos).any (fun m =>
      match m with
      | .enPassant _ t => t == ep
      | _ => false)

/-- `Setup::ep_square` for `Chess`: the stored target filtered by
`is_relevant_ep`. -/
def Chess.epSquareA (pos : Chess) : Option Square :=
  pos.epSquare.filter (fun s => isRelevantEp pos s)

/-- The `PositionError` bitmask, one flag per validation condition. -/
structure PositionError where
  emptyBoard : Bool
  missingKing : Bool
  tooManyKings : Bool
  pawnsOnBackrank : Bool
  badCastlingRights : Bool
  invalidEpSquare : Bool
  oppositeCheck : Bool
deriving DecidableEq, Repr

/-- The empty error mask. -/
def PositionError.noErr : PositionError :=
  ⟨false, false, false, false, false, false, false⟩

/-- Union of error masks (bitflags `|`). -/
def PositionError.union (a b : PositionError) : PositionError :=
  ⟨a.emptyBoard || b.emptyBoard, a.missingKing || b.missingKing,
   a.tooManyKings || b.tooManyKings, a.pawnsOnBackrank || b.pawnsOnBackrank,
   a.badCastlingRights || b.badCastlingRights,
   a.invalidEpSquare || b.invalidEpSquare, a.oppositeCheck || b.oppositeCheck⟩

/-- The `BAD_CASTLING_RIGHTS` mask. -/
def badCastlingErr : PositionError :=
  { PositionError.noErr with badCastlingRights := true }

/-- `validate`: the bitmask of setup errors.  The en-passant offsets are
`expect`ed by the source once the square is on the sixth relative rank; the
unreachable branch conservatively reports an invalid square. -/
def validate (pos : Chess) : PositionError :=
  { emptyBoard := decide (pos.board.occupied = ∅),
    pawnsOnBackrank :=
      decide ((pos.board.pawns ∩ (rankBB 0 ∪ rankBB 7)).Nonempty),
    invalidEpSquare :=
      match pos.epSquareA with
      | some ep =>
          if ep ∉ relativeRank pos.turn 5 then true
          else
            match ep.offset (pos.turn.fold (-8) 8),
                ep.offset (pos.turn.fold 8 (-8)) with
            | some fifth, some seventh =>
                !(decide (fifth ∈ pos.their .pawn)) ||
                  decide (ep ∈ pos.board.occupied) ||
                  decide (seventh ∈ pos.board.occupied)
            | _, _ => true
      | none => false,
    missingKing :=
      (pos.board.kingOf .white).isNone || (pos.board.kingOf .black).isNone,
    tooManyKings := decide (2 < pos.board.kings.card),
    badCastlingRights := false,
    oppositeCheck :=
      match pos.board.kingOf pos.turn.other with
      | some k => decide ((pos.kingAttackers k pos.turn pos.board.occupied).Nonempty)
      | none => false }

/-- The `Setup` view of a `Chess` position (its accessors as a record). -/
def Chess.toSetup (pos : Chess) : SetupS :=
  ⟨pos.board, pos.turn, pos.castling.castlingRights, pos.epSquareA,
   pos.halfmoveClock, pos.fullmoves⟩

/-- The `SwapTurn` view: same accessors with the opposite side to move. -/
def swapView (pos : Chess) : SetupS :=
  { pos.toSetup with turn := pos.turn.other }

/-- The tail of `Chess::from_setup` once the castling table and its error
mask are known. -/
def fromSetupWith (s : SetupS) (ct : Castling) (cerr : PositionError) :
    Except PositionError Chess :=
  let pos : Chess := ⟨s.board, s.turn, ct, s.epSquare, s.halfmoveClock, s.fullmoves⟩
  let errs := (validate pos).union cerr
  if errs = PositionError.noErr then .ok pos else .error errs

/-- `Chess::from_setup`. -/
def fromSetup (s : SetupS) : Except PositionError Chess :=
  match Castling.fromSetup s with
  | .ok ct => fromSetupWith s ct PositionError.noErr
  | .error ct => fromSetupWith s ct badCastlingErr

/-- `Position::swap_turn`. -/
def swapTurn (pos : Chess) : Except PositionError Chess :=
  fromSetup (swapView pos)

/-- `Chess::is_insufficient_material`. -/
def isInsufficientMaterial (pos : Chess) : Bool :=
  if pos.board.pawns.Nonempty ∨ pos.board.rooksAndQueens.Nonempty then false
  else if pos.board.occupied.card < 3 then true
  else if pos.board.knights.Nonempty then false
  else if pos.board.bishops ∩ darkSquares = ∅ then true
  else if pos.board.bishops ∩ lightSquares = ∅ then true
  else false

/-- A board from an association list of occupied squares. -/
def boardOfList (l : List (Square × Piece)) : Board :=
  { pieceAt := fun s => (l.find? (fun e => e.1 == s)).map (fun e => e.2),
    promoted := ∅ }

/-- The standard chess starting board. -/
def defaultBoard : Board :=
  boardOfList
    [(0, ⟨.white, .rook⟩), (1, ⟨.white, .knight⟩), (2, ⟨.white, .bishop⟩),
     (3, ⟨.white, .queen⟩), (4, ⟨.white, .king⟩), (5, ⟨.white, .bishop⟩),
     (6, ⟨.white, .knight⟩), (7, ⟨.white, .rook⟩),
     (8, ⟨.white, .pawn⟩), (9, ⟨.white, .pawn⟩), (10, ⟨.white, .pawn⟩),
     (11, ⟨.white, .pawn⟩), (12, ⟨.white, .pawn⟩), (13, ⟨.white, .pawn⟩),
     (14, ⟨.white, .pawn⟩), (15, ⟨.white, .pawn⟩),
     (48, ⟨.black, .pawn⟩), (49, ⟨.black, .pawn⟩), (50, ⟨.black, .pawn⟩),
     (51, ⟨.black, .pawn⟩), (52, ⟨.black, .pawn⟩), (53, ⟨.black, .pawn⟩),
     (54, ⟨.black, .pawn⟩), (55, ⟨.black, .pawn⟩),
     (56, ⟨.black, .rook⟩), (57, ⟨.black, .knight⟩), (58, ⟨.black, .bishop⟩),
     (59, ⟨.black, .queen⟩), (60, ⟨.black, .king⟩), (61, ⟨.black, .bishop⟩),
     (62, ⟨.black, .knight⟩), (63, ⟨.black, .rook⟩)]

/-- `Chess::default`: the starting position. -/
def chessDefault : Chess :=
  ⟨defaultBoard, .white, Castling.defaultC, none, 0, 1⟩

/-- The file of a square as a `Fin 8`. -/
def fileF (s : Square) : Fin 8 := ⟨fileOf s, by unfold fileOf; omega⟩

/-- The rank of a square as a `Fin 8`. -/
def rankF (s : Square) : Fin 8 := ⟨rankOf s, by unfold rankOf; omega⟩

/-- The two ASCII bytes of a square name ("e4"). -/
def squareBytes (s : Square) : List Nat := [97 + fileOf s, 49 + rankOf s]

/-- Modelled from the spec: `Square::from_bytes` on a file byte and a rank
byte. -/
def squareFromBytes2 (a b : Nat) : Option Square :=
  if 97 ≤ a ∧ a ≤ 104 ∧ 49 ≤ b ∧ b ≤ 56 then some (mkSquare (a - 97) (b - 49))
  else none

/-- `file_from_char` from `san.rs`, on a byte. -/
def fileFromCharB (c : Nat) : Option (Fin 8) :=
  if h : 97 ≤ c ∧ c ≤ 104 then some ⟨c - 97, by omega⟩ else none

/-- `rank_from_char` from `san.rs`, on a byte. -/
def rankFromCharB (c : Nat) : Option (Fin 8) :=
  if h : 49 ≤ c ∧ c ≤ 56 then some ⟨c - 49, by omega⟩ else none

/-- A move in Standard Algebraic Notation, from `san.rs`. -/
inductive San where
  | normal (role : Role) (file : Option (Fin 8)) (rank : Option (Fin 8))
      (capture : Bool) (to' : Square) (promotion : Option Role) : San
  | castle (side : CastlingSide) : San
  | put (role : Role) (to' : Square) : San
  | null : San
deriving DecidableEq, Repr

/-- `Display for San`, as the list of ASCII bytes. -/
def sanBytes : San → List Nat
  | .normal role file rank capture to' promotion =>
      (if role = Role.pawn then [] else [role.upperB]) ++
        (file.elim [] (fun f => [97 + (f : Nat)])) ++
        (rank.elim [] (fun r => [49 + (r : Nat)])) ++
        (if capture then [120] else []) ++
        squareBytes to' ++
        (promotion.elim [] (fun p => [61, p.upperB]))
  | .castle .kingSide => [79, 45, 79]
  | .castle .queenSide => [79, 45, 79, 45, 79]
  | .put .pawn to' => 64 :: squareBytes to'
  | .put role to' => [role.upperB, 64] ++ squareBytes to'
  | .null => [45, 45]

/-- The trailing stage of the `[<Role>][<file>][<rank>][x]<sq>[=<Promotion>]`
arm of `San::from_bytes`: the optional capture cross, the destination square
and the optional promotion suffix, once the role and the origin hints have
been consumed.  `next` is the iterator's lookahead byte and `rest` holds the
bytes behind it. -/
def parseSanTail (role : Role) (file rank : Option (Fin 8)) (next : Option Nat)
    (rest : List Nat) : Option San :=
  let step4 : Option (Bool × Option (Fin 8) × Option (Fin 8) ×
      Square × Option Nat × List Nat) :=
    match next with
    | some nx =>
        if nx = 120 then
          match rest with
          | a :: b :: r4 =>
              match fileFromCharB a, rankFromCharB b with
              | some tf, some tr =>
                  some (true, file, rank, mkSquare tf tr, r4.head?, r4.tail)
              | _, _ => none
          | _ => none
        else if nx = 61 then
          match file, rank with
          | some f, some r =>
              some (false, none, none, mkSquare f r, some 61, rest)
          | _, _ => none
        else
          match fileFromCharB nx, rest with
          | some tf, b :: r4 =>
              match rankFromCharB b with
              | some tr =>
                  some (false, file, rank, mkSquare tf tr, r4.head?, r4.tail)
              | none => none
          | _, _ => none
    | none =>
        match file, rank with
        | some f, some r => some (false, none, none, mkSquare f r, none, rest)
        | _, _ => none
  match step4 with
  | none => none
  | some (capture, file2, rank2, to', next4, r5) =>
      match next4 with
      | some 61 =>
          match r5 with
          | c :: _ =>
              (roleFromChar c).map (fun p =>
                San.normal role file2 rank2 capture to' (some p))
          | [] => none
      | some _ => none
      | none => some (.normal role file2 rank2 capture to' none)

/-- The origin-rank-hint stage of the normal-SAN arm: `n2` is the iterator's
current byte and `r2` the bytes behind it. -/
def parseSanRank (role : Role) (file : Option (Fin 8)) (n2 : Nat)
    (r2 : List Nat) : Option San :=
  match rankFromCharB n2 with
  | some r => parseSanTail role file (some r) r2.head? r2.tail
  | none => parseSanTail role file none (some n2) r2

/-- The origin-file-hint stage of the normal-SAN arm: `n1` is the iterator's
current byte and `r1` the bytes behind it. -/
def parseSanFile (role : Role) (n1 : Nat) (r1 : List Nat) : Option San :=
  if 97 ≤ n1 ∧ n1 ≤ 104 then
    match fileFromCharB n1, r1 with
    | some f, c2 :: r2 => parseSanRank role (some f) c2 r2
    | _, _ => none
  else parseSanRank role none n1 r1

/-- The `[<Role>][<file>][<rank>][x]<sq>[=<Promotion>]` arm of
`San::from_bytes`, transcribed from the iterator-based source: an initial
lowercase letter is a pawn move and stays in the iterator, any other letter
must name a role and is consumed. -/
def parseNormalSan (l : List Nat) : Option San :=
  match l with
  | [] => none
  | c0 :: r0 =>
      if 97 ≤ c0 then parseSanFile .pawn c0 r0
      else
        match roleFromChar c0, r0 with
        | some ro, c1 :: r1 => parseSanFile ro c1 r1
        | _, _ => none

/-- `San::from_bytes` after the check/checkmate suffix has been removed. -/
def sanFromBytesNoSuffix (l : List Nat) : Option San :=
  if l = [45, 45] then some .null
  else if l = [79, 45, 79] then some (.castle .kingSide)
  else if l = [79, 45, 79, 45, 79] then some (.castle .queenSide)
  else
    match l with
    | [c0, a, b] =>
        if c0 = 64 then (squareFromBytes2 a b).map (San.put .pawn)
        else parseNormalSan l
    | [r0, c1, a, b] =>
        if c1 = 64 then
          match roleFromChar r0, squareFromBytes2 a b with
          | some ro, some s => some (.put ro s)
          | _, _ => none
        else parseNormalSan l
    | _ => parseNormalSan l

/-- `San::from_bytes`: strip a trailing `#` or `+`, then parse. -/
def sanFromBytes (l : List Nat) : Option San :=
  sanFromBytesNoSuffix
    (if l.getLast? = some 35 ∨ l.getLast? = some 43 then l.dropLast else l)

/-- `IllegalSan` or `AmbiguousSan`. -/
inductive SanError where
  | illegalSan | ambiguousSan
deriving DecidableEq, Repr

/-- The candidate filter of `San::to_move` for a `Normal` SAN: the origin
hints, the capture flag and the promotion must match the candidate. -/
def sanFilterPred (file rank : Option (Fin 8)) (capture : Bool)
    (promotion : Option Role) : Move → Bool
  | .normal _ f c _ p =>
      (file.elim true (fun fl => (fl : Nat) == fileOf f)) &&
        (rank.elim true (fun rk => (rk : Nat) == rankOf f)) &&
        (capture == c.isSome) && (promotion == p)
  | .enPassant f _ =>
      (file.elim true (fun fl => (fl : Nat) == fileOf f)) &&
        (rank.elim true (fun rk => (rk : Nat) == rankOf f)) &&
        capture && promotion.isNone
  | _ => false

/-- `San::to_move`: bind a syntactic SAN to the unique matching legal
move. -/
def sanToMove (san : San) (pos : Chess) : Except SanError Move :=
  let legals : List Move :=
    match san with
    | .normal role file rank capture to' promotion =>
        (sanCandidatesC pos role to').filter
          (sanFilterPred file rank capture promotion)
    | .castle side => castlingMovesC pos side
    | .put role to' =>
        (sanCandidatesC pos role to').filter (fun m =>
          match m with
          | .put _ _ => true
          | _ => false)
    | .null => []
  match san with
  | .null => .error .illegalSan
  | _ =>
      match legals with
      | [] => .error .illegalSan
      | [m] => .ok m
      | _ :: _ :: _ => .error .ambiguousSan

/-- One step of the disambiguation fold in `san::san`: a candidate with a
different origin needs the file hint when it shares the origin's rank or
differs in file, and the rank hint otherwise. -/
def sanDisambStep (f : Square) (acc : Bool × Bool) (c : Move) : Bool × Bool :=
  match c with
  | .normal _ cf _ _ _ =>
      if cf = f then acc
      else if rankOf f = rankOf cf ∨ fileOf f ≠ fileOf cf then (acc.1, true)
      else (true, acc.2)
  | _ => acc

/-- `san::san`: convert a move to (undecorated) Standard Algebraic
Notation, disambiguating through the candidate generator. -/
def san (pos : Chess) (m : Move) : San :=
  match m with
  | .normal .pawn f cap t promo =>
      .normal .pawn (if cap.isSome then some (fileF f) else none) none
        cap.isSome t promo
  | .normal role f cap t promo =>
      let legals := sanCandidatesC pos role t
      let rf := legals.foldl (sanDisambStep f) (false, false)
      .normal role (if rf.2 then some (fileF f) else none)
        (if rf.1 then some (rankF f) else none) cap.isSome t promo
  | .enPassant f t => .normal .pawn (some (fileF f)) none true t none
  | .castle king rook =>
      if fileOf rook < fileOf king then .castle .queenSide else .castle .kingSide
  | .put role t => .put role t

/-- A move as represented in the UCI protocol, from `uci.rs`. -/
inductive Uci where
  | normal (from' : Square) (to' : Square) (promotion : Option Role) : Uci
  | put (role : Role) (to' : Square) : Uci
  | null : Uci
deriving DecidableEq, Repr

/-- `Display for Uci`, as the list of ASCII bytes. -/
def uciBytes : Uci → List Nat
  | .normal f t none => squareBytes f ++ squareBytes t
  | .normal f t (some p) => squareBytes f ++ squareBytes t ++ [p.charB]
  | .put role t => [role.upperB, 64] ++ squareBytes t
  | .null => [48, 48, 48, 48]

/-- `Uci::from_bytes`. -/
def uciFromBytes (l : List Nat) : Option Uci :=
  if l = [48, 48, 48, 48] then some .null
  else
    match l with
    | [a, b, c, d] =>
        match squareFromBytes2 c d with
        | none => none
        | some t =>
            if b = 64 then (roleFromChar a).map (fun ro => Uci.put ro t)
            else (squareFromBytes2 a b).map (fun f => Uci.normal f t none)
    | [a, b, c, d, e] =>
        match squareFromBytes2 c d with
        | none => none
        | some t =>
            if b = 64 then (roleFromChar a).map (fun ro => Uci.put ro t)
            else
              match squareFromBytes2 a b, roleFromChar e with
              | some f, some p => some (Uci.normal f t (some p))
              | _, _ => none
    | _ => none

/-- `From<&Move> for Uci`. -/
def uciOfMove : Move → Uci
  | .normal _ f _ t promo => .normal f t promo
  | .enPassant f t => .normal f t none
  | .castle king rook => .normal king rook none
  | .put role t => .put role t

/-- `Uci::to_move`: build a candidate move from the coordinates and test it
for legality. -/
def uciToMove (uci : Uci) (pos : Chess) : Except IllegalMove Move :=
  match uci with
  | .null => .error .illegalMove
  | .put role t =>
      let candidate := Move.put role t
      if isLegal pos candidate then .ok candidate else .error .illegalMove
  | .normal f t promotion =>
      match pos.board.roleAt f with
      | none => .error .illegalMove
      | some role =>
          if promotion.isSome ∧ role ≠ Role.pawn then .error .illegalMove
          else
            let candidate :=
              if role = Role.king ∧ t ∈ pos.castling.castlingRights then
                Move.castle f t
              else if role = Role.king ∧ f = pos.turn.fold squareE1 squareE8 ∧
                  rankOf t = pos.turn.fold 0 7 ∧ f.distance t = 2 then
                (if fileOf f < fileOf t then
                  Move.castle f (pos.turn.fold squareH1 squareH8)
                else
                  Move.castle f (pos.turn.fold squareA1 squareA8))
              else Move.normal role f (pos.board.roleAt t) t promotion
            if isLegal pos candidate then .ok candidate else .error .illegalMove

/-- The file disambiguator of a SAN, when present. -/
def San.fileHint : San → Option (Fin 8)
  | .normal _ fl _ _ _ _ => fl
  | _ => none

/-- The rank disambiguator of a SAN, when present. -/
def San.rankHint : San → Option (Fin 8)
  | .normal _ _ rk _ _ _ => rk
  | _ => none

/-- A position with its en-passant target replaced by the (relevance-
filtered) accessor value: the position `from_setup` rebuilds from a
position's own `Setup` view. -/
def stripEp (pos : Chess) : Chess :=
  { pos with epSquare := pos.epSquareA }

/-- A candidate with the same role and destination but another origin that
shares the origin's rank or differs from it in file (the source's condition
for emitting the origin-file disambiguator). -/
def otherCandFile (f : Square) (c : Move) : Bool :=
  match c with
  | .normal _ cf _ _ _ =>
      cf != f && (rankOf f == rankOf cf || fileOf f != fileOf cf)
  | _ => false

/-- A candidate with the same role and destination but another origin that
shares the origin's file, hence differs from it in rank (the source's
condition for emitting the origin-rank disambiguator). -/
def otherCandRank (f : Square) (c : Move) : Bool :=
  match c with
  | .normal _ cf _ _ _ =>
      cf != f && (rankOf f != rankOf cf && fileOf f == fileOf cf)
  | _ => false

/-- White: Kg1, Pe5.  Black: Ka8, Ne2, Pd5.  White to move, en-passant
target d6.  The setup passes validation although White is in check from the
knight, and the en-passant capture e5xd6 does not address that check. -/
def bC1 : Board :=
  boardOfList
    [(6, ⟨.white, .king⟩), (36, ⟨.white, .pawn⟩),
     (56, ⟨.black, .king⟩), (12, ⟨.black, .knight⟩), (35, ⟨.black, .pawn⟩)]

/-- The position built from `bC1` (white to move, ep target d6). -/
def posC1 : Chess := ⟨bC1, .white, Castling.emptyC, some 43, 0, 1⟩

/-- The setup view that validates to `posC1`. -/
def setupC1 : SetupS := ⟨bC1, .white, ∅, some 43, 0, 1⟩

/-- The en-passant capture e5xd6 in `posC1`. -/
def mC1 : Move := .enPassant 36 43

/-- White: Kg7.  Black: Ke8, Rh8 with a castling right on h8.  White to
move; Kg7xh8 is legal, but its UCI "g7h8" rebinds as a castling move. -/
def bC5 : Board :=
  boardOfList
    [(54, ⟨.white, .king⟩), (60, ⟨.black, .king⟩), (63, ⟨.black, .rook⟩)]

/-- The position built from `bC5`. -/
def posC5 : Chess :=
  ⟨bC5, .white, { Castling.emptyC with rookBK := some 63, pathBK := {61, 62} },
   none, 0, 1⟩

/-- The setup view that validates to `posC5`. -/
def setupC5 : SetupS := ⟨bC5, .white, {(63 : Fin 64)}, none, 0, 1⟩

/-- The legal king capture g7xh8 in `posC5`. -/
def mC5 : Move := .normal .king 54 (some .rook) 63 none

/-- White: Ra1, Rh1, Kg2.  Black: Kb8.  Both rooks can reach d1; they stand
on the same rank and on different files. -/
def bC6 : Board :=
  boardOfList
    [(0, ⟨.white, .rook⟩), (7, ⟨.white, .rook⟩), (14, ⟨.white, .king⟩),
     (57, ⟨.black, .king⟩)]

/-- The position built from `bC6`. -/
def posC6 : Chess := ⟨bC6, .white, Castling.emptyC, none, 0, 1⟩

/-- The setup view that validates to `posC6`. -/
def setupC6 : SetupS := ⟨bC6, .white, ∅, none, 0, 1⟩

/-- The rook move Ra1-d1 in `posC6` (disambiguated as "Rad1"). -/
def mC6 : Move := .normal .rook 0 none 3 none

/-- The double pawn push e2-e4 from the starting position. -/
def mC7 : Move := .normal .pawn 12 none 28 none

/-- The position after 1. e4: it stores the en-passant target e3 although no
black pawn can capture there, so the `ep_square` accessor hides it. -/
def posC7 : Chess := playUnchecked chessDefault mC7

/-- White: Ke1, Pe5.  Black: Ka8, Pd5, Pc7.  White to move, en-passant
target d6 (relevant: e5xd6 is legal).  After swapping the turn the target
survives into the swapped view and is invalid for Black. -/
def bC9 : Board :=
  boardOfList
    [(4, ⟨.white, .king⟩), (36, ⟨.white, .pawn⟩),
     (56, ⟨.black, .king⟩), (35, ⟨.black, .pawn⟩), (50, ⟨.black, .pawn⟩)]

/-- The position built from `bC9`. -/
def posC9 : Chess := ⟨bC9, .white, Castling.emptyC, some 43, 0, 1⟩

/-- The setup view that validates to `posC9`. -/
def setupC9 : SetupS := ⟨bC9, .white, ∅, some 43, 0, 1⟩

/-- White: Ke1 attacked by the rook on e8.  Black: Kg8, Re8.  White to move
and in check, so swapping the turn must fail with `OPPOSITE_CHECK`. -/
def bC9w : Board :=
  boardOfList
    [(4, ⟨.white, .king⟩), (62, ⟨.black, .king⟩), (60, ⟨.black, .rook⟩)]

/-- The in-check position used to witness the amended C9 theorem. -/
def posC9w : Chess := ⟨bC9w, .white, Castling.emptyC, none, 0, 1⟩

/-- The destination square of a move (the king's square for a castle). -/
def Move.dest : Move → Square
  | .normal _ _ _ t _ => t
  | .enPassant _ t => t
  | .castle k _ => k
  | .put _ t => t

/-- The castling-table invariant maintained on positions reachable through
the public API: a populated slot's rook lies on the king side of that
colour's king exactly for the `KingSide` slot. -/
def CastlingWF (pos : Chess) : Prop :=
  ∀ (c : Color) (side : CastlingSide) (r : Square),
    pos.castling.rook c side = some r →
    ∃ k, pos.board.kingOf c = some k ∧ fileOf k ≠ fileOf r ∧
      (side = CastlingSide.kingSide ↔ fileOf k < fileOf r)

/-- A legal position for the purposes of the move-generation theorems: it
passes validation and its castling table satisfies the reachable-state
invariant. -/
def WellFormed (pos : Chess) : Prop :=
  validate pos = PositionError.noErr ∧ CastlingWF pos

instance : Fintype Color :=
  ⟨⟨[Color.white, Color.black], by decide⟩, fun c => by cases c <;> decide⟩

instance : Fintype CastlingSide :=
  ⟨⟨[CastlingSide.kingSide, CastlingSide.queenSide], by decide⟩,
    fun s => by cases s <;> decide⟩

/-- A sparse two-king position used to exercise the SAN round trip on a
concrete input. -/
def bC4 : Board := boardOfList [(4, ⟨.white, .king⟩), (60, ⟨.black, .king⟩)]

/-- The position with kings on e1 and e8, white to move. -/
def posC4 : Chess := ⟨bC4, .white, Castling.emptyC, none, 0, 1⟩

theorem Color.other_other (c : Color) : c.other.other = c := by
  cases c <;> rfl

theorem validate_oppositeCheck (pos : Chess) :
    (validate pos).oppositeCheck =
      (match pos.board.kingOf pos.turn.other with
       | some k =>
           decide ((pos.kingAttackers k pos.turn pos.board.occupied).Nonempty)
       | none => false) := rfl

theorem union_oppositeCheck (a b : PositionError) :
    (a.union b).oppositeCheck = (a.oppositeCheck || b.oppositeCheck) := rfl

theorem noErr_union_noErr :
    PositionError.noErr.union PositionError.noErr = PositionError.noErr := rfl

theorem fromSetupWith_of_oppositeCheck (s : SetupS) (ct : Castling)
    (cerr : PositionError)
    (h : (validate ⟨s.board, s.turn, ct, s.epSquare, s.halfmoveClock,
        s.fullmoves⟩).oppositeCheck = true) :
    ∃ e, fromSetupWith s ct cerr = Except.error e ∧ e.oppositeCheck = true := by
  unfold fromSetupWith
  refine ⟨(validate ⟨s.board, s.turn, ct, s.epSquare, s.halfmoveClock,
    s.fullmoves⟩).union cerr, ?_, ?_⟩
  · have hne : ¬ ((validate ⟨s.board, s.turn, ct, s.epSquare, s.halfmoveClock,
        s.fullmoves⟩).union cerr = PositionError.noErr) := by
      intro hEq
      have h2 := congrArg PositionError.oppositeCheck hEq
      rw [union_oppositeCheck, h] at h2
      simp [PositionError.noErr] at h2
    simp only [hne, if_false, ite_false]
  · rw [union_oppositeCheck, h]
    simp

theorem darkSquares_not_light (s : Square) :
    s ∈ darkSquares ↔ s ∉ lightSquares := by
  simp only [darkSquares, lightSquares, Finset.mem_filter, Finset.mem_univ,
    true_and]
  omega

/-- C1: for every legal position, `legal_moves` emits exactly the legal
moves, and every en-passant candidate kept by the safety test leaves the
mover's king unattacked by every enemy piece.  The code violates this: the
setup `posC1` (white Kg1 and Pe5; black Ka8, Ne2 and Pd5; white to move
with en-passant target d6) passes `from_setup`, yet `legal_moves` keeps the
en-passant capture e5xd6 — the safety test only looks at enemy sliders —
and after playing it the white king is still attacked by the knight on
e2. -/
theorem c1_legal_moves_emit_illegal_ep :
    fromSetup setupC1 = Except.ok posC1 ∧
    mC1 ∈ legalMoves posC1 ∧
    ((playUnchecked posC1 mC1).board.attacksTo 6 Color.black
      (playUnchecked posC1 mC1).board.occupied).Nonempty := by
  refine ⟨by decide, by decide, ?_⟩
  decide

/-- C2: for every position satisfying the validation conditions and every
move of its `legal_moves` list, `play_unchecked` again yields a position
satisfying them, and the side that moved is not in check.  The code
violates this: in `posC1` the emitted (and `is_legal`-accepted) en-passant
capture e5xd6 leaves White in check from the knight on e2, so the resulting
position fails validation with `OPPOSITE_CHECK`. -/
theorem c2_play_unchecked_breaks_validation :
    fromSetup setupC1 = Except.ok posC1 ∧
    mC1 ∈ legalMoves posC1 ∧
    isLegal posC1 mC1 = true ∧
    (validate (playUnchecked posC1 mC1)).oppositeCheck = true := by
  refine ⟨by decide, by decide, by decide, ?_⟩
  decide

/-- C5: for every legal position and every legal move, converting to UCI,
printing, re-parsing and binding recovers the move.  The code violates
this: in `posC5` (white Kg7; black Ke8 and Rh8 carrying a castling right)
the legal capture Kg7xh8 prints as "g7h8", but `Uci::to_move` sees a king
move onto a castling-rights square, rebinds it as the castle
`Castle { king: g7, rook: h8 }`, finds it illegal and returns
`Err(IllegalMove)`. -/
theorem c5_uci_roundtrip_fails_on_king_takes_rook :
    fromSetup setupC5 = Except.ok posC5 ∧
    mC5 ∈ legalMoves posC5 ∧
    (match uciFromBytes (uciBytes (uciOfMove mC5)) with
     | some u => uciToMove u posC5
     | none => Except.error IllegalMove.illegalMove) =
      Except.error IllegalMove.illegalMove := by
  refine ⟨by decide, by decide, ?_⟩
  decide

/-- C6 fails as stated: in `posC6` the rooks on a1 and h1 can both reach
d1; the emitted SAN for Ra1-d1 carries the origin-file disambiguator
("Rad1"), yet no other candidate shares the file of a1 and a candidate
(h1) does share its rank, so the claim's condition "any shares the file or
none shares its rank" is false. -/
theorem c6_spec_disambiguation_counterexample :
    fromSetup setupC6 = Except.ok posC6 ∧
    mC6 ∈ legalMoves posC6 ∧
    (san posC6 mC6).fileHint = some 0 ∧
    ¬ (((sanCandidatesC posC6 Role.rook 3).any (fun c =>
          match c with
          | .normal _ cf _ _ _ => cf != (0 : Square) &&
              fileOf cf == fileOf (0 : Square)
          | _ => false) = true) ∨
        ¬ ((sanCandidatesC posC6 Role.rook 3).any (fun c =>
          match c with
          | .normal _ cf _ _ _ => cf != (0 : Square) &&
              rankOf cf == rankOf (0 : Square)
          | _ => false) = true)) := by
  refine ⟨by decide, by decide, by decide, ?_⟩
  decide

theorem sanDisambStep_foldl (f : Square) (L : List Move) (acc : Bool × Bool) :
    L.foldl (sanDisambStep f) acc =
      (acc.1 || L.any (otherCandRank f), acc.2 || L.any (otherCandFile f)) := by
  induction L generalizing acc with
  | nil => simp
  | cons c L ih =>
      rw [List.foldl_cons, ih]
      cases c with
      | normal r cf cc ct cp =>
          by_cases hcf : cf = f
          · simp [sanDisambStep, otherCandFile, otherCandRank, hcf,
              List.any_cons]
          · by_cases hcond : rankOf f = rankOf cf ∨ fileOf f ≠ fileOf cf
            · have h1 : otherCandFile f (Move.normal r cf cc ct cp) = true := by
                simp only [otherCandFile, Bool.and_eq_true, bne_iff_ne, ne_eq,
                  Bool.or_eq_true, beq_iff_eq]
                tauto
              have h2 : otherCandRank f (Move.normal r cf cc ct cp) = false := by
                simp only [otherCandRank, Bool.eq_false_iff, ne_eq,
                  Bool.and_eq_true, bne_iff_ne, beq_iff_eq]
                tauto
              simp [sanDisambStep, hcf, hcond, h1, h2, List.any_cons]
            · have hcond2 := hcond
              push_neg at hcond2
              have h1 : otherCandFile f (Move.normal r cf cc ct cp) = false := by
                simp only [otherCandFile, Bool.eq_false_iff, ne_eq,
                  Bool.and_eq_true, bne_iff_ne, Bool.or_eq_true, beq_iff_eq]
                tauto
              have h2 : otherCandRank f (Move.normal r cf cc ct cp) = true := by
                simp only [otherCandRank, Bool.and_eq_true, bne_iff_ne, ne_eq,
                  beq_iff_eq]
                tauto
              simp [sanDisambStep, hcf, hcond, h1, h2, List.any_cons]
      | enPassant a b => simp [sanDisambStep, otherCandFile, otherCandRank]
      | castle a b => simp [sanDisambStep, otherCandFile, otherCandRank]
      | put a b => simp [sanDisambStep, otherCandFile, otherCandRank]

/-- C6, amended: for a non-pawn `Normal` move the emitted SAN carries the
origin-file disambiguator exactly when some candidate with the same role
and destination but a different origin shares the origin's rank or differs
from it in file, and carries the origin-rank disambiguator exactly when
some such candidate shares the origin's file (hence differs in rank). -/
theorem c6_disambiguation_follows_candidates (pos : Chess) (role : Role)
    (f t : Square) (cap promo : Option Role) (hrole : role ≠ Role.pawn)
    (hleg : Move.normal role f cap t promo ∈ legalMoves pos) :
    (san pos (Move.normal role f cap t promo)).fileHint =
      (if (sanCandidatesC pos role t).any (otherCandFile f) then
        some (fileF f) else none) ∧
    (san pos (Move.normal role f cap t promo)).rankHint =
      (if (sanCandidatesC pos role t).any (otherCandRank f) then
        some (rankF f) else none) := by
  cases role with
  | pawn => exact absurd rfl hrole
  | knight =>
      constructor <;>
        simp [san, San.fileHint, San.rankHint, sanDisambStep_foldl]
  | bishop =>
      constructor <;>
        simp [san, San.fileHint, San.rankHint, sanDisambStep_foldl]
  | rook =>
      constructor <;>
        simp [san, San.fileHint, San.rankHint, sanDisambStep_foldl]
  | queen =>
      constructor <;>
        simp [san, San.fileHint, San.rankHint, sanDisambStep_foldl]
  | king =>
      constructor <;>
        simp [san, San.fileHint, San.rankHint, sanDisambStep_foldl]

/-- Witness for the amended C6 theorem: the knight move Ng1-f3 in the
starting position needs no disambiguator. -/
theorem c6_disambiguation_witness :
    (san chessDefault (Move.normal Role.knight 6 none 21 none)).fileHint =
      (if (sanCandidatesC chessDefault Role.knight 21).any (otherCandFile 6)
        then some (fileF 6) else none) ∧
    (san chessDefault (Move.normal Role.knight 6 none 21 none)).rankHint =
      (if (sanCandidatesC chessDefault Role.knight 21).any (otherCandRank 6)
        then some (rankF 6) else none) :=
  c6_disambiguation_follows_candidates chessDefault Role.knight 6 21 none none
    (by decide) (by decide)

/-- C7 fails as stated: the position after 1. e4 (engine-produced, via
`play` from the starting position) stores the hidden en-passant target e3,
and `from_setup` on its own `Setup` view yields a position with the target
cleared — not the original position. -/
theorem c7_roundtrip_counterexample :
    play chessDefault mC7 = Except.ok posC7 ∧
    posC7.epSquare = some 20 ∧
    fromSetup posC7.toSetup ≠ Except.ok posC7 := by
  refine ⟨by decide, by decide, ?_⟩
  decide

/-- C7, amended: `from_setup` on a position's own `Setup` view is the
identity up to clearing a hidden (irrelevant) en-passant target: whenever
the castling table rebuilds to itself and the target-stripped position
validates cleanly, `from_setup(P) = Ok(P with its hidden target
cleared)` — so every `Setup` accessor of the result agrees with `P`. -/
theorem c7_roundtrip_strips_hidden_ep (pos : Chess)
    (hcast : Castling.fromSetup pos.toSetup = Except.ok pos.castling)
    (hval : validate (stripEp pos) = PositionError.noErr) :
    fromSetup pos.toSetup = Except.ok (stripEp pos) := by
  have hpos : (⟨(Chess.toSetup pos).board, (Chess.toSetup pos).turn,
      pos.castling, (Chess.toSetup pos).epSquare,
      (Chess.toSetup pos).halfmoveClock, (Chess.toSetup pos).fullmoves⟩ :
        Chess) = stripEp pos := by
    cases pos
    rfl
  simp only [fromSetup, hcast]
  simp only [fromSetupWith]
  rw [hpos, hval, noErr_union_noErr, if_pos rfl]

/-- Witness for the amended C7 theorem, at the position after 1. e4. -/
theorem c7_roundtrip_witness :
    Castling.fromSetup posC7.toSetup = Except.ok posC7.castling ∧
    validate (stripEp posC7) = PositionError.noErr ∧
    fromSetup posC7.toSetup = Except.ok (stripEp posC7) :=
  ⟨by decide, by decide,
    c7_roundtrip_strips_hidden_ep posC7 (by decide) (by decide)⟩

/-- C9 fails as stated: `posC9` (white Ke1 and Pe5; black Ka8, Pd5 and Pc7;
white to move with relevant en-passant target d6) is legal and its side to
move is not in check, yet `swap_turn` fails — with `INVALID_EP_SQUARE`,
because the relevant target survives into the swapped view where it is not
on Black's sixth relative rank. -/
theorem c9_swap_turn_counterexample :
    fromSetup setupC9 = Except.ok posC9 ∧
    Chess.checkers posC9 = ∅ ∧
    swapTurn posC9 =
      Except.error { PositionError.noErr with invalidEpSquare := true } := by
  refine ⟨by decide, by decide, ?_⟩
  decide

/-- C9, amended: `swap_turn` runs `from_setup` on a view of the position
with the opposite side to move; whenever the side to move is in check it
fails with a mask containing `OPPOSITE_CHECK` (it can additionally fail
with `INVALID_EP_SQUARE` when a relevant en-passant target survives into
the swapped view). -/
theorem c9_swap_turn_fails_in_check (pos : Chess) (k : Square)
    (hk : pos.board.kingOf pos.turn = some k)
    (hchk : (pos.board.attacksTo k pos.turn.other pos.board.occupied).Nonempty) :
    ∃ e, swapTurn pos = Except.error e ∧ e.oppositeCheck = true := by
  unfold swapTurn fromSetup
  have hval : ∀ ct : Castling,
      (validate ⟨(swapView pos).board, (swapView pos).turn, ct,
        (swapView pos).epSquare, (swapView pos).halfmoveClock,
        (swapView pos).fullmoves⟩).oppositeCheck = true := by
    intro ct
    rw [validate_oppositeCheck]
    show (match pos.board.kingOf pos.turn.other.other with
      | some k =>
          decide ((pos.board.attacksTo k pos.turn.other
            pos.board.occupied).Nonempty)
      | none => false) = true
    rw [Color.other_other, hk]
    simpa using hchk
  cases hcs : Castling.fromSetup (swapView pos) with
  | ok ct => exact fromSetupWith_of_oppositeCheck _ ct _ (hval ct)
  | error ct => exact fromSetupWith_of_oppositeCheck _ ct _ (hval ct)

/-- Witness for the amended C9 theorem: White is in check from the rook on
e8, and swapping the turn fails with `OPPOSITE_CHECK` in the mask. -/
theorem c9_swap_turn_witness :
    ∃ e, swapTurn posC9w = Except.error e ∧ e.oppositeCheck = true :=
  c9_swap_turn_fails_in_check posC9w 4 (by decide) (by decide)

/-- C8: for every legal position, `is_insufficient_material` holds exactly
when the board has no pawns, rooks or queens, and either fewer than three
pieces in total, or no knights with all bishops on squares of a single
colour. -/
theorem c8_insufficient_material_iff (pos : Chess)
    (_hleg : validate pos = PositionError.noErr) :
    isInsufficientMaterial pos = true ↔
      (pos.board.pawns = ∅ ∧ pos.board.rooks = ∅ ∧ pos.board.queens = ∅ ∧
        (pos.board.occupied.card < 3 ∨
          (pos.board.knights = ∅ ∧
            (pos.board.bishops ⊆ darkSquares ∨
              pos.board.bishops ⊆ lightSquares)))) := by
  unfold isInsufficientMaterial
  split_ifs with h1 h2 h3 h4 h5
  · refine iff_of_false (by decide) ?_
    rintro ⟨hp, hr, hq, -⟩
    rcases h1 with h | h
    · rw [hp] at h
      exact Finset.not_nonempty_empty h
    · rw [Board.rooksAndQueens, hr, hq, Finset.union_empty] at h
      exact Finset.not_nonempty_empty h
  · refine iff_of_true rfl ?_
    push_neg at h1
    obtain ⟨hp, hrq⟩ := h1
    rw [Finset.not_nonempty_iff_eq_empty] at hp
    rw [Finset.not_nonempty_iff_eq_empty, Board.rooksAndQueens,
      Finset.union_eq_empty] at hrq
    exact ⟨hp, hrq.1, hrq.2, Or.inl h2⟩
  · refine iff_of_false (by decide) ?_
    rintro ⟨-, -, -, hd⟩
    rcases hd with h | ⟨hk, -⟩
    · exact h2 h
    · rw [hk] at h3
      exact Finset.not_nonempty_empty h3
  · refine iff_of_true rfl ?_
    push_neg at h1
    obtain ⟨hp, hrq⟩ := h1
    rw [Finset.not_nonempty_iff_eq_empty] at hp
    rw [Finset.not_nonempty_iff_eq_empty, Board.rooksAndQueens,
      Finset.union_eq_empty] at hrq
    rw [Finset.not_nonempty_iff_eq_empty] at h3
    refine ⟨hp, hrq.1, hrq.2, Or.inr ⟨h3, Or.inr ?_⟩⟩
    intro s hs
    by_contra hns
    have hd : s ∈ darkSquares := (darkSquares_not_light s).mpr hns
    have hmem : s ∈ pos.board.bishops ∩ darkSquares :=
      Finset.mem_inter.mpr ⟨hs, hd⟩
    rw [h4] at hmem
    exact Finset.not_mem_empty s hmem
  · refine iff_of_true rfl ?_
    push_neg at h1
    obtain ⟨hp, hrq⟩ := h1
    rw [Finset.not_nonempty_iff_eq_empty] at hp
    rw [Finset.not_nonempty_iff_eq_empty, Board.rooksAndQueens,
      Finset.union_eq_empty] at hrq
    rw [Finset.not_nonempty_iff_eq_empty] at h3
    refine ⟨hp, hrq.1, hrq.2, Or.inr ⟨h3, Or.inl ?_⟩⟩
    intro s hs
    by_contra hns
    have hl : s ∈ lightSquares := by
      by_contra hnl
      exact hns ((darkSquares_not_light s).mpr hnl)
    have hmem : s ∈ pos.board.bishops ∩ lightSquares :=
      Finset.mem_inter.mpr ⟨hs, hl⟩
    rw [h5] at hmem
    exact Finset.not_mem_empty s hmem
  · refine iff_of_false (by decide) ?_
    rintro ⟨-, -, -, hd⟩
    rcases hd with h | ⟨-, hs | hs⟩
    · exact h2 h
    · obtain ⟨s, hsm⟩ := Finset.nonempty_iff_ne_empty.mpr h5
      obtain ⟨hsb, hsl⟩ := Finset.mem_inter.mp hsm
      exact ((darkSquares_not_light s).mp (hs hsb)) hsl
    · obtain ⟨s, hsm⟩ := Finset.nonempty_iff_ne_empty.mpr h4
      obtain ⟨hsb, hsd⟩ := Finset.mem_inter.mp hsm
      exact ((darkSquares_not_light s).mp hsd) (hs hsb)

/-- Witness for the C8 theorem, at the starting position. -/
theorem c8_insufficient_material_witness :
    validate chessDefault = PositionError.noErr ∧
    (isInsufficientMaterial chessDefault = true ↔
      (chessDefault.board.pawns = ∅ ∧ chessDefault.board.rooks = ∅ ∧
        chessDefault.board.queens = ∅ ∧
        (chessDefault.board.occupied.card < 3 ∨
          (chessDefault.board.knights = ∅ ∧
            (chessDefault.board.bishops ⊆ darkSquares ∨
              chessDefault.board.bishops ⊆ lightSquares))))) :=
  ⟨by decide, c8_insufficient_material_iff chessDefault (by decide)⟩

/-- C10: `Uci::to_move` on a `Normal` UCI fails with `IllegalMove` — for
every position, hence without consulting the legality check — whenever no
piece stands on the origin square, and whenever a promotion is given but
the piece on the origin is not a pawn.  The position itself is taken by
shared reference and is unchanged. -/
theorem c10_uci_to_move_early_errors (pos : Chess) (f t : Square)
    (promo : Option Role) :
    (pos.board.roleAt f = none →
      uciToMove (Uci.normal f t promo) pos =
        Except.error IllegalMove.illegalMove) ∧
    (∀ r : Role, promo.isSome = true → pos.board.roleAt f = some r →
      r ≠ Role.pawn →
      uciToMove (Uci.normal f t promo) pos =
        Except.error IllegalMove.illegalMove) := by
  constructor
  · intro h
    simp only [uciToMove, h]
  · intro r hpromo hrole hne
    simp only [uciToMove, hrole]
    rw [if_pos ⟨hpromo, hne⟩]

/-- Witness for the C10 theorem: in the starting position, "e3e4" has an
empty origin and "g1f3q" asks to promote a knight. -/
theorem c10_uci_to_move_witness :
    uciToMove (Uci.normal 20 28 none) chessDefault =
      Except.error IllegalMove.illegalMove ∧
    uciToMove (Uci.normal 6 21 (some Role.queen)) chessDefault =
      Except.error IllegalMove.illegalMove :=
  ⟨(c10_uci_to_move_early_errors chessDefault 20 28 none).1 (by decide),
   (c10_uci_to_move_early_errors chessDefault 6 21 (some Role.queen)).2
     Role.knight (by decide) (by decide) (by decide)⟩


theorem mem_toL (bb : Bitboard) (s : Square) : s ∈ bb.toL ↔ s ∈ bb := by
  simp [Bitboard.toL, List.mem_filter]

theorem betweenB_self_right (a b : Square) : betweenB a b b = false := by
  simp [betweenB]

theorem betweenB_self_left (a b : Square) : betweenB a b a = false := by
  simp [betweenB]

theorem chessAlignedB_comm (a b : Square) : chessAlignedB a b = chessAlignedB b a := by
  rw [Bool.eq_iff_iff]
  simp only [chessAlignedB, Bool.and_eq_true, Bool.or_eq_true, bne_iff_ne, ne_eq,
    beq_iff_eq, Fin.ext_iff, fileI, rankI, fileOf, rankOf]
  omega

theorem collinearB_comm (a b t : Square) : collinearB a b t = collinearB b a t := by
  rw [Bool.eq_iff_iff]
  simp only [collinearB, beq_iff_eq]
  constructor <;> intro h <;> linear_combination -h

theorem betweenB_comm (a b t : Square) : betweenB a b t = betweenB b a t := by
  rw [Bool.eq_iff_iff]
  simp only [betweenB, Bool.and_eq_true, decide_eq_true_eq, chessAlignedB_comm,
    collinearB_comm, min_comm (fileI a), max_comm (fileI a), min_comm (rankI a),
    max_comm (rankI a)]
  tauto

theorem rookLineB_comm (a b : Square) : rookLineB a b = rookLineB b a := by
  rw [Bool.eq_iff_iff]
  simp only [rookLineB, Bool.and_eq_true, Bool.or_eq_true, bne_iff_ne, ne_eq,
    beq_iff_eq, Fin.ext_iff, fileI, rankI, fileOf, rankOf]
  omega

theorem bishopLineB_comm (a b : Square) : bishopLineB a b = bishopLineB b a := by
  rw [Bool.eq_iff_iff]
  simp only [bishopLineB, Bool.and_eq_true, bne_iff_ne, ne_eq, beq_iff_eq,
    Fin.ext_iff, fileI, rankI, fileOf, rankOf]
  omega

theorem mem_rookAttacks (s : Square) (occ : Bitboard) (t : Square) :
    t ∈ rookAttacks s occ ↔
      (rookLineB s t = true ∧ ∀ u ∈ occ, betweenB s t u = false) := by
  simp [rookAttacks, clearBetweenB, Finset.mem_filter]

theorem mem_bishopAttacks (s : Square) (occ : Bitboard) (t : Square) :
    t ∈ bishopAttacks s occ ↔
      (bishopLineB s t = true ∧ ∀ u ∈ occ, betweenB s t u = false) := by
  simp [bishopAttacks, clearBetweenB, Finset.mem_filter]

theorem rookAttacks_mem_comm (s t : Square) (occ : Bitboard) :
    t ∈ rookAttacks s occ ↔ s ∈ rookAttacks t occ := by
  simp only [mem_rookAttacks]
  constructor <;> rintro ⟨h1, h2⟩
  · refine ⟨by rw [rookLineB_comm]; exact h1, fun u hu => ?_⟩
    rw [betweenB_comm]
    exact h2 u hu
  · refine ⟨by rw [rookLineB_comm]; exact h1, fun u hu => ?_⟩
    rw [betweenB_comm]
    exact h2 u hu

theorem bishopAttacks_mem_comm (s t : Square) (occ : Bitboard) :
    t ∈ bishopAttacks s occ ↔ s ∈ bishopAttacks t occ := by
  simp only [mem_bishopAttacks]
  constructor <;> rintro ⟨h1, h2⟩
  · refine ⟨by rw [bishopLineB_comm]; exact h1, fun u hu => ?_⟩
    rw [betweenB_comm]
    exact h2 u hu
  · refine ⟨by rw [bishopLineB_comm]; exact h1, fun u hu => ?_⟩
    rw [betweenB_comm]
    exact h2 u hu

theorem queenAttacks_mem_comm (s t : Square) (occ : Bitboard) :
    t ∈ queenAttacks s occ ↔ s ∈ queenAttacks t occ := by
  simp only [queenAttacks, Finset.mem_union, rookAttacks_mem_comm,
    bishopAttacks_mem_comm]

theorem knightAttacksB_comm (s t : Square) :
    knightAttacksB s t = knightAttacksB t s := by
  rw [Bool.eq_iff_iff]
  simp only [knightAttacksB, Bool.and_eq_true, Bool.or_eq_true, beq_iff_eq]
  omega

theorem knightAttacks_mem_comm (s t : Square) :
    t ∈ knightAttacks s ↔ s ∈ knightAttacks t := by
  simp [knightAttacks, Finset.mem_filter, knightAttacksB_comm]
theorem mem_genPieceMoves (pos : Chess) (role : Role) (att : Square → Bitboard)
    (target : Bitboard) (m : Move) :
    m ∈ genPieceMoves pos role att target ↔
      ∃ f, f ∈ pos.our role ∧ ∃ t, (t ∈ att f ∧ t ∈ target) ∧
        m = Move.normal role f (pos.board.roleAt t) t none := by
  simp only [genPieceMoves, List.mem_flatMap, List.mem_map, mem_toL,
    Finset.mem_inter, eq_comm]

theorem mem_genSafeKing (pos : Chess) (king : Square) (target : Bitboard)
    (m : Move) :
    m ∈ genSafeKing pos king target ↔
      ∃ t, (t ∈ kingAttacks king ∧ t ∈ target) ∧
        pos.board.attacksTo t pos.turn.other pos.board.occupied = ∅ ∧
        m = Move.normal .king king (pos.board.roleAt t) t none := by
  simp only [genSafeKing, List.mem_filterMap, mem_toL, Finset.mem_inter]
  constructor
  · rintro ⟨t, ⟨h1, h2⟩, hm⟩
    rw [Option.ite_none_right_eq_some, Option.some.injEq] at hm
    exact ⟨t, ⟨h1, h2⟩, hm.1, hm.2.symm⟩
  · rintro ⟨t, ⟨h1, h2⟩, hemp, hm⟩
    refine ⟨t, ⟨h1, h2⟩, ?_⟩
    rw [Option.ite_none_right_eq_some, Option.some.injEq]
    exact ⟨hemp, hm.symm⟩

theorem mem_genEnPassant (b : Board) (turn : Color) (ep : Option Square)
    (m : Move) :
    m ∈ genEnPassant b turn ep ↔
      ∃ t, ep = some t ∧ ∃ f, (f ∈ b.pawns ∧ f ∈ b.byColor turn ∧
        f ∈ pawnAttacks turn.other t) ∧ m = Move.enPassant f t := by
  cases ep with
  | none => simp [genEnPassant]
  | some t =>
      simp only [genEnPassant, List.mem_map, mem_toL, Finset.mem_inter,
        Option.some.injEq, eq_comm]
      constructor
      · rintro ⟨f, ⟨⟨hf1, hf2⟩, hf3⟩, hm⟩
        exact ⟨t, rfl, f, ⟨hf1, hf2, hf3⟩, hm⟩
      · rintro ⟨t', ht', f, ⟨hf1, hf2, hf3⟩, hm⟩
        cases ht'
        exact ⟨f, ⟨⟨hf1, hf2⟩, hf3⟩, hm⟩

theorem mem_pushPromotions (f t : Square) (cap : Option Role) (m : Move) :
    m ∈ pushPromotions f t cap ↔
      ∃ pr, (pr = Role.queen ∨ pr = Role.rook ∨ pr = Role.bishop ∨
        pr = Role.knight) ∧ m = Move.normal .pawn f cap t (some pr) := by
  simp only [pushPromotions, List.mem_cons, List.not_mem_nil, or_false]
  constructor
  · rintro (h | h | h | h) <;> subst h
    · exact ⟨Role.queen, Or.inl rfl, rfl⟩
    · exact ⟨Role.rook, Or.inr (Or.inl rfl), rfl⟩
    · exact ⟨Role.bishop, Or.inr (Or.inr (Or.inl rfl)), rfl⟩
    · exact ⟨Role.knight, Or.inr (Or.inr (Or.inr rfl)), rfl⟩
  · rintro ⟨pr, (h | h | h | h), hm⟩ <;> subst h <;> subst hm <;> simp
theorem mem_pawnCapturesList (pos : Chess) (target : Bitboard) (m : Move) :
    m ∈ pawnCapturesList pos target ↔
      ∃ f, f ∈ pos.our .pawn \ seventhBB pos ∧
        ∃ t, (t ∈ pawnAttacks pos.turn f ∧ t ∈ pos.them ∧ t ∈ target) ∧
          m = Move.normal .pawn f (pos.board.roleAt t) t none := by
  simp only [pawnCapturesList, List.mem_flatMap, List.mem_map, mem_toL,
    Finset.mem_inter, eq_comm, and_assoc]

theorem mem_pawnCapturePromosList (pos : Chess) (target : Bitboard) (m : Move) :
    m ∈ pawnCapturePromosList pos target ↔
      ∃ f, f ∈ seventhBB pos ∧
        ∃ t, (t ∈ pawnAttacks pos.turn f ∧ t ∈ pos.them ∧ t ∈ target) ∧
          m ∈ pushPromotions f t (pos.board.roleAt t) := by
  simp only [pawnCapturePromosList, List.mem_flatMap, mem_toL,
    Finset.mem_inter, and_assoc]

theorem mem_pawnSingleMovesList (pos : Chess) (target : Bitboard) (m : Move) :
    m ∈ pawnSingleMovesList pos target ↔
      ∃ t, (t ∈ pawnSinglesBB pos ∧ t ∈ target ∧ t ∉ backranks) ∧
        ∃ f, t.offset (pos.turn.fold (-8) 8) = some f ∧
          m = Move.normal .pawn f none t none := by
  simp only [pawnSingleMovesList, List.mem_filterMap, mem_toL,
    Finset.mem_sdiff, Finset.mem_inter, Option.map_eq_some']
  constructor
  · rintro ⟨t, ⟨⟨h1, h2⟩, h3⟩, f, hoff, hm⟩
    exact ⟨t, ⟨h1, h2, h3⟩, f, hoff, hm.symm⟩
  · rintro ⟨t, ⟨h1, h2, h3⟩, f, hoff, hm⟩
    exact ⟨t, ⟨⟨h1, h2⟩, h3⟩, f, hoff, hm.symm⟩

theorem mem_pawnSinglePromosList (pos : Chess) (target : Bitboard) (m : Move) :
    m ∈ pawnSinglePromosList pos target ↔
      ∃ t, (t ∈ pawnSinglesBB pos ∧ t ∈ target ∧ t ∈ backranks) ∧
        ∃ f, t.offset (pos.turn.fold (-8) 8) = some f ∧
          m ∈ pushPromotions f t none := by
  simp only [pawnSinglePromosList, List.mem_flatMap, mem_toL,
    Finset.mem_inter]
  constructor
  · rintro ⟨t, ⟨⟨h1, h2⟩, h3⟩, hm⟩
    cases hoff : t.offset (pos.turn.fold (-8) 8) with
    | none => rw [hoff] at hm; cases hm
    | some f =>
        rw [hoff] at hm
        exact ⟨t, ⟨h1, h2, h3⟩, f, hoff, hm⟩
  · rintro ⟨t, ⟨h1, h2, h3⟩, f, hoff, hm⟩
    refine ⟨t, ⟨⟨h1, h2⟩, h3⟩, ?_⟩
    rw [hoff]
    exact hm

theorem mem_pawnDoubleMovesList (pos : Chess) (target : Bitboard) (m : Move) :
    m ∈ pawnDoubleMovesList pos target ↔
      ∃ t, (t ∈ pawnDoublesBB pos ∧ t ∈ target) ∧
        ∃ f, t.offset (pos.turn.fold (-16) 16) = some f ∧
          m = Move.normal .pawn f none t none := by
  simp only [pawnDoubleMovesList, List.mem_filterMap, mem_toL,
    Finset.mem_inter, Option.map_eq_some']
  constructor
  · rintro ⟨t, ⟨h1, h2⟩, f, hoff, hm⟩
    exact ⟨t, ⟨h1, h2⟩, f, hoff, hm.symm⟩
  · rintro ⟨t, ⟨h1, h2⟩, f, hoff, hm⟩
    exact ⟨t, ⟨h1, h2⟩, f, hoff, hm.symm⟩
theorem genPieceMoves_shape (pos : Chess) (role : Role) (att : Square → Bitboard)
    (target : Bitboard) (m : Move) (h : m ∈ genPieceMoves pos role att target) :
    ∃ f c t, m = Move.normal role f c t none := by
  rw [mem_genPieceMoves] at h
  obtain ⟨f, -, t, -, hm⟩ := h
  exact ⟨f, _, t, hm⟩

theorem genPawnMoves_shape (pos : Chess) (target : Bitboard) (m : Move)
    (h : m ∈ genPawnMoves pos target) :
    ∃ f c t p, m = Move.normal .pawn f c t p := by
  simp only [genPawnMoves, List.mem_append] at h
  rcases h with ((((h | h) | h) | h) | h)
  · rw [mem_pawnCapturesList] at h
    obtain ⟨f, -, t, -, hm⟩ := h
    exact ⟨f, _, t, _, hm⟩
  · rw [mem_pawnCapturePromosList] at h
    obtain ⟨f, -, t, -, hm⟩ := h
    rw [mem_pushPromotions] at hm
    obtain ⟨pr, -, hm⟩ := hm
    exact ⟨f, _, t, _, hm⟩
  · rw [mem_pawnSingleMovesList] at h
    obtain ⟨t, -, f, -, hm⟩ := h
    exact ⟨f, _, t, _, hm⟩
  · rw [mem_pawnSinglePromosList] at h
    obtain ⟨t, -, f, -, hm⟩ := h
    rw [mem_pushPromotions] at hm
    obtain ⟨pr, -, hm⟩ := hm
    exact ⟨f, _, t, _, hm⟩
  · rw [mem_pawnDoubleMovesList] at h
    obtain ⟨t, -, f, -, hm⟩ := h
    exact ⟨f, _, t, _, hm⟩

theorem genSafeKing_shape (pos : Chess) (king : Square) (target : Bitboard)
    (m : Move) (h : m ∈ genSafeKing pos king target) :
    ∃ c t, m = Move.normal .king king c t none := by
  rw [mem_genSafeKing] at h
  obtain ⟨t, -, -, hm⟩ := h
  exact ⟨_, t, hm⟩

theorem genCastlingMoves_cases (pos : Chess) (king : Square)
    (side : CastlingSide) :
    genCastlingMoves pos king side = [] ∨
      ∃ r, pos.castling.rook pos.turn side = some r ∧
        genCastlingMoves pos king side = [Move.castle king r] := by
  unfold genCastlingMoves
  cases hslot : pos.castling.rook pos.turn side with
  | none => exact Or.inl rfl
  | some r =>
      dsimp only []
      split
      · exact Or.inl rfl
      · split
        · exact Or.inl rfl
        · split
          · exact Or.inl rfl
          · exact Or.inr ⟨r, rfl, rfl⟩

theorem genCastlingMoves_shape (pos : Chess) (king : Square)
    (side : CastlingSide) (m : Move) (h : m ∈ genCastlingMoves pos king side) :
    ∃ r, pos.castling.rook pos.turn side = some r ∧ m = Move.castle king r := by
  rcases genCastlingMoves_cases pos king side with hc | ⟨r, hslot, hc⟩
  · rw [hc] at h
    cases h
  · rw [hc] at h
    exact ⟨r, hslot, List.mem_singleton.mp h⟩

theorem genNonKing_shape (pos : Chess) (target : Bitboard) (m : Move)
    (h : m ∈ genNonKing pos target) :
    ∃ r f c t p, r ≠ Role.king ∧ m = Move.normal r f c t p := by
  simp only [genNonKing, List.mem_append] at h
  rcases h with (((h | h) | h) | h) | h
  · obtain ⟨f, c, t, p, hm⟩ := genPawnMoves_shape pos target m h
    exact ⟨_, f, c, t, p, by decide, hm⟩
  · obtain ⟨f, c, t, hm⟩ := genPieceMoves_shape pos _ _ _ m h
    exact ⟨_, f, c, t, _, by decide, hm⟩
  · obtain ⟨f, c, t, hm⟩ := genPieceMoves_shape pos _ _ _ m h
    exact ⟨_, f, c, t, _, by decide, hm⟩
  · obtain ⟨f, c, t, hm⟩ := genPieceMoves_shape pos _ _ _ m h
    exact ⟨_, f, c, t, _, by decide, hm⟩
  · obtain ⟨f, c, t, hm⟩ := genPieceMoves_shape pos _ _ _ m h
    exact ⟨_, f, c, t, _, by decide, hm⟩

theorem evasions_shape (pos : Chess) (king : Square) (checkers : Bitboard)
    (m : Move) (h : m ∈ evasions pos king checkers) :
    ∃ r f c t p, m = Move.normal r f c t p := by
  simp only [evasions, List.mem_append] at h
  rcases h with h | h
  · obtain ⟨c, t, hm⟩ := genSafeKing_shape pos king _ m h
    exact ⟨_, _, c, t, _, hm⟩
  · cases hsq : checkers.singleSquare with
    | none => rw [hsq] at h; cases h
    | some checker =>
        rw [hsq] at h
        obtain ⟨r, f, c, t, p, -, hm⟩ := genNonKing_shape pos _ m h
        exact ⟨r, f, c, t, p, hm⟩

theorem genEnPassant_shape (b : Board) (turn : Color) (ep : Option Square)
    (m : Move) (h : m ∈ genEnPassant b turn ep) :
    ∃ f t, ep = some t ∧ m = Move.enPassant f t := by
  rw [mem_genEnPassant] at h
  obtain ⟨t, hep, f, -, hm⟩ := h
  exact ⟨f, t, hep, hm⟩
theorem mem_genPieceMoves_target (pos : Chess) (role : Role)
    (att : Square → Bitboard) (target : Bitboard) (m : Move) :
    m ∈ genPieceMoves pos role att target ↔
      m ∈ genPieceMoves pos role att Finset.univ ∧ m.dest ∈ target := by
  simp only [mem_genPieceMoves, Finset.mem_univ, and_true]
  constructor
  · rintro ⟨f, h1, t, ⟨h2, h3⟩, hm⟩
    subst hm
    exact ⟨⟨f, h1, t, h2, rfl⟩, h3⟩
  · rintro ⟨⟨f, h1, t, h2, hm⟩, h3⟩
    subst hm
    exact ⟨f, h1, t, ⟨h2, h3⟩, rfl⟩

theorem mem_genSafeKing_target (pos : Chess) (king : Square)
    (target : Bitboard) (m : Move) :
    m ∈ genSafeKing pos king target ↔
      m ∈ genSafeKing pos king Finset.univ ∧ m.dest ∈ target := by
  simp only [mem_genSafeKing, Finset.mem_univ, and_true]
  constructor
  · rintro ⟨t, ⟨h1, h2⟩, h4, hm⟩
    subst hm
    exact ⟨⟨t, h1, h4, rfl⟩, h2⟩
  · rintro ⟨⟨t, h1, h4, hm⟩, h2⟩
    subst hm
    exact ⟨t, ⟨h1, h2⟩, h4, rfl⟩

theorem mem_genPawnMoves_target (pos : Chess) (target : Bitboard) (m : Move) :
    m ∈ genPawnMoves pos target ↔
      m ∈ genPawnMoves pos Finset.univ ∧ m.dest ∈ target := by
  simp only [genPawnMoves, List.mem_append, mem_pawnCapturesList,
    mem_pawnCapturePromosList, mem_pawnSingleMovesList, mem_pawnSinglePromosList,
    mem_pawnDoubleMovesList, Finset.mem_univ, and_true, true_and]
  constructor
  · rintro ((((⟨f, h1, t, ⟨h2, h3, h4⟩, hm⟩ | ⟨f, h1, t, ⟨h2, h3, h4⟩, hm⟩) |
        ⟨t, ⟨h1, h2, h3⟩, f, h4, hm⟩) | ⟨t, ⟨h1, h2, h3⟩, f, h4, hm⟩) |
        ⟨t, ⟨h1, h2⟩, f, h3, hm⟩)
    · subst hm
      exact ⟨Or.inl (Or.inl (Or.inl (Or.inl ⟨f, h1, t, ⟨h2, h3⟩, rfl⟩))), h4⟩
    · obtain ⟨pr, hpr, hm⟩ := (mem_pushPromotions _ _ _ _).mp hm
      subst hm
      refine ⟨Or.inl (Or.inl (Or.inl (Or.inr ⟨f, h1, t, ⟨h2, h3⟩, ?_⟩))), h4⟩
      exact (mem_pushPromotions _ _ _ _).mpr ⟨pr, hpr, rfl⟩
    · subst hm
      exact ⟨Or.inl (Or.inl (Or.inr ⟨t, ⟨h1, h3⟩, f, h4, rfl⟩)), h2⟩
    · obtain ⟨pr, hpr, hm⟩ := (mem_pushPromotions _ _ _ _).mp hm
      subst hm
      refine ⟨Or.inl (Or.inr ⟨t, ⟨h1, h3⟩, f, h4, ?_⟩), h2⟩
      exact (mem_pushPromotions _ _ _ _).mpr ⟨pr, hpr, rfl⟩
    · subst hm
      exact ⟨Or.inr ⟨t, h1, f, h3, rfl⟩, h2⟩
  · rintro ⟨(((⟨f, h1, t, ⟨h2, h3⟩, hm⟩ | ⟨f, h1, t, ⟨h2, h3⟩, hm⟩) |
        ⟨t, ⟨h1, h3⟩, f, h4, hm⟩) | ⟨t, ⟨h1, h3⟩, f, h4, hm⟩) |
        ⟨t, h1, f, h3, hm⟩, hdest⟩
    · subst hm
      exact Or.inl (Or.inl (Or.inl (Or.inl ⟨f, h1, t, ⟨h2, h3, hdest⟩, rfl⟩)))
    · obtain ⟨pr, hpr, hm⟩ := (mem_pushPromotions _ _ _ _).mp hm
      subst hm
      refine Or.inl (Or.inl (Or.inl (Or.inr ⟨f, h1, t, ⟨h2, h3, hdest⟩, ?_⟩)))
      exact (mem_pushPromotions _ _ _ _).mpr ⟨pr, hpr, rfl⟩
    · subst hm
      exact Or.inl (Or.inl (Or.inr ⟨t, ⟨h1, hdest, h3⟩, f, h4, rfl⟩))
    · obtain ⟨pr, hpr, hm⟩ := (mem_pushPromotions _ _ _ _).mp hm
      subst hm
      refine Or.inl (Or.inr ⟨t, ⟨h1, hdest, h3⟩, f, h4, ?_⟩)
      exact (mem_pushPromotions _ _ _ _).mpr ⟨pr, hpr, rfl⟩
    · subst hm
      exact Or.inr ⟨t, ⟨h1, hdest⟩, f, h3, rfl⟩
theorem isSafe_normal_of_blockers_empty (pos : Chess) (king : Square)
    (r : Role) (f : Square) (c : Option Role) (t : Square) (p : Option Role) :
    isSafe pos king (Move.normal r f c t p) (∅ : Bitboard) = true := by
  simp [isSafe]

theorem isSafe_castle (pos : Chess) (king : Square) (k r : Square)
    (blockers : Bitboard) : isSafe pos king (Move.castle k r) blockers = true := rfl

theorem isSafe_put (pos : Chess) (king : Square) (r : Role) (t : Square)
    (blockers : Bitboard) : isSafe pos king (Move.put r t) blockers = true := rfl

theorem legalMovesBase_shape (pos : Chess) (king : Square) (m : Move)
    (h : m ∈ legalMovesBase pos king) :
    (∃ r f c t p, m = Move.normal r f c t p) ∨
      (∃ side r, pos.castling.rook pos.turn side = some r ∧
        m = Move.castle king r) := by
  unfold legalMovesBase at h
  split at h
  · simp only [List.mem_append] at h
    rcases h with ((h | h) | h) | h
    · obtain ⟨r, f, c, t, p, -, hm⟩ := genNonKing_shape pos _ m h
      exact Or.inl ⟨r, f, c, t, p, hm⟩
    · obtain ⟨c, t, hm⟩ := genSafeKing_shape pos king _ m h
      exact Or.inl ⟨_, _, c, t, _, hm⟩
    · obtain ⟨r, hslot, hm⟩ := genCastlingMoves_shape pos king _ m h
      exact Or.inr ⟨_, r, hslot, hm⟩
    · obtain ⟨r, hslot, hm⟩ := genCastlingMoves_shape pos king _ m h
      exact Or.inr ⟨_, r, hslot, hm⟩
  · obtain ⟨r, f, c, t, p, hm⟩ := evasions_shape pos king _ m h
    exact Or.inl ⟨r, f, c, t, p, hm⟩

theorem mem_legalMoves_iff (pos : Chess) (king : Square)
    (hk : pos.board.kingOf pos.turn = some king) (m : Move) :
    m ∈ legalMoves pos ↔
      ((m ∈ genEnPassant pos.board pos.turn pos.epSquare ∨
        m ∈ legalMovesBase pos king) ∧
        isSafe pos king m (sliderBlockers pos.board pos.them king) = true) := by
  unfold legalMoves
  rw [hk]
  dsimp only []
  split
  · rw [List.mem_filter, List.mem_append]
  · rename_i hcond
    rw [not_or] at hcond
    obtain ⟨hbl, hep⟩ := hcond
    rw [Finset.not_nonempty_iff_eq_empty] at hbl
    have hepE : genEnPassant pos.board pos.turn pos.epSquare = [] := by
      cases hE : (genEnPassant pos.board pos.turn pos.epSquare).isEmpty with
      | true => exact List.isEmpty_iff.mp hE
      | false => exact absurd (by rw [hE]; rfl) hep
    rw [List.mem_append, hepE]
    constructor
    · intro h
      rcases h with h | h
      · cases h
      · refine ⟨Or.inr h, ?_⟩
        rcases legalMovesBase_shape pos king m h with ⟨r, f, c, t, p, hm⟩ |
          ⟨side, r, -, hm⟩
        · subst hm
          rw [hbl]
          exact isSafe_normal_of_blockers_empty pos king r f c t p
        · subst hm
          exact isSafe_castle pos king king r _
    · rintro ⟨h | h, -⟩
      · cases h
      · exact Or.inr h
theorem mem_ite_nil {α : Type} (c : Bool) (l : List α) (m : α) :
    m ∈ (if c = true then l else []) ↔ c = true ∧ m ∈ l := by
  by_cases h : c = true
  · simp [h]
  · simp [h]

theorem sanCandidatesBase_shape (pos : Chess) (king : Square) (role : Role)
    (to' : Square) (m : Move) (h : m ∈ sanCandidatesBase pos king role to') :
    ∃ r f c t p, m = Move.normal r f c t p := by
  unfold sanCandidatesBase at h
  by_cases hchk : pos.checkers = ∅
  · rw [if_pos hchk] at h
    by_cases hus : to' ∈ pos.us
    · rw [if_pos hus] at h
      cases h
    · rw [if_neg hus, List.mem_append] at h
      rcases h with h | h
      · cases role with
        | pawn =>
            obtain ⟨f, c, t, p, hm⟩ := genPawnMoves_shape pos _ m h
            exact ⟨_, f, c, t, p, hm⟩
        | king =>
            obtain ⟨c, t, hm⟩ := genSafeKing_shape pos king _ m h
            exact ⟨_, _, c, t, _, hm⟩
        | knight => cases h
        | bishop => cases h
        | rook => cases h
        | queen => cases h
      · rw [List.mem_map] at h
        obtain ⟨f, -, hm⟩ := h
        exact ⟨role, f, _, to', none, hm.symm⟩
  · rw [if_neg hchk, List.mem_filter] at h
    obtain ⟨r, f, c, t, p, hm⟩ := evasions_shape pos king _ m h.1
    exact ⟨r, f, c, t, p, hm⟩

theorem mem_sanCandidatesC_iff (pos : Chess) (king : Square) (role : Role)
    (to' : Square) (hk : pos.board.kingOf pos.turn = some king) (m : Move) :
    m ∈ sanCandidatesC pos role to' ↔
      ((m ∈ sanCandidatesBase pos king role to' ∨
        ((role == Role.pawn && some to' == pos.epSquare) = true ∧
          m ∈ genEnPassant pos.board pos.turn pos.epSquare)) ∧
        isSafe pos king m (sliderBlockers pos.board pos.them king) = true) := by
  unfold sanCandidatesC
  rw [hk]
  dsimp only []
  by_cases hEc : (role == Role.pawn && some to' == pos.epSquare) = true
  · rw [if_pos hEc]
    split
    · rw [List.mem_filter, List.mem_append]
      constructor
      · rintro ⟨h1 | h1, h2⟩
        · exact ⟨Or.inl h1, h2⟩
        · exact ⟨Or.inr ⟨hEc, h1⟩, h2⟩
      · rintro ⟨h1 | ⟨-, h1⟩, h2⟩
        · exact ⟨Or.inl h1, h2⟩
        · exact ⟨Or.inr h1, h2⟩
    · rename_i hcond
      rw [not_or] at hcond
      obtain ⟨hbl, hep⟩ := hcond
      rw [Finset.not_nonempty_iff_eq_empty] at hbl
      have hEmpty : genEnPassant pos.board pos.turn pos.epSquare = [] := by
        cases hE : (genEnPassant pos.board pos.turn pos.epSquare).isEmpty with
        | true => exact List.isEmpty_iff.mp hE
        | false => exact absurd (by rw [hEc, hE]; rfl) hep
      rw [hEmpty, List.append_nil]
      constructor
      · intro h
        refine ⟨Or.inl h, ?_⟩
        obtain ⟨r, f, c, t, p, hm⟩ := sanCandidatesBase_shape pos king role to' m h
        subst hm
        rw [hbl]
        exact isSafe_normal_of_blockers_empty pos king r f c t p
      · rintro ⟨h1 | ⟨-, h1⟩, -⟩
        · exact h1
        · cases h1
  · rw [if_neg hEc, List.append_nil]
    split
    · rw [List.mem_filter]
      constructor
      · rintro ⟨h1, h2⟩
        exact ⟨Or.inl h1, h2⟩
      · rintro ⟨h1 | ⟨hEc2, -⟩, h2⟩
        · exact ⟨h1, h2⟩
        · exact absurd hEc2 hEc
    · rename_i hcond
      rw [not_or] at hcond
      obtain ⟨hbl, -⟩ := hcond
      rw [Finset.not_nonempty_iff_eq_empty] at hbl
      constructor
      · intro h
        refine ⟨Or.inl h, ?_⟩
        obtain ⟨r, f, c, t, p, hm⟩ := sanCandidatesBase_shape pos king role to' m h
        subst hm
        rw [hbl]
        exact isSafe_normal_of_blockers_empty pos king r f c t p
      · rintro ⟨h1 | ⟨hEc2, -⟩, -⟩
        · exact h1
        · exact absurd hEc2 hEc
theorem toL_empty : Bitboard.toL (∅ : Bitboard) = [] := by
  simp [Bitboard.toL]

theorem clearBetween_xor_king (occ : Bitboard) (a king : Square) :
    clearBetweenB (bbXor occ {king}) a king = clearBetweenB occ a king := by
  rw [Bool.eq_iff_iff]
  simp only [clearBetweenB, decide_eq_true_eq]
  constructor
  · intro h u hu
    by_cases hk : u = king
    · subst hk
      exact betweenB_self_right a u
    · exact h u (by simp [bbXor, Finset.mem_union, Finset.mem_sdiff, hu, hk])
  · intro h u hu
    simp only [bbXor, Finset.mem_union, Finset.mem_sdiff, Finset.mem_singleton] at hu
    rcases hu with ⟨hu, -⟩ | ⟨hk, -⟩
    · exact h u hu
    · subst hk
      exact betweenB_self_right a u

theorem attacksTo_xor_king (b : Board) (king : Square) (c : Color)
    (occ : Bitboard) :
    b.attacksTo king c (bbXor occ {king}) = b.attacksTo king c occ := by
  unfold Board.attacksTo
  apply Finset.filter_congr
  intro a _
  cases hpa : b.pieceAt a with
  | none => rfl
  | some p =>
      cases p with
      | mk pc pr =>
          cases pr <;>
            simp [attackedFrom, clearBetween_xor_king]

theorem checkers_eq_attacksTo (pos : Chess) (king : Square)
    (hk : pos.board.kingOf pos.turn = some king) :
    pos.checkers =
      pos.board.attacksTo king pos.turn.other pos.board.occupied := by
  unfold Chess.checkers
  rw [show Bitboard.first (pos.our .king) = pos.board.kingOf pos.turn from rfl, hk]
  rfl

theorem mem_kingPath_self (king kingTo : Square) :
    king ∈ ((between king kingTo) ∪ {kingTo}) ∪ {king} := by
  simp

theorem genCastlingMoves_of_check (pos : Chess) (king : Square)
    (side : CastlingSide) (hk : pos.board.kingOf pos.turn = some king)
    (hchk : pos.checkers ≠ ∅) :
    genCastlingMoves pos king side = [] := by
  unfold genCastlingMoves
  cases hslot : pos.castling.rook pos.turn side with
  | none => rfl
  | some r =>
      dsimp only []
      split
      · rfl
      · split
        · rfl
        · rename_i hany
          exfalso
          apply hany
          rw [List.any_eq_true]
          refine ⟨king, ?_, ?_⟩
          · rw [mem_toL]
            exact mem_kingPath_self king _
          · rw [decide_eq_true_eq]
            unfold Chess.kingAttackers
            rw [attacksTo_xor_king]
            rw [checkers_eq_attacksTo pos king hk] at hchk
            exact Finset.nonempty_iff_ne_empty.mpr hchk

theorem exists_king_of_validate (pos : Chess)
    (h : validate pos = PositionError.noErr) :
    ∃ king, pos.board.kingOf pos.turn = some king := by
  have h2 := congrArg PositionError.missingKing h
  have h3 : ((pos.board.kingOf Color.white).isNone ||
      (pos.board.kingOf Color.black).isNone) = false := h2
  rw [Bool.or_eq_false_iff] at h3
  cases pos.turn with
  | white =>
      cases hcase : pos.board.kingOf Color.white with
      | none => rw [hcase] at h3; exact absurd h3.1 (by simp)
      | some k => exact ⟨k, rfl⟩
  | black =>
      cases hcase : pos.board.kingOf Color.black with
      | none => rw [hcase] at h3; exact absurd h3.2 (by simp)
      | some k => exact ⟨k, rfl⟩

theorem castlingMovesC_eq (pos : Chess) (king : Square) (side : CastlingSide)
    (hk : pos.board.kingOf pos.turn = some king) :
    castlingMovesC pos side = genCastlingMoves pos king side := by
  unfold castlingMovesC
  rw [hk]
theorem not_mem_genPieceMoves_of_role (pos : Chess) (role role' : Role)
    (att : Square → Bitboard) (target : Bitboard) (f : Square) (c : Option Role)
    (t : Square) (p : Option Role) (h : role ≠ role') :
    Move.normal role f c t p ∉ genPieceMoves pos role' att target := by
  intro hm
  obtain ⟨f', c', t', hm'⟩ := genPieceMoves_shape pos role' att target _ hm
  simp only [Move.normal.injEq] at hm'
  exact h hm'.1

theorem not_mem_genPawnMoves_of_role (pos : Chess) (role : Role)
    (target : Bitboard) (f : Square) (c : Option Role)
    (t : Square) (p : Option Role) (h : role ≠ Role.pawn) :
    Move.normal role f c t p ∉ genPawnMoves pos target := by
  intro hm
  obtain ⟨f', c', t', p', hm'⟩ := genPawnMoves_shape pos target _ hm
  simp only [Move.normal.injEq] at hm'
  exact h hm'.1

theorem not_mem_genSafeKing_of_role (pos : Chess) (king : Square) (role : Role)
    (target : Bitboard) (f : Square) (c : Option Role)
    (t : Square) (p : Option Role) (h : role ≠ Role.king) :
    Move.normal role f c t p ∉ genSafeKing pos king target := by
  intro hm
  obtain ⟨c', t', hm'⟩ := genSafeKing_shape pos king target _ hm
  simp only [Move.normal.injEq] at hm'
  exact h hm'.1

theorem not_mem_genCastlingMoves_normal (pos : Chess) (king : Square)
    (side : CastlingSide) (role : Role) (f : Square) (c : Option Role)
    (t : Square) (p : Option Role) :
    Move.normal role f c t p ∉ genCastlingMoves pos king side := by
  intro hm
  obtain ⟨r, -, hm'⟩ := genCastlingMoves_shape pos king side _ hm
  cases hm'

theorem mem_genNonKing_target (pos : Chess) (target : Bitboard) (m : Move) :
    m ∈ genNonKing pos target ↔
      m ∈ genNonKing pos Finset.univ ∧ m.dest ∈ target := by
  simp only [genNonKing, List.mem_append]
  constructor
  · rintro ((((h | h) | h) | h) | h)
    · rw [mem_genPawnMoves_target] at h
      exact ⟨Or.inl (Or.inl (Or.inl (Or.inl h.1))), h.2⟩
    · rw [mem_genPieceMoves_target] at h
      exact ⟨Or.inl (Or.inl (Or.inl (Or.inr h.1))), h.2⟩
    · rw [mem_genPieceMoves_target] at h
      exact ⟨Or.inl (Or.inl (Or.inr h.1)), h.2⟩
    · rw [mem_genPieceMoves_target] at h
      exact ⟨Or.inl (Or.inr h.1), h.2⟩
    · rw [mem_genPieceMoves_target] at h
      exact ⟨Or.inr h.1, h.2⟩
  · rintro ⟨((((h | h) | h) | h) | h), hd⟩
    · exact Or.inl (Or.inl (Or.inl (Or.inl
        ((mem_genPawnMoves_target pos target m).mpr ⟨h, hd⟩))))
    · exact Or.inl (Or.inl (Or.inl (Or.inr
        ((mem_genPieceMoves_target pos _ _ target m).mpr ⟨h, hd⟩))))
    · exact Or.inl (Or.inl (Or.inr
        ((mem_genPieceMoves_target pos _ _ target m).mpr ⟨h, hd⟩)))
    · exact Or.inl (Or.inr ((mem_genPieceMoves_target pos _ _ target m).mpr ⟨h, hd⟩))
    · exact Or.inr ((mem_genPieceMoves_target pos _ _ target m).mpr ⟨h, hd⟩)
theorem mem_genNonKing_pawn (pos : Chess) (target : Bitboard) (f : Square)
    (c : Option Role) (t : Square) (p : Option Role) :
    Move.normal .pawn f c t p ∈ genNonKing pos target ↔
      Move.normal .pawn f c t p ∈ genPawnMoves pos target := by
  simp only [genNonKing, List.mem_append]
  constructor
  · rintro ((((h | h) | h) | h) | h)
    · exact h
    · exact absurd h (not_mem_genPieceMoves_of_role pos _ _ _ _ f c t p (by decide))
    · exact absurd h (not_mem_genPieceMoves_of_role pos _ _ _ _ f c t p (by decide))
    · exact absurd h (not_mem_genPieceMoves_of_role pos _ _ _ _ f c t p (by decide))
    · exact absurd h (not_mem_genPieceMoves_of_role pos _ _ _ _ f c t p (by decide))
  · exact fun h => Or.inl (Or.inl (Or.inl (Or.inl h)))

theorem mem_genNonKing_knight (pos : Chess) (target : Bitboard) (f : Square)
    (c : Option Role) (t : Square) (p : Option Role) :
    Move.normal .knight f c t p ∈ genNonKing pos target ↔
      Move.normal .knight f c t p ∈ genPieceMoves pos .knight knightAttacks target := by
  simp only [genNonKing, List.mem_append]
  constructor
  · rintro ((((h | h) | h) | h) | h)
    · exact absurd h (not_mem_genPawnMoves_of_role pos _ _ f c t p (by decide))
    · exact h
    · exact absurd h (not_mem_genPieceMoves_of_role pos _ _ _ _ f c t p (by decide))
    · exact absurd h (not_mem_genPieceMoves_of_role pos _ _ _ _ f c t p (by decide))
    · exact absurd h (not_mem_genPieceMoves_of_role pos _ _ _ _ f c t p (by decide))
  · exact fun h => Or.inl (Or.inl (Or.inl (Or.inr h)))

theorem mem_genNonKing_bishop (pos : Chess) (target : Bitboard) (f : Square)
    (c : Option Role) (t : Square) (p : Option Role) :
    Move.normal .bishop f c t p ∈ genNonKing pos target ↔
      Move.normal .bishop f c t p ∈ genPieceMoves pos .bishop
        (fun s => bishopAttacks s pos.board.occupied) target := by
  simp only [genNonKing, List.mem_append]
  constructor
  · rintro ((((h | h) | h) | h) | h)
    · exact absurd h (not_mem_genPawnMoves_of_role pos _ _ f c t p (by decide))
    · exact absurd h (not_mem_genPieceMoves_of_role pos _ _ _ _ f c t p (by decide))
    · exact h
    · exact absurd h (not_mem_genPieceMoves_of_role pos _ _ _ _ f c t p (by decide))
    · exact absurd h (not_mem_genPieceMoves_of_role pos _ _ _ _ f c t p (by decide))
  · exact fun h => Or.inl (Or.inl (Or.inr h))

theorem mem_genNonKing_rook (pos : Chess) (target : Bitboard) (f : Square)
    (c : Option Role) (t : Square) (p : Option Role) :
    Move.normal .rook f c t p ∈ genNonKing pos target ↔
      Move.normal .rook f c t p ∈ genPieceMoves pos .rook
        (fun s => rookAttacks s pos.board.occupied) target := by
  simp only [genNonKing, List.mem_append]
  constructor
  · rintro ((((h | h) | h) | h) | h)
    · exact absurd h (not_mem_genPawnMoves_of_role pos _ _ f c t p (by decide))
    · exact absurd h (not_mem_genPieceMoves_of_role pos _ _ _ _ f c t p (by decide))
    · exact absurd h (not_mem_genPieceMoves_of_role pos _ _ _ _ f c t p (by decide))
    · exact h
    · exact absurd h (not_mem_genPieceMoves_of_role pos _ _ _ _ f c t p (by decide))
  · exact fun h => Or.inl (Or.inr h)

theorem mem_genNonKing_queen (pos : Chess) (target : Bitboard) (f : Square)
    (c : Option Role) (t : Square) (p : Option Role) :
    Move.normal .queen f c t p ∈ genNonKing pos target ↔
      Move.normal .queen f c t p ∈ genPieceMoves pos .queen
        (fun s => queenAttacks s pos.board.occupied) target := by
  simp only [genNonKing, List.mem_append]
  constructor
  · rintro ((((h | h) | h) | h) | h)
    · exact absurd h (not_mem_genPawnMoves_of_role pos _ _ f c t p (by decide))
    · exact absurd h (not_mem_genPieceMoves_of_role pos _ _ _ _ f c t p (by decide))
    · exact absurd h (not_mem_genPieceMoves_of_role pos _ _ _ _ f c t p (by decide))
    · exact absurd h (not_mem_genPieceMoves_of_role pos _ _ _ _ f c t p (by decide))
    · exact h
  · exact fun h => Or.inr h

theorem not_mem_genNonKing_king (pos : Chess) (target : Bitboard) (f : Square)
    (c : Option Role) (t : Square) (p : Option Role) :
    Move.normal .king f c t p ∉ genNonKing pos target := by
  intro h
  obtain ⟨r, f', c', t', p', hr, hm⟩ := genNonKing_shape pos target _ h
  simp only [Move.normal.injEq] at hm
  exact hr hm.1.symm

theorem loop_iff_pieceMoves (pos : Chess) (role : Role)
    (att : Square → Bitboard) (f t : Square) (cap p : Option Role)
    (hatt : ∀ a b : Square, a ∈ att b ↔ b ∈ att a)
    (hus : t ∉ pos.us) :
    Move.normal role f cap t p ∈ ((att t ∩ pos.our role).toL).map
        (fun f' => Move.normal role f' (pos.board.roleAt t) t none) ↔
      Move.normal role f cap t p ∈
        genPieceMoves pos role att (Finset.univ \ pos.us) := by
  rw [mem_genPieceMoves]
  simp only [List.mem_map, mem_toL, Finset.mem_inter]
  constructor
  · rintro ⟨f', ⟨hA, hO⟩, heq⟩
    simp only [Move.normal.injEq] at heq
    obtain ⟨-, hf, hc, -, hp⟩ := heq
    subst hf
    refine ⟨f', hO, t, ⟨(hatt f' t).mp hA, ?_⟩, ?_⟩
    · exact Finset.mem_sdiff.mpr ⟨Finset.mem_univ t, hus⟩
    · rw [← hc, ← hp]
  · rintro ⟨f', hO, t', ⟨hA, -⟩, heq⟩
    simp only [Move.normal.injEq] at heq
    obtain ⟨-, hf, hc, ht, hp⟩ := heq
    subst hf
    subst ht
    refine ⟨f, ⟨(hatt t f).mp hA, hO⟩, ?_⟩
    rw [hc, hp]
theorem sanBase_iff_legalBase (pos : Chess) (king : Square)
    (role : Role) (f : Square) (cap : Option Role) (t : Square)
    (p : Option Role) :
    Move.normal role f cap t p ∈ sanCandidatesBase pos king role t ↔
      Move.normal role f cap t p ∈ legalMovesBase pos king := by
  unfold sanCandidatesBase legalMovesBase
  by_cases hchk : pos.checkers = ∅
  · rw [if_pos hchk, if_pos hchk]
    simp only [List.mem_append]
    have hnc1 := not_mem_genCastlingMoves_normal pos king .kingSide role f cap t p
    have hnc2 := not_mem_genCastlingMoves_normal pos king .queenSide role f cap t p
    by_cases hus : t ∈ pos.us
    · rw [if_pos hus]
      simp only [List.not_mem_nil, false_iff]
      rintro (((h | h) | h) | h)
      · rw [mem_genNonKing_target] at h
        have hd := h.2
        rw [show Move.dest (Move.normal role f cap t p) = t from rfl,
          Finset.mem_sdiff] at hd
        exact hd.2 hus
      · rw [mem_genSafeKing_target] at h
        have hd := h.2
        rw [show Move.dest (Move.normal role f cap t p) = t from rfl,
          Finset.mem_sdiff] at hd
        exact hd.2 hus
      · exact hnc1 h
      · exact hnc2 h
    · rw [if_neg hus]
      rw [eq_false hnc1, eq_false hnc2, or_false, or_false]
      cases role with
      | pawn =>
          rw [show pieceFromBB pos Role.pawn t = ∅ from rfl, Finset.empty_inter,
            toL_empty, List.map_nil, List.append_nil]
          rw [eq_false (not_mem_genSafeKing_of_role pos king .pawn _ f cap t p
            (by decide)), or_false]
          rw [mem_genNonKing_pawn, mem_genPawnMoves_target pos {t},
            mem_genPawnMoves_target pos (Finset.univ \ pos.us)]
          simp [Move.dest, hus]
      | king =>
          rw [show pieceFromBB pos Role.king t = ∅ from rfl, Finset.empty_inter,
            toL_empty, List.map_nil, List.append_nil]
          rw [eq_false (not_mem_genNonKing_king pos _ f cap t p), false_or]
          rw [mem_genSafeKing_target pos king {t},
            mem_genSafeKing_target pos king (Finset.univ \ pos.us)]
          simp [Move.dest, hus]
      | knight =>
          simp only [List.nil_append]
          rw [eq_false (not_mem_genSafeKing_of_role pos king .knight _ f cap t p
            (by decide)), or_false]
          rw [mem_genNonKing_knight,
            ← loop_iff_pieceMoves pos .knight knightAttacks f t cap p
              (fun a b => knightAttacks_mem_comm b a) hus]
          exact Iff.rfl
      | bishop =>
          simp only [List.nil_append]
          rw [eq_false (not_mem_genSafeKing_of_role pos king .bishop _ f cap t p
            (by decide)), or_false]
          rw [mem_genNonKing_bishop,
            ← loop_iff_pieceMoves pos .bishop
              (fun s => bishopAttacks s pos.board.occupied) f t cap p
              (fun a b => bishopAttacks_mem_comm b a pos.board.occupied) hus]
          exact Iff.rfl
      | rook =>
          simp only [List.nil_append]
          rw [eq_false (not_mem_genSafeKing_of_role pos king .rook _ f cap t p
            (by decide)), or_false]
          rw [mem_genNonKing_rook,
            ← loop_iff_pieceMoves pos .rook
              (fun s => rookAttacks s pos.board.occupied) f t cap p
              (fun a b => rookAttacks_mem_comm b a pos.board.occupied) hus]
          exact Iff.rfl
      | queen =>
          simp only [List.nil_append]
          rw [eq_false (not_mem_genSafeKing_of_role pos king .queen _ f cap t p
            (by decide)), or_false]
          rw [mem_genNonKing_queen,
            ← loop_iff_pieceMoves pos .queen
              (fun s => queenAttacks s pos.board.occupied) f t cap p
              (fun a b => queenAttacks_mem_comm b a pos.board.occupied) hus]
          exact Iff.rfl
  · rw [if_neg hchk, if_neg hchk]
    simp [List.mem_filter, moveMatches]
theorem contains_iff_mem (l : List Move) (m : Move) :
    l.contains m = true ↔ m ∈ l := by
  induction l with
  | nil => simp
  | cons a l ih =>
      simp only [List.contains_cons, Bool.or_eq_true, List.mem_cons, ih,
        beq_iff_eq]

theorem normal_not_mem_genEnPassant (pos : Chess) (role : Role) (f : Square)
    (cap : Option Role) (t : Square) (p : Option Role) :
    Move.normal role f cap t p ∉ genEnPassant pos.board pos.turn pos.epSquare := by
  intro h
  obtain ⟨f', t', -, hm⟩ := genEnPassant_shape _ _ _ _ h
  cases hm
/-- C3: on a well-formed position (it passes `validate` and its castling
table satisfies the reachable-state invariant), `is_legal` decides exactly
membership in `legal_moves`: the candidate-generator dispatch of
`Position::is_legal` accepts a move of any variant if and only if
`Chess::legal_moves` emits it. -/
theorem c3_is_legal_iff_mem_legal_moves (pos : Chess) (m : Move)
    (hWF : WellFormed pos) :
    isLegal pos m = true ↔ m ∈ legalMoves pos := by
  obtain ⟨king, hk⟩ := exists_king_of_validate pos hWF.1
  cases m with
  | normal role f cap t p =>
      rw [show isLegal pos (Move.normal role f cap t p) =
        (sanCandidatesC pos role t).contains (Move.normal role f cap t p)
        from rfl]
      rw [contains_iff_mem, mem_sanCandidatesC_iff pos king role t hk,
        mem_legalMoves_iff pos king hk]
      apply and_congr_left'
      constructor
      · rintro (h | ⟨-, h⟩)
        · exact Or.inr ((sanBase_iff_legalBase pos king role f cap t p).mp h)
        · exact absurd h (normal_not_mem_genEnPassant pos role f cap t p)
      · rintro (h | h)
        · exact absurd h (normal_not_mem_genEnPassant pos role f cap t p)
        · exact Or.inl ((sanBase_iff_legalBase pos king role f cap t p).mpr h)
  | enPassant f t =>
      rw [show isLegal pos (Move.enPassant f t) =
        (sanCandidatesC pos .pawn t).contains (Move.enPassant f t) from rfl]
      rw [contains_iff_mem, mem_sanCandidatesC_iff pos king .pawn t hk,
        mem_legalMoves_iff pos king hk]
      apply and_congr_left'
      have hnsan : Move.enPassant f t ∉ sanCandidatesBase pos king .pawn t := by
        intro h
        obtain ⟨r', f', c', t', p', hm⟩ := sanCandidatesBase_shape pos king _ _ _ h
        cases hm
      have hnbase : Move.enPassant f t ∉ legalMovesBase pos king := by
        intro h
        rcases legalMovesBase_shape pos king _ h with ⟨r', f', c', t', p', hm⟩ |
          ⟨side, r', -, hm⟩ <;> cases hm
      constructor
      · rintro (h | ⟨-, h⟩)
        · exact absurd h hnsan
        · exact Or.inl h
      · rintro (h | h)
        · refine Or.inr ⟨?_, h⟩
          obtain ⟨f'', t'', hep, hm⟩ := genEnPassant_shape _ _ _ _ h
          rw [Move.enPassant.injEq] at hm
          rw [hep, ← hm.2]
          simp
        · exact absurd h hnbase
  | put role t =>
      rw [show isLegal pos (Move.put role t) =
        (sanCandidatesC pos role t).contains (Move.put role t) from rfl]
      rw [contains_iff_mem, mem_sanCandidatesC_iff pos king role t hk,
        mem_legalMoves_iff pos king hk]
      apply iff_of_false
      · rintro ⟨h | ⟨-, h⟩, -⟩
        · obtain ⟨r', f', c', t', p', hm⟩ := sanCandidatesBase_shape pos king _ _ _ h
          cases hm
        · obtain ⟨f', t', -, hm⟩ := genEnPassant_shape _ _ _ _ h
          cases hm
      · rintro ⟨h | h, -⟩
        · obtain ⟨f', t', -, hm⟩ := genEnPassant_shape _ _ _ _ h
          cases hm
        · rcases legalMovesBase_shape pos king _ h with ⟨r', f', c', t', p', hm⟩ |
            ⟨side, r', -, hm⟩ <;> cases hm
  | castle k r =>
      rw [show isLegal pos (Move.castle k r) =
        (if fileOf k < fileOf r then castlingMovesC pos .kingSide
         else castlingMovesC pos .queenSide).contains (Move.castle k r)
        from rfl]
      rw [mem_legalMoves_iff pos king hk]
      have hnEP : Move.castle k r ∉ genEnPassant pos.board pos.turn pos.epSquare := by
        intro h
        obtain ⟨f', t', -, hm⟩ := genEnPassant_shape _ _ _ _ h
        cases hm
      rw [show isSafe pos king (Move.castle k r)
        (sliderBlockers pos.board pos.them king) = true from rfl]
      by_cases hchk : pos.checkers = ∅
      · have hbase : Move.castle k r ∈ legalMovesBase pos king ↔
            (Move.castle k r ∈ genCastlingMoves pos king .kingSide ∨
              Move.castle k r ∈ genCastlingMoves pos king .queenSide) := by
          unfold legalMovesBase
          rw [if_pos hchk]
          simp only [List.mem_append]
          constructor
          · rintro (((h | h) | h) | h)
            · obtain ⟨r', f', c', t', p', -, hm⟩ := genNonKing_shape pos _ _ h
              cases hm
            · obtain ⟨c', t', hm⟩ := genSafeKing_shape pos king _ _ h
              cases hm
            · exact Or.inl h
            · exact Or.inr h
          · rintro (h | h)
            · exact Or.inl (Or.inr h)
            · exact Or.inr h
        constructor
        · intro h
          refine ⟨Or.inr (hbase.mpr ?_), rfl⟩
          by_cases hfile : fileOf k < fileOf r
          · rw [if_pos hfile, contains_iff_mem,
              castlingMovesC_eq pos king .kingSide hk] at h
            exact Or.inl h
          · rw [if_neg hfile, contains_iff_mem,
              castlingMovesC_eq pos king .queenSide hk] at h
            exact Or.inr h
        · rintro ⟨h | h, -⟩
          · exact absurd h hnEP
          · rcases hbase.mp h with h' | h'
            · obtain ⟨r₀, hslot, hm⟩ := genCastlingMoves_shape pos king _ _ h'
              rw [Move.castle.injEq] at hm
              obtain ⟨k₀, hk₀, -, hiff⟩ := hWF.2 pos.turn .kingSide r₀ hslot
              rw [hk] at hk₀
              have hfile : fileOf k < fileOf r := by
                rw [hm.1, hm.2]
                have h2 := hiff.mp rfl
                rwa [show k₀ = king from (Option.some.inj hk₀).symm] at h2
              rw [if_pos hfile, contains_iff_mem,
                castlingMovesC_eq pos king .kingSide hk]
              exact h'
            · obtain ⟨r₀, hslot, hm⟩ := genCastlingMoves_shape pos king _ _ h'
              rw [Move.castle.injEq] at hm
              obtain ⟨k₀, hk₀, -, hiff⟩ := hWF.2 pos.turn .queenSide r₀ hslot
              rw [hk] at hk₀
              have hfile : ¬ fileOf k < fileOf r := by
                rw [hm.1, hm.2]
                intro hcon
                have h2 : fileOf k₀ < fileOf r₀ := by
                  rwa [show k₀ = king from (Option.some.inj hk₀).symm]
                cases hiff.mpr h2
              rw [if_neg hfile, contains_iff_mem,
                castlingMovesC_eq pos king .queenSide hk]
              exact h'
      · apply iff_of_false
        · intro h
          by_cases hfile : fileOf k < fileOf r
          · rw [if_pos hfile, contains_iff_mem,
              castlingMovesC_eq pos king .kingSide hk,
              genCastlingMoves_of_check pos king .kingSide hk hchk] at h
            cases h
          · rw [if_neg hfile, contains_iff_mem,
              castlingMovesC_eq pos king .queenSide hk,
              genCastlingMoves_of_check pos king .queenSide hk hchk] at h
            cases h
        · rintro ⟨h | h, -⟩
          · exact absurd h hnEP
          · have hbase : Move.castle k r ∈ legalMovesBase pos king := h
            unfold legalMovesBase at hbase
            rw [if_neg hchk] at hbase
            obtain ⟨r', f', c', t', p', hm⟩ := evasions_shape pos king _ _ hbase
            cases hm

/-- Witness for C3: the default position is well-formed, and the theorem
applies to it with the move Ng1-f3. -/
theorem c3_is_legal_witness :
    WellFormed chessDefault ∧
      (isLegal chessDefault (Move.normal .knight 6 none 21 none) = true ↔
        Move.normal .knight 6 none 21 none ∈ legalMoves chessDefault) := by
  have hwf : WellFormed chessDefault := by
    constructor
    · decide
    · unfold CastlingWF
      decide
  exact ⟨hwf, c3_is_legal_iff_mem_legal_moves chessDefault _ hwf⟩

theorem fileOf_lt (s : Square) : fileOf s < 8 := by
  unfold fileOf; omega

theorem rankOf_lt (s : Square) : rankOf s < 8 := by
  have := s.isLt
  unfold rankOf; omega

theorem mkSquare_eta (t : Square) : mkSquare (fileOf t) (rankOf t) = t := by
  unfold mkSquare fileOf rankOf
  have := t.isLt
  ext
  simp [Nat.mod_add_div]
  omega

theorem fileFromCharB_file (f : Fin 8) :
    fileFromCharB (97 + (f : Nat)) = some f := by
  unfold fileFromCharB
  rw [dif_pos (by omega)]
  congr 1
  ext
  simp

theorem rankFromCharB_rank (r : Fin 8) :
    rankFromCharB (49 + (r : Nat)) = some r := by
  unfold rankFromCharB
  rw [dif_pos (by omega)]
  congr 1
  ext
  simp

theorem rankFromCharB_of_file (f : Fin 8) :
    rankFromCharB (97 + (f : Nat)) = none := by
  unfold rankFromCharB
  rw [dif_neg (by omega)]

theorem roleFromChar_upperB (r : Role) :
    roleFromChar (Role.upperB r) = some r := by
  cases r <;> rfl

theorem fileFromCharB_eq_97 (t : Square) :
    fileFromCharB (97 + fileOf t) = some (fileF t) :=
  fileFromCharB_file (fileF t)

theorem rankFromCharB_eq_49 (t : Square) :
    rankFromCharB (49 + rankOf t) = some (rankF t) :=
  rankFromCharB_rank (rankF t)

theorem mkSquare_fileF_rankF (t : Square) :
    mkSquare ((fileF t : Fin 8) : Nat) ((rankF t : Fin 8) : Nat) = t :=
  mkSquare_eta t

theorem parseSanTail_cap (role : Role) (file rank : Option (Fin 8))
    (t : Square) (promo : Option Role) :
    parseSanTail role file rank (some 120)
      ([97 + fileOf t, 49 + rankOf t] ++
        promo.elim [] (fun p => [61, Role.upperB p])) =
      some (.normal role file rank true t promo) := by
  cases promo with
  | none =>
      simp [parseSanTail, fileFromCharB_eq_97, rankFromCharB_eq_49,
        mkSquare_fileF_rankF]
  | some p =>
      simp [parseSanTail, fileFromCharB_eq_97, rankFromCharB_eq_49,
        mkSquare_fileF_rankF, roleFromChar_upperB]
theorem parseSanTail_nocap (role : Role) (file rank : Option (Fin 8))
    (t : Square) (promo : Option Role) :
    parseSanTail role file rank (some (97 + fileOf t))
      ((49 + rankOf t) :: promo.elim [] (fun p => [61, Role.upperB p])) =
      some (.normal role file rank false t promo) := by
  have h1 : ¬ (97 + fileOf t = 120) := by have := fileOf_lt t; omega
  have h2 : ¬ (97 + fileOf t = 61) := by omega
  cases promo with
  | none =>
      simp [parseSanTail, h1, h2, fileFromCharB_eq_97, rankFromCharB_eq_49,
        mkSquare_fileF_rankF]
  | some p =>
      simp [parseSanTail, h1, h2, fileFromCharB_eq_97, rankFromCharB_eq_49,
        mkSquare_fileF_rankF, roleFromChar_upperB]

theorem parseSanTail_promo (role : Role) (f r : Fin 8) (p : Role) :
    parseSanTail role (some f) (some r) (some 61) [Role.upperB p] =
      some (.normal role none none false (mkSquare f r) (some p)) := by
  simp [parseSanTail, roleFromChar_upperB]

theorem parseSanTail_exhaust (role : Role) (f r : Fin 8) :
    parseSanTail role (some f) (some r) none [] =
      some (.normal role none none false (mkSquare f r) none) := by
  simp [parseSanTail]
theorem upperB_lt_97 (r : Role) : Role.upperB r < 97 := by
  cases r <;> decide

theorem parseSanRank_rankByte (role : Role) (file : Option (Fin 8)) (r : Fin 8)
    (rest : List Nat) :
    parseSanRank role file (49 + (r : Nat)) rest =
      parseSanTail role file (some r) rest.head? rest.tail := by
  simp [parseSanRank, rankFromCharB_rank]

theorem parseSanRank_120 (role : Role) (file : Option (Fin 8))
    (rest : List Nat) :
    parseSanRank role file 120 rest =
      parseSanTail role file none (some 120) rest := by
  simp [parseSanRank, show rankFromCharB 120 = none from rfl]

theorem parseSanRank_fileByte (role : Role) (file : Option (Fin 8)) (f : Fin 8)
    (rest : List Nat) :
    parseSanRank role file (97 + (f : Nat)) rest =
      parseSanTail role file none (some (97 + (f : Nat))) rest := by
  simp [parseSanRank, rankFromCharB_of_file]

theorem parseSanFile_fileByte (role : Role) (f : Fin 8) (c2 : Nat)
    (r2 : List Nat) :
    parseSanFile role (97 + (f : Nat)) (c2 :: r2) =
      parseSanRank role (some f) c2 r2 := by
  have h : 97 ≤ 97 + (f : Nat) ∧ 97 + (f : Nat) ≤ 104 := by
    have := f.isLt
    omega
  simp [parseSanFile, h, fileFromCharB_file]

theorem parseSanFile_notFile (role : Role) (n1 : Nat) (r1 : List Nat)
    (h : ¬ (97 ≤ n1 ∧ n1 ≤ 104)) :
    parseSanFile role n1 r1 = parseSanRank role none n1 r1 := by
  simp [parseSanFile, h]

theorem parseNormalSan_pawnHead (c0 : Nat) (r0 : List Nat) (h : 97 ≤ c0) :
    parseNormalSan (c0 :: r0) = parseSanFile .pawn c0 r0 := by
  simp [parseNormalSan, h]

theorem parseNormalSan_pieceHead (role : Role) (c1 : Nat) (r1 : List Nat) :
    parseNormalSan (Role.upperB role :: c1 :: r1) = parseSanFile role c1 r1 := by
  have h := upperB_lt_97 role
  simp [parseNormalSan, show ¬ 97 ≤ Role.upperB role from by omega,
    roleFromChar_upperB]
theorem parseNormalSan_rt (role : Role) (fl rk : Option (Fin 8)) (cap : Bool)
    (t : Square) (promo : Option Role) (hp : role = Role.pawn → rk = none) :
    parseNormalSan (sanBytes (San.normal role fl rk cap t promo)) =
      some (San.normal role fl rk cap t promo) := by
  by_cases hrole : role = Role.pawn
  · subst hrole
    have hrk : rk = none := hp rfl
    subst hrk
    cases fl with
    | some hf =>
        cases cap with
        | true =>
            have hb : sanBytes (San.normal .pawn (some hf) none true t promo) =
                (97 + (hf : Nat)) :: 120 ::
                  (97 + ((fileF t : Fin 8) : Nat)) ::
                  (49 + ((rankF t : Fin 8) : Nat)) ::
                  promo.elim [] (fun p => [61, Role.upperB p]) := rfl
            rw [hb, parseNormalSan_pawnHead _ _ (by omega),
              parseSanFile_fileByte, parseSanRank_120]
            exact parseSanTail_cap .pawn (some hf) none t promo
        | false =>
            have hb : sanBytes (San.normal .pawn (some hf) none false t promo) =
                (97 + (hf : Nat)) ::
                  (97 + ((fileF t : Fin 8) : Nat)) ::
                  (49 + ((rankF t : Fin 8) : Nat)) ::
                  promo.elim [] (fun p => [61, Role.upperB p]) := rfl
            rw [hb, parseNormalSan_pawnHead _ _ (by omega),
              parseSanFile_fileByte, parseSanRank_fileByte]
            exact parseSanTail_nocap .pawn (some hf) none t promo
    | none =>
        cases cap with
        | true =>
            have hb : sanBytes (San.normal .pawn none none true t promo) =
                120 :: (97 + ((fileF t : Fin 8) : Nat)) ::
                  (49 + ((rankF t : Fin 8) : Nat)) ::
                  promo.elim [] (fun p => [61, Role.upperB p]) := rfl
            rw [hb, parseNormalSan_pawnHead _ _ (by omega),
              parseSanFile_notFile _ _ _ (by omega), parseSanRank_120]
            exact parseSanTail_cap .pawn none none t promo
        | false =>
            have hb : sanBytes (San.normal .pawn none none false t promo) =
                (97 + ((fileF t : Fin 8) : Nat)) ::
                  (49 + ((rankF t : Fin 8) : Nat)) ::
                  promo.elim [] (fun p => [61, Role.upperB p]) := rfl
            rw [hb, parseNormalSan_pawnHead _ _ (by omega),
              parseSanFile_fileByte, parseSanRank_rankByte]
            cases promo with
            | none =>
                simp only [Option.elim_none, List.head?_nil, List.tail_nil]
                rw [parseSanTail_exhaust, mkSquare_fileF_rankF]
            | some p =>
                simp only [Option.elim_some, List.head?_cons, List.tail_cons]
                rw [parseSanTail_promo, mkSquare_fileF_rankF]
  · cases fl with
    | some hf =>
        cases rk with
        | some hr =>
            cases cap with
            | true =>
                have hb : sanBytes (San.normal role (some hf) (some hr) true t promo) =
                    Role.upperB role :: (97 + (hf : Nat)) :: (49 + (hr : Nat)) ::
                      120 :: (97 + ((fileF t : Fin 8) : Nat)) ::
                      (49 + ((rankF t : Fin 8) : Nat)) ::
                      promo.elim [] (fun p => [61, Role.upperB p]) := by
                  simp [sanBytes, squareBytes, fileF, rankF, if_neg hrole]
                rw [hb, parseNormalSan_pieceHead, parseSanFile_fileByte,
                  parseSanRank_rankByte]
                simp only [List.head?_cons, List.tail_cons]
                exact parseSanTail_cap role (some hf) (some hr) t promo
            | false =>
                have hb : sanBytes (San.normal role (some hf) (some hr) false t promo) =
                    Role.upperB role :: (97 + (hf : Nat)) :: (49 + (hr : Nat)) ::
                      (97 + ((fileF t : Fin 8) : Nat)) ::
                      (49 + ((rankF t : Fin 8) : Nat)) ::
                      promo.elim [] (fun p => [61, Role.upperB p]) := by
                  simp [sanBytes, squareBytes, fileF, rankF, if_neg hrole]
                rw [hb, parseNormalSan_pieceHead, parseSanFile_fileByte,
                  parseSanRank_rankByte]
                simp only [List.head?_cons, List.tail_cons]
                exact parseSanTail_nocap role (some hf) (some hr) t promo
        | none =>
            cases cap with
            | true =>
                have hb : sanBytes (San.normal role (some hf) none true t promo) =
                    Role.upperB role :: (97 + (hf : Nat)) :: 120 ::
                      (97 + ((fileF t : Fin 8) : Nat)) ::
                      (49 + ((rankF t : Fin 8) : Nat)) ::
                      promo.elim [] (fun p => [61, Role.upperB p]) := by
                  simp [sanBytes, squareBytes, fileF, rankF, if_neg hrole]
                rw [hb, parseNormalSan_pieceHead, parseSanFile_fileByte,
                  parseSanRank_120]
                exact parseSanTail_cap role (some hf) none t promo
            | false =>
                have hb : sanBytes (San.normal role (some hf) none false t promo) =
                    Role.upperB role :: (97 + (hf : Nat)) ::
                      (97 + ((fileF t : Fin 8) : Nat)) ::
                      (49 + ((rankF t : Fin 8) : Nat)) ::
                      promo.elim [] (fun p => [61, Role.upperB p]) := by
                  simp [sanBytes, squareBytes, fileF, rankF, if_neg hrole]
                rw [hb, parseNormalSan_pieceHead, parseSanFile_fileByte,
                  parseSanRank_fileByte]
                exact parseSanTail_nocap role (some hf) none t promo
    | none =>
        cases rk with
        | some hr =>
            cases cap with
            | true =>
                have hb : sanBytes (San.normal role none (some hr) true t promo) =
                    Role.upperB role :: (49 + (hr : Nat)) :: 120 ::
                      (97 + ((fileF t : Fin 8) : Nat)) ::
                      (49 + ((rankF t : Fin 8) : Nat)) ::
                      promo.elim [] (fun p => [61, Role.upperB p]) := by
                  simp [sanBytes, squareBytes, fileF, rankF, if_neg hrole]
                rw [hb, parseNormalSan_pieceHead,
                  parseSanFile_notFile _ _ _ (by have := hr.isLt; omega),
                  parseSanRank_rankByte]
                simp only [List.head?_cons, List.tail_cons]
                exact parseSanTail_cap role none (some hr) t promo
            | false =>
                have hb : sanBytes (San.normal role none (some hr) false t promo) =
                    Role.upperB role :: (49 + (hr : Nat)) ::
                      (97 + ((fileF t : Fin 8) : Nat)) ::
                      (49 + ((rankF t : Fin 8) : Nat)) ::
                      promo.elim [] (fun p => [61, Role.upperB p]) := by
                  simp [sanBytes, squareBytes, fileF, rankF, if_neg hrole]
                rw [hb, parseNormalSan_pieceHead,
                  parseSanFile_notFile _ _ _ (by have := hr.isLt; omega),
                  parseSanRank_rankByte]
                simp only [List.head?_cons, List.tail_cons]
                exact parseSanTail_nocap role none (some hr) t promo
        | none =>
            cases cap with
            | true =>
                have hb : sanBytes (San.normal role none none true t promo) =
                    Role.upperB role :: 120 ::
                      (97 + ((fileF t : Fin 8) : Nat)) ::
                      (49 + ((rankF t : Fin 8) : Nat)) ::
                      promo.elim [] (fun p => [61, Role.upperB p]) := by
                  simp [sanBytes, squareBytes, fileF, rankF, if_neg hrole]
                rw [hb, parseNormalSan_pieceHead,
                  parseSanFile_notFile _ _ _ (by omega), parseSanRank_120]
                exact parseSanTail_cap role none none t promo
            | false =>
                have hb : sanBytes (San.normal role none none false t promo) =
                    Role.upperB role ::
                      (97 + ((fileF t : Fin 8) : Nat)) ::
                      (49 + ((rankF t : Fin 8) : Nat)) ::
                      promo.elim [] (fun p => [61, Role.upperB p]) := by
                  simp [sanBytes, squareBytes, fileF, rankF, if_neg hrole]
                rw [hb, parseNormalSan_pieceHead, parseSanFile_fileByte,
                  parseSanRank_rankByte]
                cases promo with
                | none =>
                    simp only [Option.elim_none, List.head?_nil, List.tail_nil]
                    rw [parseSanTail_exhaust, mkSquare_fileF_rankF]
                | some p =>
                    simp only [Option.elim_some, List.head?_cons, List.tail_cons]
                    rw [parseSanTail_promo, mkSquare_fileF_rankF]
theorem sanBytes_normal_bytes (role : Role) (fl rk : Option (Fin 8))
    (cap : Bool) (t : Square) (promo : Option Role) :
    ∀ x ∈ sanBytes (San.normal role fl rk cap t promo),
      49 ≤ x ∧ x ≤ 120 ∧ x ≠ 64 ∧ x ≠ 79 := by
  intro x hx
  simp only [sanBytes, List.mem_append] at hx
  rcases hx with ((((h | h) | h) | h) | h) | h
  · split at h
    · cases h
    · simp only [List.mem_singleton] at h
      subst h
      cases role <;> exact ⟨by decide, by decide, by decide, by decide⟩
  · cases fl with
    | none => cases h
    | some hf =>
        simp only [Option.elim_some, List.mem_singleton] at h
        subst h
        have := hf.isLt
        exact ⟨by omega, by omega, by omega, by omega⟩
  · cases rk with
    | none => cases h
    | some hr =>
        simp only [Option.elim_some, List.mem_singleton] at h
        subst h
        have := hr.isLt
        exact ⟨by omega, by omega, by omega, by omega⟩
  · split at h
    · simp only [List.mem_singleton] at h
      subst h
      exact ⟨by decide, by decide, by decide, by decide⟩
    · cases h
  · simp only [squareBytes, List.mem_cons, List.mem_singleton,
      List.not_mem_nil, or_false] at h
    have h1 := fileOf_lt t
    have h2 := rankOf_lt t
    rcases h with h | h <;> subst h <;>
      exact ⟨by omega, by omega, by omega, by omega⟩
  · cases promo with
    | none => cases h
    | some p =>
        simp only [Option.elim_some, List.mem_cons, List.mem_singleton,
          List.not_mem_nil, or_false] at h
        rcases h with h | h <;> subst h
        · exact ⟨by decide, by decide, by decide, by decide⟩
        · cases p <;> exact ⟨by decide, by decide, by decide, by decide⟩

theorem sanFromBytesNoSuffix_eq_parse (l : List Nat)
    (h : ∀ x ∈ l, 49 ≤ x ∧ x ≤ 120 ∧ x ≠ 64 ∧ x ≠ 79) :
    sanFromBytesNoSuffix l = parseNormalSan l := by
  unfold sanFromBytesNoSuffix
  rw [if_neg (by intro heq; exact absurd (h 45 (by simp [heq])).1 (by omega)),
    if_neg (by intro heq; exact (h 79 (by simp [heq])).2.2.2 rfl),
    if_neg (by intro heq; exact (h 79 (by simp [heq])).2.2.2 rfl)]
  split
  · rename_i c0 a b
    rw [if_neg (h c0 (by simp)).2.2.1]
  · rename_i r0 c1 a b
    rw [if_neg (h c1 (by simp)).2.2.1]
  · rfl
theorem sanFromBytes_eq_noSuffix (l : List Nat)
    (h : ∀ x ∈ l, 49 ≤ x ∧ x ≤ 120 ∧ x ≠ 64 ∧ x ≠ 79) :
    sanFromBytes l = sanFromBytesNoSuffix l := by
  unfold sanFromBytes
  rw [if_neg]
  rintro (hl | hl) <;>
    exact absurd (h _ (List.mem_of_mem_getLast? hl)).1 (by omega)

theorem sanFromBytes_rt_normal (role : Role) (fl rk : Option (Fin 8))
    (cap : Bool) (t : Square) (promo : Option Role)
    (hp : role = Role.pawn → rk = none) :
    sanFromBytes (sanBytes (San.normal role fl rk cap t promo)) =
      some (San.normal role fl rk cap t promo) := by
  rw [sanFromBytes_eq_noSuffix _ (sanBytes_normal_bytes role fl rk cap t promo),
    sanFromBytesNoSuffix_eq_parse _ (sanBytes_normal_bytes role fl rk cap t promo),
    parseNormalSan_rt role fl rk cap t promo hp]

theorem sanFromBytes_rt_castle (side : CastlingSide) :
    sanFromBytes (sanBytes (San.castle side)) = some (San.castle side) := by
  cases side <;> rfl
theorem toL_nodup (bb : Bitboard) : bb.toL.Nodup :=
  (List.nodup_finRange 64).filter _

theorem offset_eq_some (s : Square) (d : Int) (u : Square) :
    s.offset d = some u ↔ (u : Int) = (s : Int) + d := by
  unfold Square.offset
  split
  · rename_i h
    simp only [Option.some.injEq]
    constructor
    · rintro rfl
      show (((s : Int) + d).toNat : Int) = (s : Int) + d
      omega
    · intro hu
      ext
      show ((s : Int) + d).toNat = (u : Nat)
      omega
  · rename_i h
    constructor
    · intro hu
      cases hu
    · intro hu
      have := u.isLt
      exact absurd (⟨by omega, by omega⟩ :
        0 ≤ (s : Int) + d ∧ (s : Int) + d < 64) h

theorem square_eq_of_file_rank (a b : Square) (hf : fileOf a = fileOf b)
    (hr : rankOf a = rankOf b) : a = b := by
  unfold fileOf at hf
  unfold rankOf at hr
  have := a.isLt
  have := b.isLt
  ext
  omega
theorem mem_occupied_iff (b : Board) (s : Square) :
    s ∈ b.occupied ↔ (b.pieceAt s).isSome = true := by
  simp [Board.occupied]

theorem roleAt_isSome_iff (b : Board) (s : Square) :
    (b.roleAt s).isSome = true ↔ s ∈ b.occupied := by
  simp [Board.roleAt, mem_occupied_iff]

theorem roleAt_eq_none_iff (b : Board) (s : Square) :
    b.roleAt s = none ↔ s ∉ b.occupied := by
  rw [← roleAt_isSome_iff]
  cases b.roleAt s <;> simp

theorem mem_byColor_occupied (b : Board) (c : Color) (s : Square)
    (h : s ∈ b.byColor c) : s ∈ b.occupied := by
  simp only [Board.byColor, Finset.mem_filter, Board.colorAt,
    Option.map_eq_some'] at h
  rw [mem_occupied_iff]
  obtain ⟨-, p, hp, -⟩ := h
  rw [hp]
  rfl

theorem them_roleAt_isSome (pos : Chess) (t : Square) (h : t ∈ pos.them) :
    (pos.board.roleAt t).isSome = true := by
  rw [roleAt_isSome_iff]
  exact mem_byColor_occupied _ _ _ h

theorem mem_pawnAttacks_iff (c : Color) (s t : Square) :
    t ∈ pawnAttacks c s ↔
      rankI t - rankI s = c.fold 1 (-1) ∧ (fileI s - fileI t).natAbs = 1 := by
  simp [pawnAttacks, pawnAttacksB, Finset.mem_filter]

theorem pawnAttacks_origin_unique (c : Color) (f f' t : Square)
    (h : t ∈ pawnAttacks c f) (h' : t ∈ pawnAttacks c f')
    (hfile : fileOf f = fileOf f') : f = f' := by
  rw [mem_pawnAttacks_iff] at h h'
  apply square_eq_of_file_rank _ _ hfile
  have h1 := h.1
  have h2 := h'.1
  unfold rankI at h1 h2
  cases c <;> simp only [Color.fold] at h1 h2 <;> omega
theorem epSquareA_eq_some (pos : Chess) (t : Square)
    (hep : pos.epSquare = some t) (hrel : isRelevantEp pos t = true) :
    pos.epSquareA = some t := by
  unfold Chess.epSquareA
  rw [hep]
  simp [Option.filter, hrel]

theorem ep_target_empty (pos : Chess) (t : Square)
    (hval : validate pos = PositionError.noErr)
    (hepA : pos.epSquareA = some t) :
    t ∉ pos.board.occupied := by
  have h0 : (validate pos).invalidEpSquare = false := by rw [hval]; rfl
  have h1 : (match pos.epSquareA with
      | some ep =>
          if ep ∉ relativeRank pos.turn 5 then true
          else
            match ep.offset (pos.turn.fold (-8) 8),
                ep.offset (pos.turn.fold 8 (-8)) with
            | some fifth, some seventh =>
                !(decide (fifth ∈ pos.their .pawn)) ||
                  decide (ep ∈ pos.board.occupied) ||
                  decide (seventh ∈ pos.board.occupied)
            | _, _ => true
      | none => false) = false := h0
  rw [hepA] at h1
  have h2 : (if t ∉ relativeRank pos.turn 5 then true
      else
        match t.offset (pos.turn.fold (-8) 8),
            t.offset (pos.turn.fold 8 (-8)) with
        | some fifth, some seventh =>
            !(decide (fifth ∈ pos.their .pawn)) ||
              decide (t ∈ pos.board.occupied) ||
              decide (seventh ∈ pos.board.occupied)
        | _, _ => true) = false := h1
  by_cases h5 : t ∉ relativeRank pos.turn 5
  · rw [if_pos h5] at h2
    cases h2
  · rw [if_neg h5] at h2
    cases ho1 : t.offset (pos.turn.fold (-8) 8) with
    | none =>
        rw [ho1] at h2
        have h3 : true = false := h2
        cases h3
    | some fifth =>
        cases ho2 : t.offset (pos.turn.fold 8 (-8)) with
        | none =>
            rw [ho1, ho2] at h2
            have h3 : true = false := h2
            cases h3
        | some seventh =>
            rw [ho1, ho2] at h2
            have h3 : (!(decide (fifth ∈ pos.their .pawn)) ||
                decide (t ∈ pos.board.occupied) ||
                decide (seventh ∈ pos.board.occupied)) = false := h2
            simp only [Bool.or_eq_false_iff, decide_eq_false_iff_not] at h3
            exact h3.1.2

theorem isRelevantEp_of_legal (pos : Chess) (f t : Square)
    (hep : pos.epSquare = some t)
    (hmem : Move.enPassant f t ∈ legalMoves pos) :
    isRelevantEp pos t = true := by
  unfold isRelevantEp
  rw [Bool.and_eq_true]
  constructor
  · rw [← hep]
    have hgen : Move.enPassant f t ∈ genEnPassant pos.board pos.turn pos.epSquare := by
      cases hking : pos.board.kingOf pos.turn with
      | none =>
          simp only [legalMoves, hking] at hmem
          cases hmem
      | some king =>
          rw [mem_legalMoves_iff pos king hking] at hmem
          rcases hmem.1 with h | h
          · exact h
          · exfalso
            rcases legalMovesBase_shape pos king _ h with
              ⟨r', f', c', t', p', hm⟩ | ⟨side, r', -, hm⟩ <;> cases hm
    cases hl : (genEnPassant pos.board pos.turn pos.epSquare).isEmpty
    · simp
    · rw [List.isEmpty_iff] at hl
      rw [hl] at hgen
      cases hgen
  · rw [List.any_eq_true]
    exact ⟨Move.enPassant f t, hmem, by simp⟩

theorem ep_candidate_target_empty (pos : Chess) (king : Square)
    (hk : pos.board.kingOf pos.turn = some king)
    (hval : validate pos = PositionError.noErr) (f t : Square)
    (hgen : Move.enPassant f t ∈ genEnPassant pos.board pos.turn pos.epSquare)
    (hsafe : isSafe pos king (Move.enPassant f t)
      (sliderBlockers pos.board pos.them king) = true) :
    t ∉ pos.board.occupied := by
  have hep : pos.epSquare = some t := by
    obtain ⟨f', t', hep', hm⟩ := genEnPassant_shape _ _ _ _ hgen
    rw [Move.enPassant.injEq] at hm
    rw [hep', hm.2]
  have hmem : Move.enPassant f t ∈ legalMoves pos :=
    (mem_legalMoves_iff pos king hk _).mpr ⟨Or.inl hgen, hsafe⟩
  exact ep_target_empty pos t hval
    (epSquareA_eq_some pos t hep (isRelevantEp_of_legal pos f t hep hmem))
theorem count_le_one_of_nodup {α : Type} [DecidableEq α] (l : List α)
    (h : l.Nodup) (a : α) : l.count a ≤ 1 :=
  List.nodup_iff_count_le_one.mp h a

theorem filter_eq_singleton {α : Type} [DecidableEq α] (l : List α)
    (p : α → Bool) (m : α) (hm : m ∈ l) (hpm : p m = true)
    (hcount : l.count m ≤ 1) (hother : ∀ x ∈ l, p x = true → x = m) :
    l.filter p = [m] := by
  have hflt : ∀ x ∈ l.filter p, x = m := fun x hx =>
    hother x (List.mem_filter.mp hx).1 (List.mem_filter.mp hx).2
  have hge : 1 ≤ l.count m := List.count_pos_iff.mpr hm
  have hcnt : (l.filter p).count m = 1 := by
    rw [List.count_filter hpm]
    omega
  cases hf : l.filter p with
  | nil =>
      rw [hf] at hcnt
      cases hcnt
  | cons x xs =>
      have hx : x = m := hflt x (by rw [hf]; exact List.mem_cons_self x xs)
      cases xs with
      | nil => rw [hx]
      | cons y ys =>
          exfalso
          have hy : y = m := hflt y (by rw [hf]; simp)
          rw [hf, hx, hy] at hcnt
          simp [List.count_cons] at hcnt

theorem sanDisambStep_fst_mono (f : Square) (l : List Move) (acc : Bool × Bool)
    (h : acc.1 = true) : (l.foldl (sanDisambStep f) acc).1 = true := by
  induction l generalizing acc with
  | nil => exact h
  | cons c l ih =>
      rw [List.foldl_cons]
      apply ih
      cases c with
      | normal r cf cc ct cp =>
          show (if cf = f then acc
            else if rankOf f = rankOf cf ∨ fileOf f ≠ fileOf cf then (acc.1, true)
            else (true, acc.2)).1 = true
          by_cases h1 : cf = f
          · rw [if_pos h1]
            exact h
          · rw [if_neg h1]
            by_cases h2 : rankOf f = rankOf cf ∨ fileOf f ≠ fileOf cf
            · rw [if_pos h2]
              exact h
            · rw [if_neg h2]
      | enPassant f' t' => exact h
      | castle k r => exact h
      | put r t' => exact h

theorem sanDisambStep_snd_mono (f : Square) (l : List Move) (acc : Bool × Bool)
    (h : acc.2 = true) : (l.foldl (sanDisambStep f) acc).2 = true := by
  induction l generalizing acc with
  | nil => exact h
  | cons c l ih =>
      rw [List.foldl_cons]
      apply ih
      cases c with
      | normal r cf cc ct cp =>
          show (if cf = f then acc
            else if rankOf f = rankOf cf ∨ fileOf f ≠ fileOf cf then (acc.1, true)
            else (true, acc.2)).2 = true
          by_cases h1 : cf = f
          · rw [if_pos h1]
            exact h
          · rw [if_neg h1]
            by_cases h2 : rankOf f = rankOf cf ∨ fileOf f ≠ fileOf cf
            · rw [if_pos h2]
            · rw [if_neg h2]
              exact h
      | enPassant f' t' => exact h
      | castle k r => exact h
      | put r t' => exact h

theorem sanDisambStep_snd_of_mem (f : Square) (l : List Move)
    (acc : Bool × Bool) (r : Role) (cf : Square) (cc : Option Role)
    (ct : Square) (cp : Option Role)
    (hc : Move.normal r cf cc ct cp ∈ l) (hne : cf ≠ f)
    (hcond : rankOf f = rankOf cf ∨ fileOf f ≠ fileOf cf) :
    (l.foldl (sanDisambStep f) acc).2 = true := by
  induction l generalizing acc with
  | nil => cases hc
  | cons c l ih =>
      rw [List.foldl_cons]
      rcases List.mem_cons.mp hc with hc1 | hc2
      · apply sanDisambStep_snd_mono
        rw [← hc1]
        show (if cf = f then acc
          else if rankOf f = rankOf cf ∨ fileOf f ≠ fileOf cf then (acc.1, true)
          else (true, acc.2)).2 = true
        rw [if_neg hne, if_pos hcond]
      · exact ih _ hc2
theorem pushPromotions_nodup (f t : Square) (cap : Option Role) :
    (pushPromotions f t cap).Nodup := by
  simp [pushPromotions]

theorem genEnPassant_nodup (b : Board) (turn : Color) (ep : Option Square) :
    (genEnPassant b turn ep).Nodup := by
  cases ep with
  | none => exact List.nodup_nil
  | some t =>
      apply (List.nodup_map_iff_inj_on (toL_nodup _)).mpr
      intro a _ b _ hab
      rw [Move.enPassant.injEq] at hab
      exact hab.1

theorem genPieceMoves_nodup (pos : Chess) (role : Role)
    (att : Square → Bitboard) (target : Bitboard) :
    (genPieceMoves pos role att target).Nodup := by
  unfold genPieceMoves
  rw [List.nodup_flatMap]
  constructor
  · intro f _
    apply (List.nodup_map_iff_inj_on (toL_nodup _)).mpr
    intro a _ b _ hab
    rw [Move.normal.injEq] at hab
    exact hab.2.2.2.1
  · refine List.Pairwise.imp ?_ (toL_nodup _)
    intro a b hab x hxa hxb
    simp only [List.mem_map] at hxa hxb
    obtain ⟨ta, -, hxa⟩ := hxa
    obtain ⟨tb, -, hxb⟩ := hxb
    rw [← hxa, Move.normal.injEq] at hxb
    exact hab hxb.2.1.symm

theorem genSafeKing_nodup (pos : Chess) (king : Square) (target : Bitboard) :
    (genSafeKing pos king target).Nodup := by
  unfold genSafeKing
  apply List.Nodup.filterMap ?_ (toL_nodup _)
  intro a a' b hba hba'
  rw [Option.mem_def] at hba hba'
  rw [Option.ite_none_right_eq_some, Option.some.injEq] at hba hba'
  rw [← hba.2, Move.normal.injEq] at hba'
  exact hba'.2.2.2.2.1.symm

theorem pawnCapturesList_nodup (pos : Chess) (target : Bitboard) :
    (pawnCapturesList pos target).Nodup := by
  unfold pawnCapturesList
  rw [List.nodup_flatMap]
  constructor
  · intro f _
    apply (List.nodup_map_iff_inj_on (toL_nodup _)).mpr
    intro a _ b _ hab
    rw [Move.normal.injEq] at hab
    exact hab.2.2.2.1
  · refine List.Pairwise.imp ?_ (toL_nodup _)
    intro a b hab x hxa hxb
    simp only [List.mem_map] at hxa hxb
    obtain ⟨ta, -, hxa⟩ := hxa
    obtain ⟨tb, -, hxb⟩ := hxb
    rw [← hxa, Move.normal.injEq] at hxb
    exact hab hxb.2.1.symm

theorem pawnCapturePromosList_nodup (pos : Chess) (target : Bitboard) :
    (pawnCapturePromosList pos target).Nodup := by
  unfold pawnCapturePromosList
  rw [List.nodup_flatMap]
  constructor
  · intro f _
    rw [List.nodup_flatMap]
    constructor
    · intro t _
      exact pushPromotions_nodup f t _
    · refine List.Pairwise.imp ?_ (toL_nodup _)
      intro a b hab x hxa hxb
      rw [mem_pushPromotions] at hxa hxb
      obtain ⟨pa, -, hxa⟩ := hxa
      obtain ⟨pb, -, hxb⟩ := hxb
      rw [hxa, Move.normal.injEq] at hxb
      exact hab hxb.2.2.2.1
  · refine List.Pairwise.imp ?_ (toL_nodup _)
    intro a b hab x hxa hxb
    simp only [List.mem_flatMap] at hxa hxb
    obtain ⟨ta, -, hxa⟩ := hxa
    obtain ⟨tb, -, hxb⟩ := hxb
    rw [mem_pushPromotions] at hxa hxb
    obtain ⟨pa, -, hxa⟩ := hxa
    obtain ⟨pb, -, hxb⟩ := hxb
    rw [hxa, Move.normal.injEq] at hxb
    exact hab hxb.2.1

theorem pawnSingleMovesList_nodup (pos : Chess) (target : Bitboard) :
    (pawnSingleMovesList pos target).Nodup := by
  unfold pawnSingleMovesList
  apply List.Nodup.filterMap ?_ (toL_nodup _)
  intro a a' b hba hba'
  rw [Option.mem_def] at hba hba'
  rw [Option.map_eq_some'] at hba hba'
  obtain ⟨fa, -, hba⟩ := hba
  obtain ⟨fa', -, hba'⟩ := hba'
  rw [← hba, Move.normal.injEq] at hba'
  exact hba'.2.2.2.1.symm

theorem pawnSinglePromosList_nodup (pos : Chess) (target : Bitboard) :
    (pawnSinglePromosList pos target).Nodup := by
  unfold pawnSinglePromosList
  rw [List.nodup_flatMap]
  constructor
  · intro t _
    cases ho : t.offset (pos.turn.fold (-8) 8) with
    | none => exact List.nodup_nil
    | some f => exact pushPromotions_nodup f t none
  · refine List.Pairwise.imp ?_ (toL_nodup _)
    intro a b hab x hxa hxb
    have hxa' : x ∈ (match a.offset (pos.turn.fold (-8) 8) with
      | some f => pushPromotions f a none
      | none => []) := hxa
    have hxb' : x ∈ (match b.offset (pos.turn.fold (-8) 8) with
      | some f => pushPromotions f b none
      | none => []) := hxb
    cases ha : a.offset (pos.turn.fold (-8) 8) with
    | none =>
        rw [ha] at hxa'
        simp at hxa'
    | some fa =>
        cases hb : b.offset (pos.turn.fold (-8) 8) with
        | none =>
            rw [hb] at hxb'
            simp at hxb'
        | some fb =>
            rw [ha] at hxa'
            rw [hb] at hxb'
            have hxa2 : x ∈ pushPromotions fa a none := hxa'
            have hxb2 : x ∈ pushPromotions fb b none := hxb'
            rw [mem_pushPromotions] at hxa2 hxb2
            obtain ⟨pa, -, hxa2⟩ := hxa2
            obtain ⟨pb, -, hxb2⟩ := hxb2
            rw [hxa2, Move.normal.injEq] at hxb2
            exact hab hxb2.2.2.2.1

theorem pawnDoubleMovesList_nodup (pos : Chess) (target : Bitboard) :
    (pawnDoubleMovesList pos target).Nodup := by
  unfold pawnDoubleMovesList
  apply List.Nodup.filterMap ?_ (toL_nodup _)
  intro a a' b hba hba'
  rw [Option.mem_def] at hba hba'
  rw [Option.map_eq_some'] at hba hba'
  obtain ⟨fa, -, hba⟩ := hba
  obtain ⟨fa', -, hba'⟩ := hba'
  rw [← hba, Move.normal.injEq] at hba'
  exact hba'.2.2.2.1.symm
theorem sanToMove_normal_of_filter (pos : Chess) (role : Role)
    (fl rk : Option (Fin 8)) (cap : Bool) (t : Square) (promo : Option Role)
    (m : Move)
    (h : (sanCandidatesC pos role t).filter (sanFilterPred fl rk cap promo) =
      [m]) :
    sanToMove (San.normal role fl rk cap t promo) pos = Except.ok m := by
  show (match (sanCandidatesC pos role t).filter
      (sanFilterPred fl rk cap promo) with
    | [] => Except.error SanError.illegalSan
    | [m] => Except.ok m
    | _ :: _ :: _ => Except.error SanError.ambiguousSan) = Except.ok m
  rw [h]

theorem sanToMove_castle_of (pos : Chess) (side : CastlingSide) (m : Move)
    (h : castlingMovesC pos side = [m]) :
    sanToMove (San.castle side) pos = Except.ok m := by
  show (match castlingMovesC pos side with
    | [] => Except.error SanError.illegalSan
    | [m] => Except.ok m
    | _ :: _ :: _ => Except.error SanError.ambiguousSan) = Except.ok m
  rw [h]

theorem mem_relShift8 (c : Color) (bb : Bitboard) (t : Square) :
    t ∈ relShift8 c bb ↔
      ∃ s, t.offset (c.fold (-8) 8) = some s ∧ s ∈ bb := by
  simp only [relShift8, Finset.mem_filter, Finset.mem_univ, true_and]
  cases ho : t.offset (c.fold (-8) 8) with
  | none => simp
  | some s => simp

theorem singlesBB_source (pos : Chess) (t : Square)
    (h : t ∈ pawnSinglesBB pos) :
    (∃ s, t.offset (pos.turn.fold (-8) 8) = some s ∧ s ∈ pos.our .pawn) ∧
      t ∉ pos.board.occupied := by
  rw [pawnSinglesBB, Finset.mem_sdiff, mem_relShift8] at h
  exact h

theorem doublesBB_source (pos : Chess) (t : Square)
    (h : t ∈ pawnDoublesBB pos) :
    (∃ s, t.offset (pos.turn.fold (-8) 8) = some s ∧ s ∈ pawnSinglesBB pos) ∧
      t ∉ pos.board.occupied := by
  rw [pawnDoublesBB, Finset.mem_sdiff, Finset.mem_inter, mem_relShift8] at h
  exact ⟨h.1.1, h.2⟩

theorem our_sub_occupied (pos : Chess) (r : Role) (s : Square)
    (h : s ∈ pos.our r) : s ∈ pos.board.occupied := by
  rw [Chess.our, Finset.mem_inter] at h
  exact mem_byColor_occupied _ _ _ h.1

theorem pawnAttacks_target_unique (c : Color) (s t t' : Square)
    (h : t ∈ pawnAttacks c s) (h' : t' ∈ pawnAttacks c s)
    (hfile : fileOf t = fileOf t') : t = t' := by
  rw [mem_pawnAttacks_iff] at h h'
  apply square_eq_of_file_rank _ _ hfile
  have h1 := h.1
  have h2 := h'.1
  unfold rankI at h1 h2
  cases c <;> simp only [Color.fold] at h1 h2 <;> omega

theorem mem_sanC_of_legal (pos : Chess) (king : Square)
    (hk : pos.board.kingOf pos.turn = some king) (role : Role) (f : Square)
    (cap : Option Role) (t : Square) (promo : Option Role)
    (hm : Move.normal role f cap t promo ∈ legalMoves pos) :
    Move.normal role f cap t promo ∈ sanCandidatesC pos role t := by
  rw [mem_legalMoves_iff pos king hk] at hm
  rw [mem_sanCandidatesC_iff pos king role t hk]
  refine ⟨Or.inl ?_, hm.2⟩
  rcases hm.1 with h | h
  · exact absurd h (normal_not_mem_genEnPassant pos role f cap t promo)
  · exact (sanBase_iff_legalBase pos king role f cap t promo).mpr h
theorem genPawnMoves_cases (pos : Chess) (T : Bitboard) (x : Move)
    (hx : x ∈ genPawnMoves pos T) :
    (∃ f t', f ∈ pos.our .pawn ∧ t' ∈ pawnAttacks pos.turn f ∧
        t' ∈ pos.them ∧ x = Move.normal .pawn f (pos.board.roleAt t') t' none) ∨
    (∃ f t' pr, f ∈ pos.our .pawn ∧ t' ∈ pawnAttacks pos.turn f ∧
        t' ∈ pos.them ∧
        x = Move.normal .pawn f (pos.board.roleAt t') t' (some pr)) ∨
    (∃ f t', t' ∈ pawnSinglesBB pos ∧
        t'.offset (pos.turn.fold (-8) 8) = some f ∧
        x = Move.normal .pawn f none t' none) ∨
    (∃ f t' pr, t' ∈ pawnSinglesBB pos ∧
        t'.offset (pos.turn.fold (-8) 8) = some f ∧
        x = Move.normal .pawn f none t' (some pr)) ∨
    (∃ f t', t' ∈ pawnDoublesBB pos ∧
        t'.offset (pos.turn.fold (-16) 16) = some f ∧
        x = Move.normal .pawn f none t' none) := by
  simp only [genPawnMoves, List.mem_append] at hx
  rcases hx with (((h | h) | h) | h) | h
  · rw [mem_pawnCapturesList] at h
    obtain ⟨f, hf, t', ⟨h1, h2, -⟩, hm⟩ := h
    exact Or.inl ⟨f, t', (Finset.mem_sdiff.mp hf).1, h1, h2, hm⟩
  · rw [mem_pawnCapturePromosList] at h
    obtain ⟨f, hf, t', ⟨h1, h2, -⟩, hm⟩ := h
    rw [mem_pushPromotions] at hm
    obtain ⟨pr, -, hm⟩ := hm
    refine Or.inr (Or.inl ⟨f, t', pr, ?_, h1, h2, hm⟩)
    rw [seventhBB, Finset.mem_inter] at hf
    exact hf.1
  · rw [mem_pawnSingleMovesList] at h
    obtain ⟨t', ⟨h1, -, -⟩, f, hoff, hm⟩ := h
    exact Or.inr (Or.inr (Or.inl ⟨f, t', h1, hoff, hm⟩))
  · rw [mem_pawnSinglePromosList] at h
    obtain ⟨t', ⟨h1, -, -⟩, f, hoff, hm⟩ := h
    rw [mem_pushPromotions] at hm
    obtain ⟨pr, -, hm⟩ := hm
    exact Or.inr (Or.inr (Or.inr (Or.inl ⟨f, t', pr, h1, hoff, hm⟩)))
  · rw [mem_pawnDoubleMovesList] at h
    obtain ⟨t', ⟨h1, -⟩, f, hoff, hm⟩ := h
    exact Or.inr (Or.inr (Or.inr (Or.inr ⟨f, t', h1, hoff, hm⟩)))

theorem pawn_candidate_cases (pos : Chess) (king : Square) (t : Square)
    (x : Move) (hx : x ∈ sanCandidatesBase pos king .pawn t) :
    (∃ f, f ∈ pos.our .pawn ∧ t ∈ pawnAttacks pos.turn f ∧ t ∈ pos.them ∧
        x = Move.normal .pawn f (pos.board.roleAt t) t none) ∨
    (∃ f pr, f ∈ pos.our .pawn ∧ t ∈ pawnAttacks pos.turn f ∧ t ∈ pos.them ∧
        x = Move.normal .pawn f (pos.board.roleAt t) t (some pr)) ∨
    (∃ f, t ∈ pawnSinglesBB pos ∧
        t.offset (pos.turn.fold (-8) 8) = some f ∧
        x = Move.normal .pawn f none t none) ∨
    (∃ f pr, t ∈ pawnSinglesBB pos ∧
        t.offset (pos.turn.fold (-8) 8) = some f ∧
        x = Move.normal .pawn f none t (some pr)) ∨
    (∃ f, t ∈ pawnDoublesBB pos ∧
        t.offset (pos.turn.fold (-16) 16) = some f ∧
        x = Move.normal .pawn f none t none) := by
  have main : (∃ T, x ∈ genPawnMoves pos T) ∧ Move.dest x = t := by
    unfold sanCandidatesBase at hx
    by_cases hchk : pos.checkers = ∅
    · rw [if_pos hchk] at hx
      by_cases hus : t ∈ pos.us
      · rw [if_pos hus] at hx
        cases hx
      · rw [if_neg hus] at hx
        have hloop : ((pieceFromBB pos Role.pawn t ∩ pos.our Role.pawn).toL) = [] := by
          rw [show pieceFromBB pos Role.pawn t = ∅ from rfl, Finset.empty_inter,
            toL_empty]
        rw [hloop, List.map_nil, List.append_nil] at hx
        refine ⟨⟨{t}, hx⟩, ?_⟩
        rw [mem_genPawnMoves_target] at hx
        exact Finset.mem_singleton.mp hx.2
    · rw [if_neg hchk, List.mem_filter] at hx
      obtain ⟨hev, hmm⟩ := hx
      unfold evasions at hev
      rw [List.mem_append] at hev
      rcases hev with hev | hev
      · obtain ⟨c', t', hm⟩ := genSafeKing_shape pos king _ x hev
        rw [hm] at hmm
        simp only [moveMatches] at hmm
        rw [Bool.and_eq_true, beq_iff_eq, beq_iff_eq] at hmm
        cases hmm.2
      · cases hsq : (pos.checkers).singleSquare with
        | none =>
            rw [hsq] at hev
            cases hev
        | some checker =>
            rw [hsq] at hev
            obtain ⟨r', f', c', t', p', -, hm⟩ := genNonKing_shape pos _ x hev
            subst hm
            simp only [moveMatches] at hmm
            rw [Bool.and_eq_true, beq_iff_eq, beq_iff_eq] at hmm
            obtain ⟨ht', hr'⟩ := hmm
            subst hr'
            subst ht'
            rw [mem_genNonKing_pawn] at hev
            exact ⟨⟨_, hev⟩, rfl⟩
  obtain ⟨⟨T, hT⟩, hdest⟩ := main
  have hcases := genPawnMoves_cases pos T x hT
  rcases hcases with ⟨f, t', h1, h2, h3, hm⟩ | ⟨f, t', pr, h1, h2, h3, hm⟩ |
    ⟨f, t', h1, h2, hm⟩ | ⟨f, t', pr, h1, h2, hm⟩ | ⟨f, t', h1, h2, hm⟩ <;>
    rw [hm] at hdest <;>
    rw [show Move.dest (Move.normal Role.pawn f _ t' _) = t' from rfl] at hdest <;>
    subst hdest
  · exact Or.inl ⟨f, h1, h2, h3, hm⟩
  · exact Or.inr (Or.inl ⟨f, pr, h1, h2, h3, hm⟩)
  · exact Or.inr (Or.inr (Or.inl ⟨f, h1, h2, hm⟩))
  · exact Or.inr (Or.inr (Or.inr (Or.inl ⟨f, pr, h1, h2, hm⟩)))
  · exact Or.inr (Or.inr (Or.inr (Or.inr ⟨f, h1, h2, hm⟩)))
theorem sanC_nonpawn_shape (pos : Chess) (king : Square) (role : Role)
    (t : Square) (x : Move) (hrole : role ≠ Role.pawn)
    (hx : x ∈ sanCandidatesBase pos king role t) :
    ∃ xf, x = Move.normal role xf (pos.board.roleAt t) t none ∧
      (role = Role.king → xf = king) := by
  unfold sanCandidatesBase at hx
  by_cases hchk : pos.checkers = ∅
  · rw [if_pos hchk] at hx
    by_cases hus : t ∈ pos.us
    · rw [if_pos hus] at hx
      cases hx
    · rw [if_neg hus, List.mem_append] at hx
      cases role with
      | pawn => exact absurd rfl hrole
      | king =>
          rcases hx with hx | hx
          · rw [mem_genSafeKing] at hx
            obtain ⟨t', ⟨-, ht'⟩, -, hm⟩ := hx
            rw [Finset.mem_singleton] at ht'
            subst ht'
            exact ⟨king, hm, fun _ => rfl⟩
          · rw [show pieceFromBB pos Role.king t = ∅ from rfl,
              Finset.empty_inter, toL_empty, List.map_nil] at hx
            cases hx
      | knight =>
          rcases hx with hx | hx
          · cases hx
          · rw [List.mem_map] at hx
            obtain ⟨xf, -, hm⟩ := hx
            exact ⟨xf, hm.symm, fun h => nomatch h⟩
      | bishop =>
          rcases hx with hx | hx
          · cases hx
          · rw [List.mem_map] at hx
            obtain ⟨xf, -, hm⟩ := hx
            exact ⟨xf, hm.symm, fun h => nomatch h⟩
      | rook =>
          rcases hx with hx | hx
          · cases hx
          · rw [List.mem_map] at hx
            obtain ⟨xf, -, hm⟩ := hx
            exact ⟨xf, hm.symm, fun h => nomatch h⟩
      | queen =>
          rcases hx with hx | hx
          · cases hx
          · rw [List.mem_map] at hx
            obtain ⟨xf, -, hm⟩ := hx
            exact ⟨xf, hm.symm, fun h => nomatch h⟩
  · rw [if_neg hchk, List.mem_filter] at hx
    obtain ⟨hev, hmm⟩ := hx
    unfold evasions at hev
    rw [List.mem_append] at hev
    rcases hev with hev | hev
    · rw [mem_genSafeKing] at hev
      obtain ⟨t', -, -, hm⟩ := hev
      subst hm
      simp only [moveMatches] at hmm
      rw [Bool.and_eq_true, beq_iff_eq, beq_iff_eq] at hmm
      obtain ⟨ht', hr⟩ := hmm
      subst ht'
      exact ⟨king, by rw [hr], fun _ => rfl⟩
    · cases hsq : (pos.checkers).singleSquare with
      | none =>
          rw [hsq] at hev
          cases hev
      | some checker =>
          rw [hsq] at hev
          obtain ⟨r', f', c', t', p', -, hm⟩ := genNonKing_shape pos _ x hev
          subst hm
          simp only [moveMatches] at hmm
          rw [Bool.and_eq_true, beq_iff_eq, beq_iff_eq] at hmm
          obtain ⟨ht', hr'⟩ := hmm
          subst hr'
          subst ht'
          cases hr : r' with
          | pawn => exact absurd hr.symm (hr ▸ hrole)
          | king =>
              subst hr
              exact absurd hev (not_mem_genNonKing_king pos _ f' c' t' p')
          | knight =>
              subst hr
              rw [mem_genNonKing_knight, mem_genPieceMoves] at hev
              obtain ⟨f'', -, t'', ⟨-, -⟩, hm2⟩ := hev
              rw [Move.normal.injEq] at hm2
              obtain ⟨-, hf2, hc2, ht2, hp2⟩ := hm2
              subst ht2
              rw [hc2, hp2, hf2]
              exact ⟨f'', rfl, fun h => nomatch h⟩
          | bishop =>
              subst hr
              rw [mem_genNonKing_bishop, mem_genPieceMoves] at hev
              obtain ⟨f'', -, t'', ⟨-, -⟩, hm2⟩ := hev
              rw [Move.normal.injEq] at hm2
              obtain ⟨-, hf2, hc2, ht2, hp2⟩ := hm2
              subst ht2
              rw [hc2, hp2, hf2]
              exact ⟨f'', rfl, fun h => nomatch h⟩
          | rook =>
              subst hr
              rw [mem_genNonKing_rook, mem_genPieceMoves] at hev
              obtain ⟨f'', -, t'', ⟨-, -⟩, hm2⟩ := hev
              rw [Move.normal.injEq] at hm2
              obtain ⟨-, hf2, hc2, ht2, hp2⟩ := hm2
              subst ht2
              rw [hc2, hp2, hf2]
              exact ⟨f'', rfl, fun h => nomatch h⟩
          | queen =>
              subst hr
              rw [mem_genNonKing_queen, mem_genPieceMoves] at hev
              obtain ⟨f'', -, t'', ⟨-, -⟩, hm2⟩ := hev
              rw [Move.normal.injEq] at hm2
              obtain ⟨-, hf2, hc2, ht2, hp2⟩ := hm2
              subst ht2
              rw [hc2, hp2, hf2]
              exact ⟨f'', rfl, fun h => nomatch h⟩
theorem genPawnMoves_nodup (pos : Chess) (T : Bitboard) :
    (genPawnMoves pos T).Nodup := by
  have dCCp : (pawnCapturesList pos T).Disjoint (pawnCapturePromosList pos T) := by
    intro x hx hx'
    rw [mem_pawnCapturesList] at hx
    rw [mem_pawnCapturePromosList] at hx'
    obtain ⟨f, -, t', -, hm⟩ := hx
    obtain ⟨f', -, t'', -, hm'⟩ := hx'
    rw [mem_pushPromotions] at hm'
    obtain ⟨pr, -, hm'⟩ := hm'
    rw [hm, Move.normal.injEq] at hm'
    cases hm'.2.2.2.2
  have dCS : (pawnCapturesList pos T).Disjoint (pawnSingleMovesList pos T) := by
    intro x hx hx'
    rw [mem_pawnCapturesList] at hx
    rw [mem_pawnSingleMovesList] at hx'
    obtain ⟨f, -, t', ⟨-, hthem, -⟩, hm⟩ := hx
    obtain ⟨t'', -, f', -, hm'⟩ := hx'
    rw [hm, Move.normal.injEq] at hm'
    have h0 := them_roleAt_isSome pos t' hthem
    rw [hm'.2.2.1] at h0
    cases h0
  have dCSp : (pawnCapturesList pos T).Disjoint (pawnSinglePromosList pos T) := by
    intro x hx hx'
    rw [mem_pawnCapturesList] at hx
    rw [mem_pawnSinglePromosList] at hx'
    obtain ⟨f, -, t', -, hm⟩ := hx
    obtain ⟨t'', -, f', -, hm'⟩ := hx'
    rw [mem_pushPromotions] at hm'
    obtain ⟨pr, -, hm'⟩ := hm'
    rw [hm, Move.normal.injEq] at hm'
    cases hm'.2.2.2.2
  have dCD : (pawnCapturesList pos T).Disjoint (pawnDoubleMovesList pos T) := by
    intro x hx hx'
    rw [mem_pawnCapturesList] at hx
    rw [mem_pawnDoubleMovesList] at hx'
    obtain ⟨f, -, t', ⟨-, hthem, -⟩, hm⟩ := hx
    obtain ⟨t'', -, f', -, hm'⟩ := hx'
    rw [hm, Move.normal.injEq] at hm'
    have h0 := them_roleAt_isSome pos t' hthem
    rw [hm'.2.2.1] at h0
    cases h0
  have dCpS : (pawnCapturePromosList pos T).Disjoint (pawnSingleMovesList pos T) := by
    intro x hx hx'
    rw [mem_pawnCapturePromosList] at hx
    rw [mem_pawnSingleMovesList] at hx'
    obtain ⟨f, -, t', -, hm⟩ := hx
    rw [mem_pushPromotions] at hm
    obtain ⟨pr, -, hm⟩ := hm
    obtain ⟨t'', -, f', -, hm'⟩ := hx'
    rw [hm, Move.normal.injEq] at hm'
    cases hm'.2.2.2.2
  have dCpSp : (pawnCapturePromosList pos T).Disjoint (pawnSinglePromosList pos T) := by
    intro x hx hx'
    rw [mem_pawnCapturePromosList] at hx
    rw [mem_pawnSinglePromosList] at hx'
    obtain ⟨f, -, t', ⟨-, hthem, -⟩, hm⟩ := hx
    rw [mem_pushPromotions] at hm
    obtain ⟨pr, -, hm⟩ := hm
    obtain ⟨t'', -, f', -, hm'⟩ := hx'
    rw [mem_pushPromotions] at hm'
    obtain ⟨pr', -, hm'⟩ := hm'
    rw [hm, Move.normal.injEq] at hm'
    have h0 := them_roleAt_isSome pos t' hthem
    rw [hm'.2.2.1] at h0
    cases h0
  have dCpD : (pawnCapturePromosList pos T).Disjoint (pawnDoubleMovesList pos T) := by
    intro x hx hx'
    rw [mem_pawnCapturePromosList] at hx
    rw [mem_pawnDoubleMovesList] at hx'
    obtain ⟨f, -, t', -, hm⟩ := hx
    rw [mem_pushPromotions] at hm
    obtain ⟨pr, -, hm⟩ := hm
    obtain ⟨t'', -, f', -, hm'⟩ := hx'
    rw [hm, Move.normal.injEq] at hm'
    cases hm'.2.2.2.2
  have dSSp : (pawnSingleMovesList pos T).Disjoint (pawnSinglePromosList pos T) := by
    intro x hx hx'
    rw [mem_pawnSingleMovesList] at hx
    rw [mem_pawnSinglePromosList] at hx'
    obtain ⟨t', -, f, -, hm⟩ := hx
    obtain ⟨t'', -, f', -, hm'⟩ := hx'
    rw [mem_pushPromotions] at hm'
    obtain ⟨pr, -, hm'⟩ := hm'
    rw [hm, Move.normal.injEq] at hm'
    cases hm'.2.2.2.2
  have dSD : (pawnSingleMovesList pos T).Disjoint (pawnDoubleMovesList pos T) := by
    intro x hx hx'
    rw [mem_pawnSingleMovesList] at hx
    rw [mem_pawnDoubleMovesList] at hx'
    obtain ⟨t', -, f, hoff, hm⟩ := hx
    obtain ⟨t'', -, f', hoff', hm'⟩ := hx'
    rw [hm, Move.normal.injEq] at hm'
    obtain ⟨-, hf, -, ht, -⟩ := hm'
    subst ht
    rw [← hf] at hoff'
    rw [offset_eq_some] at hoff hoff'
    cases hturn : pos.turn <;> rw [hturn] at hoff hoff' <;>
      simp only [Color.fold] at hoff hoff' <;> omega
  have dSpD : (pawnSinglePromosList pos T).Disjoint (pawnDoubleMovesList pos T) := by
    intro x hx hx'
    rw [mem_pawnSinglePromosList] at hx
    rw [mem_pawnDoubleMovesList] at hx'
    obtain ⟨t', -, f, -, hm⟩ := hx
    rw [mem_pushPromotions] at hm
    obtain ⟨pr, -, hm⟩ := hm
    obtain ⟨t'', -, f', -, hm'⟩ := hx'
    rw [hm, Move.normal.injEq] at hm'
    cases hm'.2.2.2.2
  unfold genPawnMoves
  refine List.Nodup.append (List.Nodup.append (List.Nodup.append
    (List.Nodup.append (pawnCapturesList_nodup pos T)
      (pawnCapturePromosList_nodup pos T) dCCp)
    (pawnSingleMovesList_nodup pos T) ?_)
    (pawnSinglePromosList_nodup pos T) ?_)
    (pawnDoubleMovesList_nodup pos T) ?_
  · intro x hx hx'
    rcases List.mem_append.mp hx with h | h
    · exact dCS h hx'
    · exact dCpS h hx'
  · intro x hx hx'
    rcases List.mem_append.mp hx with h | h
    · rcases List.mem_append.mp h with h2 | h2
      · exact dCSp h2 hx'
      · exact dCpSp h2 hx'
    · exact dSSp h hx'
  · intro x hx hx'
    rcases List.mem_append.mp hx with h | h
    · rcases List.mem_append.mp h with h2 | h2
      · rcases List.mem_append.mp h2 with h3 | h3
        · exact dCD h3 hx'
        · exact dCpD h3 hx'
      · exact dSD h2 hx'
    · exact dSpD h hx'
theorem genNonKing_nodup (pos : Chess) (T : Bitboard) :
    (genNonKing pos T).Nodup := by
  have dis : ∀ (r2 : Role) (att : Square → Bitboard) (l : List Move),
      (∀ x ∈ l, ∃ r1 f c t p, r1 ≠ r2 ∧ x = Move.normal r1 f c t p) →
      l.Disjoint (genPieceMoves pos r2 att T) := by
    intro r2 att l hl x hx hx'
    obtain ⟨r1, f, c, t, p, hne, hm⟩ := hl x hx
    rw [hm] at hx'
    exact not_mem_genPieceMoves_of_role pos r1 r2 att T f c t p hne hx'
  unfold genNonKing
  refine List.Nodup.append (List.Nodup.append (List.Nodup.append
    (List.Nodup.append (genPawnMoves_nodup pos T)
      (genPieceMoves_nodup pos .knight _ T) ?_)
    (genPieceMoves_nodup pos .bishop _ T) ?_)
    (genPieceMoves_nodup pos .rook _ T) ?_)
    (genPieceMoves_nodup pos .queen _ T) ?_
  · apply dis
    intro x hx
    obtain ⟨f, c, t, p, hm⟩ := genPawnMoves_shape pos T x hx
    exact ⟨.pawn, f, c, t, p, by decide, hm⟩
  · apply dis
    intro x hx
    rcases List.mem_append.mp hx with h | h
    · obtain ⟨f, c, t, p, hm⟩ := genPawnMoves_shape pos T x h
      exact ⟨.pawn, f, c, t, p, by decide, hm⟩
    · obtain ⟨f, c, t, hm⟩ := genPieceMoves_shape pos .knight _ T x h
      exact ⟨.knight, f, c, t, none, by decide, hm⟩
  · apply dis
    intro x hx
    rcases List.mem_append.mp hx with h | h
    · rcases List.mem_append.mp h with h2 | h2
      · obtain ⟨f, c, t, p, hm⟩ := genPawnMoves_shape pos T x h2
        exact ⟨.pawn, f, c, t, p, by decide, hm⟩
      · obtain ⟨f, c, t, hm⟩ := genPieceMoves_shape pos .knight _ T x h2
        exact ⟨.knight, f, c, t, none, by decide, hm⟩
    · obtain ⟨f, c, t, hm⟩ := genPieceMoves_shape pos .bishop _ T x h
      exact ⟨.bishop, f, c, t, none, by decide, hm⟩
  · apply dis
    intro x hx
    rcases List.mem_append.mp hx with h | h
    · rcases List.mem_append.mp h with h2 | h2
      · rcases List.mem_append.mp h2 with h3 | h3
        · obtain ⟨f, c, t, p, hm⟩ := genPawnMoves_shape pos T x h3
          exact ⟨.pawn, f, c, t, p, by decide, hm⟩
        · obtain ⟨f, c, t, hm⟩ := genPieceMoves_shape pos .knight _ T x h3
          exact ⟨.knight, f, c, t, none, by decide, hm⟩
      · obtain ⟨f, c, t, hm⟩ := genPieceMoves_shape pos .bishop _ T x h2
        exact ⟨.bishop, f, c, t, none, by decide, hm⟩
    · obtain ⟨f, c, t, hm⟩ := genPieceMoves_shape pos .rook _ T x h
      exact ⟨.rook, f, c, t, none, by decide, hm⟩

theorem evasions_nodup (pos : Chess) (king : Square) (checkers : Bitboard) :
    (evasions pos king checkers).Nodup := by
  unfold evasions
  refine List.Nodup.append (genSafeKing_nodup pos king _) ?_ ?_
  · cases checkers.singleSquare with
    | none => exact List.nodup_nil
    | some checker => exact genNonKing_nodup pos _
  · intro x hx hx'
    obtain ⟨c, t, hm⟩ := genSafeKing_shape pos king _ x hx
    cases hsq : checkers.singleSquare with
    | none =>
        rw [hsq] at hx'
        cases hx'
    | some checker =>
        rw [hsq] at hx'
        obtain ⟨r', f', c', t', p', hne, hm'⟩ := genNonKing_shape pos _ x hx'
        rw [hm, Move.normal.injEq] at hm'
        exact hne hm'.1.symm

theorem sanCandidatesBase_nodup (pos : Chess) (king : Square) (role : Role)
    (t : Square) : (sanCandidatesBase pos king role t).Nodup := by
  unfold sanCandidatesBase
  by_cases hchk : pos.checkers = ∅
  · rw [if_pos hchk]
    by_cases hus : t ∈ pos.us
    · rw [if_pos hus]
      exact List.nodup_nil
    · rw [if_neg hus]
      refine List.Nodup.append ?_ ?_ ?_
      · cases role with
        | pawn => exact genPawnMoves_nodup pos {t}
        | king => exact genSafeKing_nodup pos king {t}
        | knight => exact List.nodup_nil
        | bishop => exact List.nodup_nil
        | rook => exact List.nodup_nil
        | queen => exact List.nodup_nil
      · apply (List.nodup_map_iff_inj_on (toL_nodup _)).mpr
        intro a _ b _ hab
        rw [Move.normal.injEq] at hab
        exact hab.2.1
      · intro x hx hx'
        rw [List.mem_map] at hx'
        obtain ⟨xf, hxf, hm⟩ := hx'
        rw [mem_toL, Finset.mem_inter] at hxf
        cases role with
        | pawn =>
            have : xf ∈ (∅ : Bitboard) := hxf.1
            cases Finset.not_mem_empty xf this
        | king =>
            have : xf ∈ (∅ : Bitboard) := hxf.1
            cases Finset.not_mem_empty xf this
        | knight => cases hx
        | bishop => cases hx
        | rook => cases hx
        | queen => cases hx
  · rw [if_neg hchk]
    exact (evasions_nodup pos king pos.checkers).filter _
theorem count_sanC_le (pos : Chess) (king : Square) (role : Role) (t : Square)
    (m : Move) (hk : pos.board.kingOf pos.turn = some king) :
    (sanCandidatesC pos role t).count m ≤
      (sanCandidatesBase pos king role t).count m +
        (genEnPassant pos.board pos.turn pos.epSquare).count m := by
  unfold sanCandidatesC
  rw [hk]
  dsimp only []
  by_cases hEc : (role == Role.pawn && some t == pos.epSquare) = true
  · rw [if_pos hEc]
    split
    · refine le_trans ((List.filter_sublist _).count_le m) ?_
      rw [List.count_append]
    · rw [List.count_append]
  · rw [if_neg hEc, List.append_nil]
    split
    · exact le_trans ((List.filter_sublist _).count_le m) (Nat.le_add_right _ _)
    · exact Nat.le_add_right _ _

theorem count_sanC_normal_le_one (pos : Chess) (king : Square) (role : Role)
    (t : Square) (hk : pos.board.kingOf pos.turn = some king) (r : Role)
    (f : Square) (c : Option Role) (tt : Square) (p : Option Role) :
    (sanCandidatesC pos role t).count (Move.normal r f c tt p) ≤ 1 := by
  refine le_trans (count_sanC_le pos king role t _ hk) ?_
  have h1 := count_le_one_of_nodup _ (sanCandidatesBase_nodup pos king role t)
    (Move.normal r f c tt p)
  have h2 : (genEnPassant pos.board pos.turn pos.epSquare).count
      (Move.normal r f c tt p) = 0 :=
    List.count_eq_zero_of_not_mem (normal_not_mem_genEnPassant pos r f c tt p)
  omega

theorem count_sanC_ep_le_one (pos : Chess) (king : Square) (t : Square)
    (hk : pos.board.kingOf pos.turn = some king) (f tt : Square) :
    (sanCandidatesC pos .pawn t).count (Move.enPassant f tt) ≤ 1 := by
  refine le_trans (count_sanC_le pos king .pawn t _ hk) ?_
  have h1 : (sanCandidatesBase pos king .pawn t).count (Move.enPassant f tt) = 0 := by
    apply List.count_eq_zero_of_not_mem
    intro h
    obtain ⟨r', f', c', t', p', hm⟩ := sanCandidatesBase_shape pos king _ _ _ h
    cases hm
  have h2 := count_le_one_of_nodup _
    (genEnPassant_nodup pos.board pos.turn pos.epSquare) (Move.enPassant f tt)
  omega
theorem sanDisambStep_fst_of_mem (f : Square) (l : List Move)
    (acc : Bool × Bool) (r : Role) (cf : Square) (cc : Option Role)
    (ct : Square) (cp : Option Role)
    (hc : Move.normal r cf cc ct cp ∈ l) (hne : cf ≠ f)
    (hcond : ¬ (rankOf f = rankOf cf ∨ fileOf f ≠ fileOf cf)) :
    (l.foldl (sanDisambStep f) acc).1 = true := by
  induction l generalizing acc with
  | nil => cases hc
  | cons c l ih =>
      rw [List.foldl_cons]
      rcases List.mem_cons.mp hc with hc1 | hc2
      · apply sanDisambStep_fst_mono
        rw [← hc1]
        show (if cf = f then acc
          else if rankOf f = rankOf cf ∨ fileOf f ≠ fileOf cf then (acc.1, true)
          else (true, acc.2)).1 = true
        rw [if_neg hne, if_neg hcond]
      · exact ih _ hc2

theorem binding_fold (pos : Chess) (king : Square)
    (hk : pos.board.kingOf pos.turn = some king) (role : Role)
    (hrole : role ≠ Role.pawn) (f : Square) (cap : Option Role) (t : Square)
    (promo : Option Role)
    (hm : Move.normal role f cap t promo ∈ legalMoves pos) :
    (sanCandidatesC pos role t).filter
      (sanFilterPred
        (if ((sanCandidatesC pos role t).foldl (sanDisambStep f)
            (false, false)).2 then some (fileF f) else none)
        (if ((sanCandidatesC pos role t).foldl (sanDisambStep f)
            (false, false)).1 then some (rankF f) else none)
        cap.isSome promo) = [Move.normal role f cap t promo] := by
  have hmemC : Move.normal role f cap t promo ∈ sanCandidatesC pos role t :=
    mem_sanC_of_legal pos king hk role f cap t promo hm
  have hEcF : ((role == Role.pawn && some t == pos.epSquare) = true) → False := by
    intro h
    rw [Bool.and_eq_true, beq_iff_eq] at h
    exact hrole h.1
  have hbase : Move.normal role f cap t promo ∈
      sanCandidatesBase pos king role t := by
    have h := (mem_sanCandidatesC_iff pos king role t hk _).mp hmemC
    rcases h.1 with h1 | ⟨h1, -⟩
    · exact h1
    · exact absurd h1 (fun h2 => hEcF h2)
  obtain ⟨f0, hm0, -⟩ := sanC_nonpawn_shape pos king role t _ hrole hbase
  rw [Move.normal.injEq] at hm0
  obtain ⟨-, hf0, hcap, -, hpromo⟩ := hm0
  apply filter_eq_singleton _ _ _ hmemC
  · cases h2 : ((sanCandidatesC pos role t).foldl (sanDisambStep f)
        (false, false)).2 <;>
      cases h1 : ((sanCandidatesC pos role t).foldl (sanDisambStep f)
        (false, false)).1 <;>
      simp [sanFilterPred, fileF, rankF]
  · exact count_sanC_normal_le_one pos king role t hk role f cap t promo
  · intro x hx hpred
    have hxC := hx
    rw [mem_sanCandidatesC_iff pos king role t hk] at hx
    have hxbase : x ∈ sanCandidatesBase pos king role t := by
      rcases hx.1 with h1 | ⟨h1, -⟩
      · exact h1
      · exact absurd h1 (fun h2 => hEcF h2)
    obtain ⟨xf, hxm, -⟩ := sanC_nonpawn_shape pos king role t x hrole hxbase
    subst hxm
    by_cases hxf : xf = f
    · rw [hxf, hcap, hpromo]
    · exfalso
      by_cases hcond : rankOf f = rankOf xf ∨ fileOf f ≠ fileOf xf
      · have hflag := sanDisambStep_snd_of_mem f (sanCandidatesC pos role t)
          (false, false) role xf (pos.board.roleAt t) t none hxC hxf hcond
        rw [hflag] at hpred
        simp only [sanFilterPred, if_true, Option.elim_some] at hpred
        rw [Bool.and_eq_true, Bool.and_eq_true, Bool.and_eq_true] at hpred
        have hfile : fileOf xf = fileOf f := by
          have := hpred.1.1.1
          rw [beq_iff_eq] at this
          rw [← this]
          rfl
        rcases hcond with hcond | hcond
        · exact hxf (square_eq_of_file_rank xf f hfile hcond.symm)
        · exact hcond hfile.symm
      · have hflag := sanDisambStep_fst_of_mem f (sanCandidatesC pos role t)
          (false, false) role xf (pos.board.roleAt t) t none hxC hxf hcond
        rw [hflag] at hpred
        simp only [sanFilterPred, if_true, Option.elim_some] at hpred
        rw [Bool.and_eq_true, Bool.and_eq_true, Bool.and_eq_true] at hpred
        have hrank : rankOf xf = rankOf f := by
          have := hpred.1.1.2
          rw [beq_iff_eq] at this
          rw [← this]
          rfl
        rw [not_or, not_not] at hcond
        exact hxf (square_eq_of_file_rank xf f hcond.2.symm hrank)
theorem singles_doubles_contra (pos : Chess) (t : Square)
    (hs : t ∈ pawnSinglesBB pos) (hd : t ∈ pawnDoublesBB pos) : False := by
  obtain ⟨⟨s, hs1, hs2⟩, -⟩ := singlesBB_source pos t hs
  obtain ⟨⟨mid, hd1, hd2⟩, -⟩ := doublesBB_source pos t hd
  rw [hs1, Option.some.injEq] at hd1
  subst hd1
  have hocc := our_sub_occupied pos .pawn s hs2
  rw [pawnSinglesBB, Finset.mem_sdiff] at hd2
  exact hd2.2 hocc

theorem sanFilterPred_capture (fl rk : Option (Fin 8)) (capb : Bool)
    (promob : Option Role) (r : Role) (xf : Square) (xc : Option Role)
    (xt : Square) (xp : Option Role)
    (h : sanFilterPred fl rk capb promob (Move.normal r xf xc xt xp) = true) :
    capb = xc.isSome ∧ promob = xp := by
  simp only [sanFilterPred, Bool.and_eq_true, beq_iff_eq] at h
  exact ⟨h.1.2, h.2⟩

theorem sanFilterPred_file (a : Fin 8) (rk : Option (Fin 8)) (capb : Bool)
    (promob : Option Role) (r : Role) (xf : Square) (xc : Option Role)
    (xt : Square) (xp : Option Role)
    (h : sanFilterPred (some a) rk capb promob
      (Move.normal r xf xc xt xp) = true) :
    (a : Nat) = fileOf xf := by
  simp only [sanFilterPred, Option.elim_some, Bool.and_eq_true,
    beq_iff_eq] at h
  exact h.1.1.1

theorem sanFilterPred_ep (fl rk : Option (Fin 8)) (capb : Bool)
    (promob : Option Role) (xf xt : Square)
    (h : sanFilterPred fl rk capb promob (Move.enPassant xf xt) = true) :
    capb = true ∧ promob.isNone = true ∧
      ∀ a, fl = some a → (a : Nat) = fileOf xf := by
  simp only [sanFilterPred, Bool.and_eq_true] at h
  refine ⟨h.1.2, h.2, ?_⟩
  intro a ha
  subst ha
  have h2 := h.1.1.1
  simp only [Option.elim_some, beq_iff_eq] at h2
  exact h2

theorem sanFilterPred_ep_file (a : Fin 8) (rk : Option (Fin 8)) (capb : Bool)
    (promob : Option Role) (xf xt : Square)
    (h : sanFilterPred (some a) rk capb promob
      (Move.enPassant xf xt) = true) :
    (a : Nat) = fileOf xf :=
  (sanFilterPred_ep (some a) rk capb promob xf xt h).2.2 a rfl
theorem binding_pawn (pos : Chess) (king : Square)
    (hk : pos.board.kingOf pos.turn = some king)
    (hval : validate pos = PositionError.noErr)
    (f : Square) (cap : Option Role) (t : Square) (promo : Option Role)
    (hm : Move.normal .pawn f cap t promo ∈ legalMoves pos) :
    (sanCandidatesC pos .pawn t).filter
      (sanFilterPred (if cap.isSome then some (fileF f) else none) none
        cap.isSome promo) = [Move.normal .pawn f cap t promo] := by
  have hmemC : Move.normal .pawn f cap t promo ∈ sanCandidatesC pos .pawn t :=
    mem_sanC_of_legal pos king hk .pawn f cap t promo hm
  have hB : Move.normal .pawn f cap t promo ∈
      sanCandidatesBase pos king .pawn t := by
    have h := (mem_sanCandidatesC_iff pos king .pawn t hk _).mp hmemC
    rcases h.1 with h1 | ⟨-, h1⟩
    · exact h1
    · exact absurd h1 (normal_not_mem_genEnPassant pos .pawn f cap t promo)
  have hmc := pawn_candidate_cases pos king t _ hB
  apply filter_eq_singleton _ _ _ hmemC
  · cases hc : cap.isSome <;> simp [sanFilterPred, fileF, hc]
  · exact count_sanC_normal_le_one pos king .pawn t hk .pawn f cap t promo
  · intro x hx hpred
    have hxC := hx
    rw [mem_sanCandidatesC_iff pos king .pawn t hk] at hx
    obtain ⟨hx1, hxsafe⟩ := hx
    rcases hmc with ⟨f', hf1, hf2, hf3, hmeq⟩ | ⟨f', pr, hf1, hf2, hf3, hmeq⟩ |
      ⟨f', hf1, hf2, hmeq⟩ | ⟨f', pr, hf1, hf2, hmeq⟩ | ⟨f', hf1, hf2, hmeq⟩ <;>
      rw [Move.normal.injEq] at hmeq
    -- case 1: m is a plain capture
    · obtain ⟨-, hff, hfc, -, hfp⟩ := hmeq
      subst hff
      have hcs : cap.isSome = true := by
        rw [hfc]
        exact them_roleAt_isSome pos t hf3
      rw [show (if cap.isSome = true then some (fileF f) else none) =
        some (fileF f) from by simp [hcs]] at hpred
      rcases hx1 with hxB | ⟨hxEc, hxEp⟩
      · have hxc := pawn_candidate_cases pos king t x hxB
        rcases hxc with ⟨xf, hx1, hx2, hx3, hxeq⟩ |
          ⟨xf, xpr, hx1, hx2, hx3, hxeq⟩ | ⟨xf, hx1, hx2, hxeq⟩ |
          ⟨xf, xpr, hx1, hx2, hxeq⟩ | ⟨xf, hx1, hx2, hxeq⟩ <;> subst hxeq <;>
          have hcp := sanFilterPred_capture _ _ _ _ _ _ _ _ _ hpred
        · have hfl := sanFilterPred_file _ _ _ _ _ _ _ _ _ hpred
          have hxff : xf = f := pawnAttacks_origin_unique pos.turn xf f t hx2 hf2
            (by rw [← hfl]; rfl)
          rw [hxff, hfc, hfp]
        · rw [hfp] at hcp
          cases hcp.2
        · rw [hcs] at hcp
          cases hcp.1
        · rw [hcs] at hcp
          cases hcp.1
        · rw [hcs] at hcp
          cases hcp.1
      · exfalso
        obtain ⟨xf, xt, hxep, hxeq⟩ := genEnPassant_shape _ _ _ _ hxEp
        subst hxeq
        simp only [Bool.and_eq_true, beq_iff_eq] at hxEc
        have hxt : xt = t := by
          rw [← hxEc.2] at hxep
          exact (Option.some.inj hxep).symm
        subst hxt
        have hempty := ep_candidate_target_empty pos king hk hval xf xt hxEp hxsafe
        exact hempty (mem_byColor_occupied _ _ _ hf3)
    -- case 2: m is a capture promotion
    · obtain ⟨-, hff, hfc, -, hfp⟩ := hmeq
      subst hff
      have hcs : cap.isSome = true := by
        rw [hfc]
        exact them_roleAt_isSome pos t hf3
      rw [show (if cap.isSome = true then some (fileF f) else none) =
        some (fileF f) from by simp [hcs]] at hpred
      rcases hx1 with hxB | ⟨hxEc, hxEp⟩
      · have hxc := pawn_candidate_cases pos king t x hxB
        rcases hxc with ⟨xf, hx1, hx2, hx3, hxeq⟩ |
          ⟨xf, xpr, hx1, hx2, hx3, hxeq⟩ | ⟨xf, hx1, hx2, hxeq⟩ |
          ⟨xf, xpr, hx1, hx2, hxeq⟩ | ⟨xf, hx1, hx2, hxeq⟩ <;> subst hxeq <;>
          have hcp := sanFilterPred_capture _ _ _ _ _ _ _ _ _ hpred
        · rw [hfp] at hcp
          cases hcp.2
        · have hfl := sanFilterPred_file _ _ _ _ _ _ _ _ _ hpred
          have hxff : xf = f := pawnAttacks_origin_unique pos.turn xf f t hx2 hf2
            (by rw [← hfl]; rfl)
          rw [hxff, hfc, hcp.2]
        · rw [hcs] at hcp
          cases hcp.1
        · rw [hcs] at hcp
          cases hcp.1
        · rw [hcs] at hcp
          cases hcp.1
      · exfalso
        obtain ⟨xf, xt, hxep, hxeq⟩ := genEnPassant_shape _ _ _ _ hxEp
        subst hxeq
        simp only [Bool.and_eq_true, beq_iff_eq] at hxEc
        have hxt : xt = t := by
          rw [← hxEc.2] at hxep
          exact (Option.some.inj hxep).symm
        subst hxt
        have hempty := ep_candidate_target_empty pos king hk hval xf xt hxEp hxsafe
        exact hempty (mem_byColor_occupied _ _ _ hf3)
    -- case 3: m is a single push
    · obtain ⟨-, hff, hfc, -, hfp⟩ := hmeq
      subst hff
      have hcs : cap.isSome = false := by rw [hfc]; rfl
      rcases hx1 with hxB | ⟨hxEc, hxEp⟩
      · have hxc := pawn_candidate_cases pos king t x hxB
        rcases hxc with ⟨xf, hx1, hx2, hx3, hxeq⟩ |
          ⟨xf, xpr, hx1, hx2, hx3, hxeq⟩ | ⟨xf, hx1, hx2, hxeq⟩ |
          ⟨xf, xpr, hx1, hx2, hxeq⟩ | ⟨xf, hx1, hx2, hxeq⟩ <;> subst hxeq <;>
          have hcp := sanFilterPred_capture _ _ _ _ _ _ _ _ _ hpred
        · have h0 := them_roleAt_isSome pos t hx3
          rw [← hcp.1, hcs] at h0
          cases h0
        · have h0 := them_roleAt_isSome pos t hx3
          rw [← hcp.1, hcs] at h0
          cases h0
        · rw [hf2, Option.some.injEq] at hx2
          rw [← hx2, hfc, hfp]
        · rw [hfp] at hcp
          cases hcp.2
        · exact absurd hx1 (fun h => singles_doubles_contra pos t hf1 h)
      · exfalso
        obtain ⟨xf, xt, hxep, hxeq⟩ := genEnPassant_shape _ _ _ _ hxEp
        subst hxeq
        have hep := sanFilterPred_ep _ _ _ _ _ _ hpred
        rw [hcs] at hep
        cases hep.1
    -- case 4: m is a push promotion
    · obtain ⟨-, hff, hfc, -, hfp⟩ := hmeq
      subst hff
      have hcs : cap.isSome = false := by rw [hfc]; rfl
      rcases hx1 with hxB | ⟨hxEc, hxEp⟩
      · have hxc := pawn_candidate_cases pos king t x hxB
        rcases hxc with ⟨xf, hx1, hx2, hx3, hxeq⟩ |
          ⟨xf, xpr, hx1, hx2, hx3, hxeq⟩ | ⟨xf, hx1, hx2, hxeq⟩ |
          ⟨xf, xpr, hx1, hx2, hxeq⟩ | ⟨xf, hx1, hx2, hxeq⟩ <;> subst hxeq <;>
          have hcp := sanFilterPred_capture _ _ _ _ _ _ _ _ _ hpred
        · have h0 := them_roleAt_isSome pos t hx3
          rw [← hcp.1, hcs] at h0
          cases h0
        · have h0 := them_roleAt_isSome pos t hx3
          rw [← hcp.1, hcs] at h0
          cases h0
        · rw [hfp] at hcp
          cases hcp.2
        · rw [hf2, Option.some.injEq] at hx2
          rw [← hx2, hfc, hcp.2]
        · rw [hfp] at hcp
          cases hcp.2
      · exfalso
        obtain ⟨xf, xt, hxep, hxeq⟩ := genEnPassant_shape _ _ _ _ hxEp
        subst hxeq
        have hep := sanFilterPred_ep _ _ _ _ _ _ hpred
        rw [hcs] at hep
        cases hep.1
    -- case 5: m is a double push
    · obtain ⟨-, hff, hfc, -, hfp⟩ := hmeq
      subst hff
      have hcs : cap.isSome = false := by rw [hfc]; rfl
      rcases hx1 with hxB | ⟨hxEc, hxEp⟩
      · have hxc := pawn_candidate_cases pos king t x hxB
        rcases hxc with ⟨xf, hx1, hx2, hx3, hxeq⟩ |
          ⟨xf, xpr, hx1, hx2, hx3, hxeq⟩ | ⟨xf, hx1, hx2, hxeq⟩ |
          ⟨xf, xpr, hx1, hx2, hxeq⟩ | ⟨xf, hx1, hx2, hxeq⟩ <;> subst hxeq <;>
          have hcp := sanFilterPred_capture _ _ _ _ _ _ _ _ _ hpred
        · have h0 := them_roleAt_isSome pos t hx3
          rw [← hcp.1, hcs] at h0
          cases h0
        · have h0 := them_roleAt_isSome pos t hx3
          rw [← hcp.1, hcs] at h0
          cases h0
        · exact absurd hf1 (fun h => singles_doubles_contra pos t hx1 h)
        · rw [hfp] at hcp
          cases hcp.2
        · rw [hf2, Option.some.injEq] at hx2
          rw [← hx2, hfc, hfp]
      · exfalso
        obtain ⟨xf, xt, hxep, hxeq⟩ := genEnPassant_shape _ _ _ _ hxEp
        subst hxeq
        have hep := sanFilterPred_ep _ _ _ _ _ _ hpred
        rw [hcs] at hep
        cases hep.1
theorem binding_ep (pos : Chess) (king : Square)
    (hk : pos.board.kingOf pos.turn = some king)
    (hval : validate pos = PositionError.noErr) (f t : Square)
    (hm : Move.enPassant f t ∈ legalMoves pos) :
    (sanCandidatesC pos .pawn t).filter
      (sanFilterPred (some (fileF f)) none true none) =
      [Move.enPassant f t] := by
  rw [mem_legalMoves_iff pos king hk] at hm
  obtain ⟨hm1, hsafe⟩ := hm
  have hmEp : Move.enPassant f t ∈ genEnPassant pos.board pos.turn pos.epSquare := by
    rcases hm1 with h | h
    · exact h
    · exfalso
      rcases legalMovesBase_shape pos king _ h with ⟨r', f', c', t', p', hmeq⟩ |
        ⟨side, r', -, hmeq⟩ <;> cases hmeq
  have hep : pos.epSquare = some t := by
    obtain ⟨f', t', hep', hmeq⟩ := genEnPassant_shape _ _ _ _ hmEp
    rw [Move.enPassant.injEq] at hmeq
    rw [hep', hmeq.2]
  have hEc : (Role.pawn == Role.pawn && some t == pos.epSquare) = true := by
    rw [hep]
    simp
  have hmemC : Move.enPassant f t ∈ sanCandidatesC pos .pawn t :=
    (mem_sanCandidatesC_iff pos king .pawn t hk _).mpr
      ⟨Or.inr ⟨hEc, hmEp⟩, hsafe⟩
  have hempty : t ∉ pos.board.occupied :=
    ep_candidate_target_empty pos king hk hval f t hmEp hsafe
  have hmAtt : f ∈ pawnAttacks pos.turn.other t := by
    rw [mem_genEnPassant] at hmEp
    obtain ⟨t', hep', f', ⟨-, -, hatt⟩, hmeq⟩ := hmEp
    rw [Move.enPassant.injEq] at hmeq
    rw [← hmeq.1, ← hmeq.2] at hatt
    exact hatt
  apply filter_eq_singleton _ _ _ hmemC
  · simp [sanFilterPred, fileF]
  · exact count_sanC_ep_le_one pos king t hk f t
  · intro x hx hpred
    rw [mem_sanCandidatesC_iff pos king .pawn t hk] at hx
    obtain ⟨hx1, hxsafe⟩ := hx
    rcases hx1 with hxB | ⟨-, hxEp⟩
    · exfalso
      have hxc := pawn_candidate_cases pos king t x hxB
      rcases hxc with ⟨xf, hx1, hx2, hx3, hxeq⟩ |
        ⟨xf, xpr, hx1, hx2, hx3, hxeq⟩ | ⟨xf, hx1, hx2, hxeq⟩ |
        ⟨xf, xpr, hx1, hx2, hxeq⟩ | ⟨xf, hx1, hx2, hxeq⟩ <;> subst hxeq <;>
        have hcp := sanFilterPred_capture _ _ _ _ _ _ _ _ _ hpred
      · exact hempty (mem_byColor_occupied _ _ _ hx3)
      · exact hempty (mem_byColor_occupied _ _ _ hx3)
      · cases hcp.1
      · cases hcp.1
      · cases hcp.1
    · obtain ⟨xf, xt, hxep, hxeq⟩ := genEnPassant_shape _ _ _ _ hxEp
      subst hxeq
      have hxt : xt = t := by
        rw [hep] at hxep
        exact (Option.some.inj hxep).symm
      subst hxt
      have hxAtt : xf ∈ pawnAttacks pos.turn.other xt := by
        rw [mem_genEnPassant] at hxEp
        obtain ⟨t', hep', f', ⟨-, -, hatt⟩, hmeq⟩ := hxEp
        rw [Move.enPassant.injEq] at hmeq
        rw [← hmeq.1, ← hmeq.2] at hatt
        exact hatt
      have hfl := sanFilterPred_ep_file _ _ _ _ _ _ hpred
      have hxff : xt = xt := rfl
      have : xf = f := by
        apply pawnAttacks_target_unique pos.turn.other xt xf f hxAtt hmAtt
        rw [← hfl]
        rfl
      rw [this]
theorem binding_castle (pos : Chess) (king : Square)
    (hk : pos.board.kingOf pos.turn = some king) (hWF2 : CastlingWF pos)
    (k r : Square) (hm : Move.castle k r ∈ legalMoves pos) :
    castlingMovesC pos
      (if fileOf r < fileOf k then CastlingSide.queenSide
       else CastlingSide.kingSide) = [Move.castle k r] := by
  rw [mem_legalMoves_iff pos king hk] at hm
  obtain ⟨hm1, -⟩ := hm
  have hbase : Move.castle k r ∈ legalMovesBase pos king := by
    rcases hm1 with h | h
    · exfalso
      obtain ⟨f', t', -, hmeq⟩ := genEnPassant_shape _ _ _ _ h
      cases hmeq
    · exact h
  unfold legalMovesBase at hbase
  by_cases hchk : pos.checkers = ∅
  · rw [if_pos hchk] at hbase
    simp only [List.mem_append] at hbase
    have hside : ∃ side, Move.castle k r ∈ genCastlingMoves pos king side := by
      rcases hbase with ((h | h) | h) | h
      · exfalso
        obtain ⟨r', f', c', t', p', -, hmeq⟩ := genNonKing_shape pos _ _ h
        cases hmeq
      · exfalso
        obtain ⟨c', t', hmeq⟩ := genSafeKing_shape pos king _ _ h
        cases hmeq
      · exact ⟨.kingSide, h⟩
      · exact ⟨.queenSide, h⟩
    obtain ⟨side, hgen⟩ := hside
    obtain ⟨r₀, hslot, hmeq⟩ := genCastlingMoves_shape pos king side _ hgen
    rw [Move.castle.injEq] at hmeq
    obtain ⟨hkk, hrr⟩ := hmeq
    rw [hkk, hrr]
    obtain ⟨k₀, hk₀, hne, hiff⟩ := hWF2 pos.turn side r₀ hslot
    rw [hk] at hk₀
    have hk₀' : king = k₀ := Option.some.inj hk₀
    rw [← hk₀'] at hne hiff
    have hsideEq : (if fileOf r₀ < fileOf king then CastlingSide.queenSide
        else CastlingSide.kingSide) = side := by
      cases side with
      | kingSide =>
          rw [if_neg]
          intro hcon
          have h2 := hiff.mp rfl
          omega
      | queenSide =>
          rw [if_pos]
          have h2 : ¬ fileOf king < fileOf r₀ := by
            intro hcon
            cases hiff.mpr hcon
          omega
    rw [hsideEq, castlingMovesC_eq pos king side hk]
    rcases genCastlingMoves_cases pos king side with hc | ⟨r₁, hslot₁, hc⟩
    · rw [hc] at hgen
      cases hgen
    · rw [hc]
      rw [hslot] at hslot₁
      rw [Option.some.inj hslot₁]
  · exfalso
    rw [if_neg hchk] at hbase
    obtain ⟨r', f', c', t', p', hmeq⟩ := evasions_shape pos king _ _ hbase
    cases hmeq
/-- C4: on a well-formed position, every emitted legal move survives the SAN
round trip: printing `san(P, m)` and re-parsing the bytes recovers the same
SAN value, and `San::to_move` binds that SAN back to exactly `m`. -/
theorem c4_san_roundtrip (pos : Chess) (m : Move) (hWF : WellFormed pos)
    (hm : m ∈ legalMoves pos) :
    sanFromBytes (sanBytes (san pos m)) = some (san pos m) ∧
      sanToMove (san pos m) pos = Except.ok m := by
  obtain ⟨king, hk⟩ := exists_king_of_validate pos hWF.1
  cases m with
  | put role t =>
      exfalso
      rw [mem_legalMoves_iff pos king hk] at hm
      rcases hm.1 with h | h
      · obtain ⟨f', t', -, hmeq⟩ := genEnPassant_shape _ _ _ _ h
        cases hmeq
      · rcases legalMovesBase_shape pos king _ h with ⟨r', f', c', t', p', hmeq⟩ |
          ⟨side, r', -, hmeq⟩ <;> cases hmeq
  | castle k r =>
      have hsan : san pos (Move.castle k r) =
          San.castle (if fileOf r < fileOf k then CastlingSide.queenSide
            else CastlingSide.kingSide) := by
        by_cases h : fileOf r < fileOf k <;> simp [san, h]
      rw [hsan]
      exact ⟨sanFromBytes_rt_castle _,
        sanToMove_castle_of pos _ _ (binding_castle pos king hk hWF.2 k r hm)⟩
  | enPassant f t =>
      have hsan : san pos (Move.enPassant f t) =
          San.normal .pawn (some (fileF f)) none true t none := rfl
      rw [hsan]
      exact ⟨sanFromBytes_rt_normal .pawn (some (fileF f)) none true t none
          (fun _ => rfl),
        sanToMove_normal_of_filter pos .pawn _ _ _ _ _ _
          (binding_ep pos king hk hWF.1 f t hm)⟩
  | normal role f cap t promo =>
      cases role with
      | pawn =>
          have hsan : san pos (Move.normal .pawn f cap t promo) =
              San.normal .pawn (if cap.isSome then some (fileF f) else none)
                none cap.isSome t promo := rfl
          rw [hsan]
          exact ⟨sanFromBytes_rt_normal _ _ _ _ _ _ (fun _ => rfl),
            sanToMove_normal_of_filter pos .pawn _ _ _ _ _ _
              (binding_pawn pos king hk hWF.1 f cap t promo hm)⟩
      | knight =>
          have hsan : san pos (Move.normal .knight f cap t promo) =
              San.normal .knight
                (if ((sanCandidatesC pos .knight t).foldl (sanDisambStep f)
                  (false, false)).2 then some (fileF f) else none)
                (if ((sanCandidatesC pos .knight t).foldl (sanDisambStep f)
                  (false, false)).1 then some (rankF f) else none)
                cap.isSome t promo := rfl
          rw [hsan]
          exact ⟨sanFromBytes_rt_normal _ _ _ _ _ _ (fun h => nomatch h),
            sanToMove_normal_of_filter pos .knight _ _ _ _ _ _
              (binding_fold pos king hk .knight (by decide) f cap t promo hm)⟩
      | bishop =>
          have hsan : san pos (Move.normal .bishop f cap t promo) =
              San.normal .bishop
                (if ((sanCandidatesC pos .bishop t).foldl (sanDisambStep f)
                  (false, false)).2 then some (fileF f) else none)
                (if ((sanCandidatesC pos .bishop t).foldl (sanDisambStep f)
                  (false, false)).1 then some (rankF f) else none)
                cap.isSome t promo := rfl
          rw [hsan]
          exact ⟨sanFromBytes_rt_normal _ _ _ _ _ _ (fun h => nomatch h),
            sanToMove_normal_of_filter pos .bishop _ _ _ _ _ _
              (binding_fold pos king hk .bishop (by decide) f cap t promo hm)⟩
      | rook =>
          have hsan : san pos (Move.normal .rook f cap t promo) =
              San.normal .rook
                (if ((sanCandidatesC pos .rook t).foldl (sanDisambStep f)
                  (false, false)).2 then some (fileF f) else none)
                (if ((sanCandidatesC pos .rook t).foldl (sanDisambStep f)
                  (false, false)).1 then some (rankF f) else none)
                cap.isSome t promo := rfl
          rw [hsan]
          exact ⟨sanFromBytes_rt_normal _ _ _ _ _ _ (fun h => nomatch h),
            sanToMove_normal_of_filter pos .rook _ _ _ _ _ _
              (binding_fold pos king hk .rook (by decide) f cap t promo hm)⟩
      | queen =>
          have hsan : san pos (Move.normal .queen f cap t promo) =
              San.normal .queen
                (if ((sanCandidatesC pos .queen t).foldl (sanDisambStep f)
                  (false, false)).2 then some (fileF f) else none)
                (if ((sanCandidatesC pos .queen t).foldl (sanDisambStep f)
                  (false, false)).1 then some (rankF f) else none)
                cap.isSome t promo := rfl
          rw [hsan]
          exact ⟨sanFromBytes_rt_normal _ _ _ _ _ _ (fun h => nomatch h),
            sanToMove_normal_of_filter pos .queen _ _ _ _ _ _
              (binding_fold pos king hk .queen (by decide) f cap t promo hm)⟩
      | king =>
          have hsan : san pos (Move.normal .king f cap t promo) =
              San.normal .king
                (if ((sanCandidatesC pos .king t).foldl (sanDisambStep f)
                  (false, false)).2 then some (fileF f) else none)
                (if ((sanCandidatesC pos .king t).foldl (sanDisambStep f)
                  (false, false)).1 then some (rankF f) else none)
                cap.isSome t promo := rfl
          rw [hsan]
          exact ⟨sanFromBytes_rt_normal _ _ _ _ _ _ (fun h => nomatch h),
            sanToMove_normal_of_filter pos .king _ _ _ _ _ _
              (binding_fold pos king hk .king (by decide) f cap t promo hm)⟩
/-- Witness for C4: in the two-king position the move Ke1-d1 round-trips
through its SAN form. -/
theorem c4_san_witness :
    (WellFormed posC4 ∧
      Move.normal .king 4 none 3 none ∈ legalMoves posC4) ∧
      (sanFromBytes (sanBytes (san posC4 (Move.normal .king 4 none 3 none))) =
          some (san posC4 (Move.normal .king 4 none 3 none)) ∧
        sanToMove (san posC4 (Move.normal .king 4 none 3 none)) posC4 =
          Except.ok (Move.normal .king 4 none 3 none)) := by
  have hwf : WellFormed posC4 := by
    constructor
    · decide
    · unfold CastlingWF
      decide
  have hmem : Move.normal .king 4 none 3 none ∈ legalMoves posC4 := by decide
  exact ⟨⟨hwf, hmem⟩, c4_san_roundtrip posC4 _ hwf hmem⟩

end Shakmaty
